import Mathlib

/-!
Verification development for `coders/xml.cpp`.

A shallow embedding of the XML / VCM document engine of the repository
(`src/coders/xml.cpp`): the value model (`Attribute`), the tree model
(`Node`, `Document`), the XML dialect parser, the VCM dialect parser and the
serializer, followed by theorems about them.

Conventions of the embedding

* A C++ `std::string` is a `List Char` (`Str`); one `Char` stands for one `char`.
* The parser object `(source, pos)` is represented by the unread suffix
  `source[pos..]`; consuming a character drops the head of the list.
* A C++ exception is a value of `Error`; a function that may throw returns
  `Except Error _`.
* Loops are recursive functions with a fuel argument; the callers pass a bound
  that grows with the length of the unread input, and the constructor
  `Error.fuel` is kept apart from the program's own failures, so that no
  theorem takes an exhausted bound for a failure of the program.
* `float` arithmetic is exact rational arithmetic.
* The lexical core (`coders/BasicParser.hpp`) and the string utilities
  (`util/stringutil.hpp`) are not among the sources; their models carry a doc
  comment that says so.
-/

namespace xml

/-- A `std::string`, as the list of its characters. -/
abbrev Str := List Char

/-- Failures. `parsing` is the `parsing_error` built by `BasicParser::error`,
`runtime` a `std::runtime_error` thrown by the accessors, `invalidArgument` and
`outOfRange` the two exceptions of `std::stoll`. `fuel` is not an outcome of the
program: it marks a recursion bound of the embedding that was reached. -/
inductive Error where
  | parsing (message : String)
  | runtime (message : String)
  | invalidArgument
  | outOfRange
  | fuel
deriving DecidableEq, Repr

/-! ## Value model -/

/-- The class `xml::Attribute`: a name and its raw text. -/
structure Attribute where
  name : Str
  text : Str
deriving DecidableEq, Repr

/-- The class `xml::Node`: a tag, the attribute map and the owned children.
The `std::unordered_map<std::string, Attribute>` is an association list keyed
by the attribute name, in which `Node.set` keeps the names unique. -/
inductive Node where
  | mk (tag : Str) (attrs : List Attribute) (elements : List Node)
deriving Repr

mutual
/-- Equality of two nodes is decidable. -/
def Node.decEq : (a b : Node) → Decidable (a = b)
  | .mk t1 a1 e1, .mk t2 a2 e2 =>
    if ht : t1 = t2 then
      if ha : a1 = a2 then
        match Node.decEqList e1 e2 with
        | isTrue he => isTrue (by rw [ht, ha, he])
        | isFalse he => isFalse (fun h => he (by cases h; rfl))
      else isFalse (fun h => ha (by cases h; rfl))
    else isFalse (fun h => ht (by cases h; rfl))
/-- Equality of two lists of nodes is decidable. -/
def Node.decEqList : (a b : List Node) → Decidable (a = b)
  | [], [] => isTrue rfl
  | [], _ :: _ => isFalse (fun h => by cases h)
  | _ :: _, [] => isFalse (fun h => by cases h)
  | x :: xs, y :: ys =>
    match Node.decEq x y with
    | isTrue hx =>
      match Node.decEqList xs ys with
      | isTrue hs => isTrue (by rw [hx, hs])
      | isFalse hs => isFalse (fun h => hs (by cases h; rfl))
    | isFalse hx => isFalse (fun h => hx (by cases h; rfl))
end

instance : DecidableEq Node := Node.decEq

deriving instance DecidableEq for Except

/-- `Node::getTag`. -/
def Node.getTag : Node → Str
  | .mk tag _ _ => tag

/-- `Node::getAttributes`. -/
def Node.getAttributes : Node → List Attribute
  | .mk _ attrs _ => attrs

/-- `Node::getElements`. -/
def Node.getElements : Node → List Node
  | .mk _ _ elements => elements

/-- `Node::Node(std::string tag)`: no attributes, no children. -/
def Node.new (tag : Str) : Node := .mk tag [] []

/-- `Node::add`: `elements.push_back(std::move(element))`. -/
def Node.add (node : Node) (element : Node) : Node :=
  .mk node.getTag node.getAttributes (node.getElements ++ [element])

/-- The map assignment `attrs[name] = value`: replaces the entry of `name` when
there is one, inserts a new entry otherwise. -/
def mapAssign : List Attribute → Str → Attribute → List Attribute
  | [], _, value => [value]
  | a :: rest, name, value =>
    if a.name = name then value :: rest else a :: mapAssign rest name value

/-- The map lookup `attrs.find(name)`; `none` is `attrs.end()`. -/
def mapFind : List Attribute → Str → Option Attribute
  | [], _ => none
  | a :: rest, name => if a.name = name then some a else mapFind rest name

/-- `Node::set`: `attrs[name] = Attribute(name, text)`. -/
def Node.set (node : Node) (name text : Str) : Node :=
  .mk node.getTag (mapAssign node.getAttributes name ⟨name, text⟩) node.getElements

/-- `Node::attr(name)`: the stored attribute, or the runtime error
`element <tag ...> missing attribute name`. -/
def Node.attr (node : Node) (name : Str) : Except Error Attribute :=
  match mapFind node.getAttributes name with
  | none =>
    .error (.runtime ("element <" ++ String.mk node.getTag ++ " ...> missing attribute "
      ++ String.mk name))
  | some found => .ok found

/-- `Node::attr(name, def)`: the stored attribute, or `Attribute(name, def)`. -/
def Node.attrOr (node : Node) (name def_ : Str) : Attribute :=
  match mapFind node.getAttributes name with
  | none => ⟨name, def_⟩
  | some found => found

/-- `Node::has`. -/
def Node.has (node : Node) (name : Str) : Bool :=
  (mapFind node.getAttributes name).isSome

/-- `Node::sub(index)`: `*elements.at(index)`, which throws `std::out_of_range`
for an index that is not below the size. -/
def Node.sub (node : Node) (index : Nat) : Except Error Node :=
  match node.getElements.get? index with
  | none => .error .outOfRange
  | some element => .ok element

/-- `Node::size`. -/
def Node.size (node : Node) : Nat := node.getElements.length

/-- Modelled from the spec: `Node::isText` is declared in `coders/xml.hpp`,
which is not among the sources. The spec: the sentinel tag `"#"` denotes a
text-content pseudo-node. -/
def Node.isText (node : Node) : Bool := node.getTag == ['#']

/-- The class `xml::Document`: version, encoding and the owned root, which is
null until `setRoot`. -/
structure Document where
  version : Str
  encoding : Str
  root : Option Node
deriving DecidableEq, Repr

/-- `Document::Document(version, encoding)`. -/
def Document.new (version encoding : Str) : Document := ⟨version, encoding, none⟩

/-- `Document::setRoot`. -/
def Document.setRoot (document : Document) (element : Node) : Document :=
  { document with root := some element }

/-! ## Lexical core

`coders/BasicParser.hpp` is not among the sources. The primitives below are the
ones `xml.cpp` calls; the state of the scanner is the unread suffix of the
source text. Line and column bookkeeping only feeds the text of error messages
and is left out. -/

/-- Modelled from the spec: `is_whitespace` of the lexical core (not among the
sources): blank, tab, line feed, carriage return, form feed. -/
def is_whitespace (c : Char) : Bool :=
  c == ' ' || c == '\t' || c == '\n' || c == '\r' || c == Char.ofNat 12

/-- Modelled from the spec: `is_digit` of the lexical core (not among the
sources): the decimal digits. -/
def is_digit (c : Char) : Bool := '0'.toNat ≤ c.toNat && c.toNat ≤ '9'.toNat

/-- Modelled from the spec: `is_identifier_start` of the lexical core (not among
the sources). The spec: a name starts with a letter or an underscore (the XML
variant adds the colon itself). -/
def is_identifier_start (c : Char) : Bool :=
  ('a'.toNat ≤ c.toNat && c.toNat ≤ 'z'.toNat) ||
  ('A'.toNat ≤ c.toNat && c.toNat ≤ 'Z'.toNat) || c == '_'

/-- Modelled from the spec: `is_identifier_part` of the lexical core (not among
the sources). The spec: a name continues with letters, digits and underscores
(the XML variant adds `-`, `.` and `:` itself). -/
def is_identifier_part (c : Char) : Bool := is_identifier_start c || is_digit c

/-- `is_xml_identifier_start`. -/
def is_xml_identifier_start (c : Char) : Bool := is_identifier_start c || c == ':'

/-- `is_xml_identifier_part`. -/
def is_xml_identifier_part (c : Char) : Bool :=
  is_identifier_part c || c == '-' || c == '.' || c == ':'

/-- Modelled from the spec: `BasicParser::hasNext` (not among the sources). -/
def hasNext (s : Str) : Bool := !s.isEmpty

/-- Whitespace skipping in hash-comment mode: `inComment` is true while the
scanner is inside a `#` line comment, which ends with the line. -/
def skipWhitespaceHashComment : Bool → Str → Str
  | _, [] => []
  | true, c :: s =>
    if c == '\n' then skipWhitespaceHashComment false s
    else skipWhitespaceHashComment true s
  | false, c :: s =>
    if is_whitespace c then skipWhitespaceHashComment false s
    else if c == '#' then skipWhitespaceHashComment true s
    else c :: s

/-- Modelled from the spec: `BasicParser::skipWhitespace` (not among the
sources). The spec: whitespace skipping; the hash-comment mode flag makes it
also skip `#`-prefixed line comments. -/
def skipWhitespace (hashComment : Bool) (s : Str) : Str :=
  if hashComment then skipWhitespaceHashComment false s else s.dropWhile is_whitespace

/-- Modelled from the spec: `BasicParser::peek` (not among the sources): the
character at the cursor, not consumed. As in the lexical core the parsers are
built on, it skips whitespace first and fails with `unexpected end` at the end
of the source. The result carries the state after the whitespace. -/
def peek (hashComment : Bool) (s : Str) : Except Error (Char × Str) :=
  match skipWhitespace hashComment s with
  | [] => .error (.parsing "unexpected end")
  | c :: rest => .ok (c, c :: rest)

/-- Modelled from the spec: `BasicParser::nextChar` (not among the sources):
advance one char, returning it; fails at the end of the source. -/
def nextChar (s : Str) : Except Error (Char × Str) :=
  match s with
  | [] => .error (.parsing "unexpected end")
  | c :: rest => .ok (c, rest)

/-- Modelled from the spec: `BasicParser::skip(n)` (not among the sources). -/
def skip (n : Nat) (s : Str) : Str := s.drop n

/-- Modelled from the spec: `BasicParser::isNext(string)` (not among the
sources): non-consuming lookahead. -/
def isNext (substring : Str) (s : Str) : Bool := substring.isPrefixOf s

/-- Modelled from the spec: `BasicParser::expect(char)` (not among the
sources): fails with a syntax error if not matched, else consumes. It looks at
the character through `peek`. -/
def expectChar (hashComment : Bool) (expected : Char) (s : Str) : Except Error Str := do
  let (c, s) ← peek hashComment s
  if c != expected then
    throw (.parsing ("'" ++ String.singleton expected ++ "' expected"))
  return s.drop 1

/-- Modelled from the spec: `BasicParser::expect(string)` (not among the
sources): fails with a syntax error if not matched, else consumes. -/
def expectStr (substring : Str) (s : Str) : Except Error Str :=
  if substring.isPrefixOf s then .ok (s.drop substring.length)
  else .error (.parsing ("\"" ++ String.mk substring ++ "\" expected"))

/-- Modelled from the spec: `BasicParser::skipTo(substring)` (not among the
sources): moves the cursor to the first occurrence of `substring` and returns
true, or moves to the end of the source and returns false. -/
def skipTo (substring : Str) : Str → Bool × Str
  | [] => (substring.isEmpty, [])
  | c :: s => if substring.isPrefixOf (c :: s) then (true, c :: s) else skipTo substring s

/-- Modelled from the spec: `BasicParser::readUntil(char)` (not among the
sources): the slice up to the first occurrence of the character (or to the end),
which is not consumed. -/
def readUntil (c : Char) (s : Str) : Str × Str := s.span (fun x => x != c)

/-- Modelled from the spec: `BasicParser::readUntilWhitespace` (not among the
sources): the slice up to the first whitespace character (or to the end). -/
def readUntilWhitespace (s : Str) : Str × Str := s.span (fun x => !is_whitespace x)

/-- The character a backslash escape stands for, `none` for a character that
does not name an escape. -/
def unescapeChar (c : Char) : Option Char :=
  if c == 'n' then some '\n'
  else if c == 'r' then some '\r'
  else if c == 't' then some '\t'
  else if c == 'b' then some (Char.ofNat 8)
  else if c == 'f' then some (Char.ofNat 12)
  else if c == '\'' then some '\''
  else if c == '"' then some '"'
  else if c == '\\' then some '\\'
  else if c == '/' then some '/'
  else none

/-- Modelled from the spec: `BasicParser::parseString(quote, closeRequired)`
(not among the sources). The spec: consumes up to the matching unescaped quote,
or to the end when no closing quote is required, decoding backslash escapes.
With `closeRequired` the end of the source and a raw line feed are errors. -/
def parseString (quote : Char) (closeRequired : Bool) : Str → Except Error (Str × Str)
  | [] => if closeRequired then .error (.parsing "unexpected end") else .ok ([], [])
  | c :: s =>
    if c == quote then .ok ([], s)
    else if c == '\\' then
      match s with
      | [] => .error (.parsing "unexpected end")
      | e :: s' =>
        match unescapeChar e with
        | none => .error (.parsing "illegal escape")
        | some d =>
          match parseString quote closeRequired s' with
          | .error err => .error err
          | .ok (text, rest) => .ok (d :: text, rest)
    else if c == '\n' && closeRequired then .error (.parsing "non-closed string literal")
    else
      match parseString quote closeRequired s with
      | .error err => .error err
      | .ok (text, rest) => .ok (c :: text, rest)

/-- Modelled from the spec: `BasicParser::parseName` (not among the sources):
reads an identifier at the cursor, failing when none starts there. -/
def parseName (hashComment : Bool) (s : Str) : Except Error (Str × Str) := do
  let (c, s) ← peek hashComment s
  if !is_identifier_start c then
    throw (.parsing "identifier expected")
  return s.span is_identifier_part

/-- Modelled from the spec: `BasicParser::goBack` (not among the sources):
un-consume one position. A state is a suffix of the source, so the state one
position back is the suffix that is one character longer. -/
def goBack (source s : Str) : Str := source.drop (source.length - s.length - 1)

/-- Replaces the occurrences of `pattern`, scanning left to right and resuming
after each replacement: `skipped` counts the characters of a matched occurrence
that are still to be dropped. -/
def replaceAllAux (pattern replacement : Str) : Nat → Str → Str
  | _, [] => []
  | 0, c :: s =>
    if pattern.isPrefixOf (c :: s) then
      replacement ++ replaceAllAux pattern replacement (pattern.length - 1) s
    else c :: replaceAllAux pattern replacement 0 s
  | skipped + 1, _ :: s => replaceAllAux pattern replacement skipped s

/-- Modelled from the spec: `util::replaceAll(str, from, to)` of
`util/stringutil.hpp` (not among the sources): every occurrence of `from`
becomes `to`, left to right, the replaced text not being scanned again. -/
def replaceAll (str pattern replacement : Str) : Str :=
  if pattern.isEmpty then str else replaceAllAux pattern replacement 0 str

/-! ## XML dialect parser (`class Parser`) -/

/-- `Parser::parseXMLName`. -/
def parseXMLName (s : Str) : Except Error (Str × Str) := do
  let (c, s) ← peek false s
  if !is_xml_identifier_start c then
    throw (.parsing "identifier expected")
  return s.span is_xml_identifier_part

/-- The attribute loop `while (true)` of `Parser::parseOpenTag`. -/
def parseOpenTagLoop : Nat → Node → Str → Except Error (Node × Str)
  | 0, _, _ => .error .fuel
  | fuel + 1, node, s => do
    let s := skipWhitespace false s
    let (c, s) ← peek false s
    if c == '/' || c == '>' || c == '?' then
      return (node, s)
    let (attrname, s) ← parseXMLName s
    let s := skipWhitespace false s
    let (c, s) ← peek false s
    if c == '=' then
      let (_, s) ← nextChar s
      let s := skipWhitespace false s
      let (quote, s) ← peek false s
      if quote != '\'' && quote != '"' then
        throw (.parsing "string literal expected")
      let s := skip 1 s
      let (attrtext, s) ← parseString quote true s
      parseOpenTagLoop fuel (node.set attrname attrtext) s
    else
      parseOpenTagLoop fuel (node.set attrname []) s

/-- `Parser::parseOpenTag`. -/
def parseOpenTag (s : Str) : Except Error (Node × Str) := do
  let (tag, s) ← parseXMLName s
  parseOpenTagLoop (s.length + 1) (Node.new tag) s

/-- `Parser::parseComment`. -/
def parseComment (s : Str) : Except Error Str := do
  let s ← expectStr "!--".toList s
  let (found, s) := skipTo "-->".toList s
  if found then
    return skip 3 s
  else
    throw (.parsing "comment close missing")

/-- The loop `while (hasNext())` of `Parser::parseText`; the result is the state
at which the loop stops. -/
def parseTextLoop : Nat → Str → Except Error Str
  | 0, _ => .error .fuel
  | fuel + 1, s =>
    if hasNext s then do
      let (c, s) ← peek false s
      if c == '<' then
        return s
      let (_, s) ← nextChar s
      parseTextLoop fuel s
    else
      return s

/-- `Parser::parseText`: the characters between the start and the stop of the
loop, read once more by a sub-parser with `parseString('\0', false)`. -/
def parseText (s : Str) : Except Error (Str × Str) := do
  let start := s
  let s ← parseTextLoop (s.length + 1) s
  let (text, _) ← parseString (Char.ofNat 0) false (start.take (start.length - s.length))
  return (text, s)

mutual
/-- `Parser::parseElement`; `none` is the `nullptr` returned for a comment. -/
def parseElement : Nat → Str → Except Error (Option Node × Str)
  | 0, _ => .error .fuel
  | fuel + 1, s => do
    let (c, s) ← peek false s
    -- text element
    if c != '<' then
      let element := Node.new "#".toList
      let (text, s) ← parseText s
      let text := replaceAll text "&quot;".toList "\"".toList
      let text := replaceAll text "&apos;".toList "'".toList
      let text := replaceAll text "&lt;".toList "<".toList
      let text := replaceAll text "&gt;".toList ">".toList
      let text := replaceAll text "&amp;".toList "&".toList
      return (some (element.set "#".toList text), s)
    let (_, s) ← nextChar s
    -- <!--element-->
    let (c, s) ← peek false s
    if c == '!' then
      if isNext "!DOCTYPE ".toList s then
        throw (.parsing "XML DTD is not supported yet")
      let s ← parseComment s
      return (none, s)
    let (element, s) ← parseOpenTag s
    let (c, s) ← nextChar s
    -- <element/>
    if c == '/' then
      let s ← expectChar false '>' s
      return (some element, s)
    -- <element>...</element>
    else if c == '>' then
      let s := skipWhitespace false s
      let (element, s) ← parseElementLoop fuel element s
      let s := skip 2 s
      let s ← expectStr element.getTag s
      let s ← expectChar false '>' s
      return (some element, s)
    -- <element?>
    else
      throw (.parsing "invalid syntax")
/-- The loop `while (!isNext("</"))` of `Parser::parseElement`. -/
def parseElementLoop : Nat → Node → Str → Except Error (Node × Str)
  | 0, _, _ => .error .fuel
  | fuel + 1, element, s =>
    if isNext "</".toList s then
      .ok (element, s)
    else do
      let (sub, s) ← parseElement fuel s
      let element := match sub with
        | some sub => element.add sub
        | none => element
      let s := skipWhitespace false s
      parseElementLoop fuel element s
end

/-- `Parser::parseDeclaration`; the result is the new document. -/
def parseDeclaration (source : Str) : Except Error (Document × Str) := do
  let version := "1.0".toList
  let encoding := "UTF-8".toList
  let s ← expectChar false '<' source
  let (c, s) ← peek false s
  if c == '?' then
    let (_, s) ← nextChar s
    let (node, s) ← parseOpenTag s
    let s ← expectStr "?>".toList s
    if node.getTag != "xml".toList then
      throw (.parsing "invalid declaration")
    let version := (node.attrOr "version".toList version).text
    let encoding := (node.attrOr "encoding".toList encoding).text
    if encoding != "utf-8".toList && encoding != "UTF-8".toList then
      throw (.parsing "UTF-8 encoding is only supported")
    return (Document.new version encoding, s)
  else
    return (Document.new version encoding, goBack source s)

/-- The loop `while (root == nullptr)` of `Parser::parse`. -/
def parseRootLoop : Nat → Str → Except Error (Node × Str)
  | 0, _ => .error .fuel
  | fuel + 1, s => do
    let (root, s) ← parseElement (2 * s.length + 2) s
    match root with
    | some root => return (root, s)
    | none => parseRootLoop fuel s

/-- `Parser::parse`, which is `xml::parse` (the file name only feeds error
messages). -/
def parse (source : Str) : Except Error Document := do
  let (document, s) ← parseDeclaration source
  let (root, _) ← parseRootLoop (s.length + 1) s
  return document.setRoot root

/-! ## VCM dialect parser (`class VcmParser`, `hashComment = true`) -/

/-- `VcmParser::parseValue`. -/
def parseValue (s : Str) : Except Error (Str × Str) := do
  let (c, s) ← peek true s
  if c == '"' || c == '\'' then
    let (_, s) ← nextChar s
    parseString c true s
  else if c == '(' then
    let (_, s) ← nextChar s
    let (value, s) := readUntil ')' s
    let s ← expectChar true ')' s
    return (value, s)
  else
    return readUntilWhitespace s

/-- The attribute loop
`while (hasNext() && peek() != '@' && peek() != '{' && peek() != '}')`
of `VcmParser::parseSubElements`. -/
def parseSubElementsAttrs : Nat → Node → Str → Except Error (Node × Str)
  | 0, _, _ => .error .fuel
  | fuel + 1, subnode, s =>
    if hasNext s then do
      let (c, s) ← peek true s
      if c != '@' && c != '{' && c != '}' then
        let (attrname, s) ← parseName true s
        let s := skipWhitespace true s
        let (value, s) ← parseValue s
        let s := skipWhitespace true s
        parseSubElementsAttrs fuel (subnode.set attrname value) s
      else
        return (subnode, s)
    else
      return (subnode, s)

mutual
/-- `VcmParser::parseSubElements`. -/
def parseSubElements : Nat → Node → Str → Except Error (Node × Str)
  | 0, _, _ => .error .fuel
  | fuel + 1, node, s => parseSubElementsLoop fuel node (skipWhitespace true s)
/-- The loop `while (hasNext())` of `VcmParser::parseSubElements`. The source
appends the new child to `node` first and completes it through a pointer; no
other child is appended in between, so the model appends the completed child. -/
def parseSubElementsLoop : Nat → Node → Str → Except Error (Node × Str)
  | 0, _, _ => .error .fuel
  | fuel + 1, node, s =>
    if hasNext s then do
      let (c, s) ← peek true s
      if c != '@' then
        throw (.parsing "unexpected character in element")
      let (_, s) ← nextChar s
      let (name, s) ← parseName true s
      let subnode := Node.new name
      let s := skipWhitespace true s
      let (subnode, s) ← parseSubElementsAttrs (s.length + 1) subnode s
      if !hasNext s then
        return (node.add subnode, s)
      let (c, s) ← peek true s
      if c == '{' then
        let (_, s) ← nextChar s
        let (subnode, s) ← parseSubElements fuel subnode s
        let s ← expectChar true '}' s
        let s := skipWhitespace true s
        parseSubElementsLoop fuel (node.add subnode) s
      else if c == '}' then
        return (node.add subnode, s)
      else
        parseSubElementsLoop fuel (node.add subnode) s
    else
      return (node, s)
end

/-- `VcmParser::parse`, which is `xml::parse_vcm` (the file name only feeds
error messages); the constructor makes the document `("1.0", "UTF-8")`. -/
def parse_vcm (source : Str) (tag : Str) : Except Error Document := do
  let document := Document.new "1.0".toList "UTF-8".toList
  let root := Node.new tag
  let (root, _) ← parseSubElements (2 * source.length + 2) root source
  return document.setRoot root

/-! ## Serializer -/

/-- `newline`: a line feed and `indent` copies of the indent string when
pretty-printing, nothing otherwise. -/
def newline (nice : Bool) (indentStr : Str) (indent : Nat) : Str :=
  if !nice then [] else '\n' :: (List.replicate indent indentStr).flatten

/-- The text a character becomes inside the quoted literal of `util::escape`. -/
def escapeChar (c : Char) : Str :=
  if c == '\n' then "\\n".toList
  else if c == '\r' then "\\r".toList
  else if c == '\t' then "\\t".toList
  else if c == Char.ofNat 12 then "\\f".toList
  else if c == Char.ofNat 8 then "\\b".toList
  else if c == '"' then "\\\"".toList
  else if c == '\\' then "\\\\".toList
  else [c]

/-- Modelled from the spec: `util::escape` of `util/stringutil.hpp` (not among
the sources): the value as a double-quoted literal with backslash escapes (the
spec: `name="escaped-value"`). -/
def escape (text : Str) : Str := '"' :: (text.map escapeChar).flatten ++ ['"']

/-- The attribute loop `for (auto& entry : attrs)` of `stringifyElement`;
`count` and `size` are the loop counter and `attrs.size()`. The iteration order
of the unordered map is the order of the association list. -/
def stringifyAttrs (size : Nat) : Nat → List Attribute → Str
  | _, [] => []
  | count, attr :: rest =>
    attr.name
      ++ (if !attr.text.isEmpty then '=' :: escape attr.text else [])
      ++ (if count + 1 < size then [' '] else [])
      ++ stringifyAttrs size (count + 1) rest

mutual
/-- `stringifyElement`; it fails when a text node has no `#` attribute
(`element.attr("#")` throws). -/
def stringifyElement (nice : Bool) (indentStr : Str) :
    Node → Nat → Except Error Str
  | .mk tag attrs elements, indent =>
    if (Node.mk tag attrs elements).isText then do
      let text := (← (Node.mk tag attrs elements).attr "#".toList).text
      let text := replaceAll text "&".toList "&amp;".toList
      let text := replaceAll text "\"".toList "&quot;".toList
      let text := replaceAll text "'".toList "&apos;".toList
      let text := replaceAll text "<".toList "&lt;".toList
      let text := replaceAll text ">".toList "&gt;".toList
      return text
    else do
      let ss := '<' :: tag
      let ss := ss ++ (if !attrs.isEmpty then ' ' :: stringifyAttrs attrs.length 0 attrs else [])
      match elements with
      | [] => return ss ++ "/>".toList
      | first :: others =>
        if others.isEmpty && first.isText then
          let inner ← stringifyElement nice indentStr first (indent + 1)
          return ss ++ ">".toList ++ inner ++ "</".toList ++ tag ++ ">".toList
        else
          let inner ← stringifyElements nice indentStr (first :: others) (indent + 1)
          return ss ++ ">".toList ++ inner ++ newline nice indentStr indent
            ++ "</".toList ++ tag ++ ">".toList
/-- The child loop `for (auto& sub : elements)` of `stringifyElement`. -/
def stringifyElements (nice : Bool) (indentStr : Str) :
    List Node → Nat → Except Error Str
  | [], _ => .ok []
  | sub :: rest, indent => do
    let one ← stringifyElement nice indentStr sub indent
    let more ← stringifyElements nice indentStr rest indent
    return newline nice indentStr indent ++ one ++ more
end

/-- `xml::stringify`. A document without root (a null `getRoot()`) is outside
the function's domain; the model reports it as a runtime error. -/
def stringify (document : Document) (nice : Bool) (indentStr : Str) : Except Error Str :=
  match document.root with
  | none => .error (.runtime "null root")
  | some root => do
    let body ← stringifyElement nice indentStr root 0
    return "<?xml version=\"".toList ++ document.version ++ "\" encoding=\"UTF-8\" ?>".toList
      ++ newline nice indentStr 0 ++ body

/-! ## Typed attribute accessors -/

/-- The characters `isspace` accepts in the C locale, which `std::stoll` skips. -/
def isspace (c : Char) : Bool :=
  c == ' ' || c == '\t' || c == '\n' || c == Char.ofNat 11 || c == Char.ofNat 12 || c == '\r'

/-- The value of a run of decimal digits, most significant first. -/
def digitsValue (digits : Str) : Nat :=
  digits.foldl (fun acc d => 10 * acc + (d.toNat - '0'.toNat)) 0

/-- The library function `std::stoll(text)` (base 10): leading whitespace is
skipped, an optional sign and the longest run of digits are read, the rest of
the text is ignored; `std::invalid_argument` when there is no digit to read,
`std::out_of_range` when the value does not fit `long long`. -/
def stoll (text : Str) : Except Error Int :=
  let s := text.dropWhile isspace
  let (negative, s) :=
    match s with
    | [] => (false, s)
    | c :: rest => if c == '-' then (true, rest) else if c == '+' then (false, rest) else (false, s)
  let digits := s.takeWhile is_digit
  if digits.isEmpty then .error .invalidArgument
  else
    let value : Int := if negative then -(digitsValue digits : Int) else (digitsValue digits : Int)
    if value < -(2 : Int) ^ 63 || (2 : Int) ^ 63 ≤ value then .error .outOfRange
    else .ok value

/-- `Attribute::asInt`. -/
def Attribute.asInt (a : Attribute) : Except Error Int := stoll a.text

/-- `Attribute::asBool`. -/
def Attribute.asBool (a : Attribute) : Bool :=
  a.text == "true".toList || a.text == "1".toList

/-- The member `text.find(c, from)`; `none` is `std::string::npos`. -/
def find (text : Str) (c : Char) (start : Nat) : Option Nat :=
  match (text.drop start).indexOf? c with
  | none => none
  | some i => some (start + i)

/-- The member `text.substr(offset, len)` for an offset within the text. -/
def substr (text : Str) (offset len : Nat) : Str := (text.drop offset).take len

/-- The overload `util::parse_double(text, offset, len)` of
`util/stringutil.hpp` (not among the sources), from its call sites in
`asVec2` and `asVec4`: the number parsed from `text.substr(offset, len)`.
The one-argument `util::parse_double` is a parameter of the accessors. -/
def parse_double_at (parse_double : Str → Except Error ℚ) (text : Str) (offset len : Nat) :
    Except Error ℚ :=
  parse_double (substr text offset len)

/-- `Attribute::asFloat`. -/
def Attribute.asFloat (parse_double : Str → Except Error ℚ) (a : Attribute) : Except Error ℚ :=
  parse_double a.text

/-- `Attribute::asVec2`. -/
def Attribute.asVec2 (parse_double : Str → Except Error ℚ) (a : Attribute) :
    Except Error (ℚ × ℚ) :=
  match find a.text ',' 0 with
  | none => do
    let s ← parse_double_at parse_double a.text 0 a.text.length
    return (s, s)
  | some pos => do
    let x ← parse_double_at parse_double a.text 0 pos
    let y ← parse_double_at parse_double a.text (pos + 1) (a.text.length - pos - 1)
    return (x, y)

/-- `Attribute::asVec3`. -/
def Attribute.asVec3 (parse_double : Str → Except Error ℚ) (a : Attribute) :
    Except Error (ℚ × ℚ × ℚ) :=
  match find a.text ',' 0 with
  | none => do
    let s ← parse_double_at parse_double a.text 0 a.text.length
    return (s, s, s)
  | some pos1 =>
    match find a.text ',' (pos1 + 1) with
    | none => .error (.runtime ("invalid vec3 value " ++ String.mk (escape a.text)))
    | some pos2 => do
      let x ← parse_double_at parse_double a.text 0 pos1
      let y ← parse_double_at parse_double a.text (pos1 + 1) pos2
      let z ← parse_double_at parse_double a.text (pos2 + 1) (a.text.length - pos2 - 1)
      return (x, y, z)

/-- `Attribute::asVec4`. -/
def Attribute.asVec4 (parse_double : Str → Except Error ℚ) (a : Attribute) :
    Except Error (ℚ × ℚ × ℚ × ℚ) :=
  match find a.text ',' 0 with
  | none => do
    let s ← parse_double_at parse_double a.text 0 a.text.length
    return (s, s, s, s)
  | some pos1 =>
    match find a.text ',' (pos1 + 1) with
    | none => .error (.runtime ("invalid vec4 value " ++ String.mk (escape a.text)))
    | some pos2 =>
      match find a.text ',' (pos2 + 1) with
      | none => .error (.runtime ("invalid vec4 value " ++ String.mk (escape a.text)))
      | some pos3 => do
        let x ← parse_double_at parse_double a.text 0 pos1
        let y ← parse_double_at parse_double a.text (pos1 + 1) (pos2 - pos1 - 1)
        let z ← parse_double_at parse_double a.text (pos2 + 1) (pos3 - pos2 - 1)
        let w ← parse_double_at parse_double a.text (pos3 + 1) (a.text.length - pos3 - 1)
        return (x, y, z, w)

/-- Modelled from the spec: `hexchar2int` (not among the sources), the
hex-digit decoder: the value of a hexadecimal digit, and the negative value `-1`
for any other character, which is what `asColor` clamps with `std::max(0, ...)`. -/
def hexchar2int (c : Char) : Int :=
  if '0'.toNat ≤ c.toNat && c.toNat ≤ '9'.toNat then (c.toNat - '0'.toNat : Nat)
  else if 'a'.toNat ≤ c.toNat && c.toNat ≤ 'f'.toNat then (10 + c.toNat - 'a'.toNat : Nat)
  else if 'A'.toNat ≤ c.toNat && c.toNat ≤ 'F'.toNat then (10 + c.toNat - 'A'.toNat : Nat)
  else -1

/-- The character `text[i]`; `text[text.length()]` is the null character. -/
def charAt (text : Str) (i : Nat) : Char := text.getD i (Char.ofNat 0)

/-- The 32-bit pattern of an `int` (two's complement). -/
def intBits (x : Int) : Nat := (x % 2 ^ 32).toNat

/-- The `int` with a given 32-bit pattern. -/
def intOfBits (n : Nat) : Int := if n % 2 ^ 32 < 2 ^ 31 then (n % 2 ^ 32 : Nat) else (n % 2 ^ 32 : Nat) - 2 ^ 32

/-- The operator `x << k` on `int`. -/
def intShiftLeft (x : Int) (k : Nat) : Int := intOfBits (intBits x <<< k)

/-- The operator `x | y` on `int`. -/
def intOr (x y : Int) : Int := intOfBits (intBits x ||| intBits y)

/-- The expression `(std::max(0, hexchar2int(hi)) << 4) | hexchar2int(lo)` of
`Attribute::asColor`, on `int`; the digit decoder is a parameter. -/
def hexPair (hexchar2int : Char → Int) (hi lo : Char) : Int :=
  intOr (intShiftLeft (max 0 (hexchar2int hi)) 4) (hexchar2int lo)

/-- `Attribute::asColor`; the components are the quotients by `255.f`. The
helpers `hexchar2int` and `util::parse_double`, which are not among the sources,
are parameters. -/
def Attribute.asColor (hexchar2int : Char → Int) (parse_double : Str → Except Error ℚ)
    (attr : Attribute) : Except Error (ℚ × ℚ × ℚ × ℚ) :=
  let text := attr.text
  if charAt text 0 == '#' then
    if text.length != 7 && text.length != 9 then
      .error (.runtime "#RRGGBB or #RRGGBBAA required")
    else
      let a : Int := 255
      let r := hexPair hexchar2int (charAt text 1) (charAt text 2)
      let g := hexPair hexchar2int (charAt text 3) (charAt text 4)
      let b := hexPair hexchar2int (charAt text 5) (charAt text 6)
      let a := if text.length == 9 then hexPair hexchar2int (charAt text 7) (charAt text 8) else a
      .ok ((r : ℚ) / 255, (g : ℚ) / 255, (b : ℚ) / 255, (a : ℚ) / 255)
  else do
    let (x, y, z, w) ← attr.asVec4 parse_double
    return (x / 255, y / 255, z / 255, w / 255)

/-! ## Notions used to state the properties -/

/-- The base-10 literal of an integer: a minus sign for a negative number, then
the decimal digits of its absolute value. -/
def intLiteral (n : Int) : Str :=
  if n < 0 then '-' :: Nat.toDigits 10 n.natAbs else Nat.toDigits 10 n.natAbs

/-- A name of the XML dialect: a start character followed by part characters. -/
def isXmlName : Str → Bool
  | [] => false
  | c :: cs => is_xml_identifier_start c && cs.all is_xml_identifier_part

/-- The attribute list of an open tag in the notation of the serializer: every
attribute is preceded by one blank, and is its name alone when the text is
empty, `name="escaped text"` otherwise. -/
def renderAttrs : List Attribute → Str
  | [] => []
  | a :: rest =>
    ' ' :: a.name ++ (if a.text.isEmpty then [] else '=' :: escape a.text) ++ renderAttrs rest

/-- The entity substitution `Parser::parseElement` applies to a text run:
`&quot;`, `&apos;`, `&lt;`, `&gt;`, `&amp;`, in that order. -/
def decodeEntities (text : Str) : Str :=
  let text := replaceAll text "&quot;".toList "\"".toList
  let text := replaceAll text "&apos;".toList "'".toList
  let text := replaceAll text "&lt;".toList "<".toList
  let text := replaceAll text "&gt;".toList ">".toList
  replaceAll text "&amp;".toList "&".toList

/-- A construct of the XML dialect as it stands in a source text: an element
with its attribute list and body, a text run, a comment, or a run of whitespace
between constructs. -/
inductive Content where
  | element (tag : Str) (attrs : List Attribute) (body : List Content)
  | text (raw : Str)
  | comment (body : Str)
  | space (ws : Str)

mutual
/-- The source text of a construct; an element without body is written
`<tag attrs/>`, an element with a body `<tag attrs>body</tag>`. -/
def Content.render : Content → Str
  | .element tag attrs body =>
    '<' :: tag ++ renderAttrs attrs ++
      (if body.isEmpty then "/>".toList
       else '>' :: renderAll body ++ '<' :: '/' :: tag ++ ['>'])
  | .text raw => raw
  | .comment body => "<!--".toList ++ body ++ "-->".toList
  | .space ws => ws
/-- The source text of a sequence of constructs. -/
def renderAll : List Content → Str
  | [] => []
  | c :: cs => c.render ++ renderAll cs
end

mutual
/-- The node a construct stands for: comments and whitespace stand for none, a
text run for a `#` node that holds the entity-decoded text. -/
def Content.node? : Content → Option Node
  | .element tag attrs body => some (.mk tag attrs (nodesOf body))
  | .text raw => some (.mk ['#'] [⟨['#'], decodeEntities raw⟩] [])
  | .comment _ => none
  | .space _ => none
/-- The nodes of the non-comment constructs of a sequence, in source order. -/
def nodesOf : List Content → List Node
  | [] => []
  | c :: cs =>
    match c.node? with
    | some node => node :: nodesOf cs
    | none => nodesOf cs
end

/-- A well-formed text run: it is not empty, does not start with whitespace and
holds no `<`, no backslash and no null character. -/
def isPlainText (raw : Str) : Bool :=
  match raw with
  | [] => false
  | c :: _ => !is_whitespace c && raw.all (fun x => x != '<' && x != '\\' && x != Char.ofNat 0)

/-- A well-formed comment body: `-->` does not start inside it. -/
def isCommentBody : Str → Bool
  | [] => true
  | c :: s => !("-->".toList.isPrefixOf (c :: s ++ "--".toList)) && isCommentBody s

/-- The sequence is empty or starts with an element or a comment, so that its
source text, followed by a closing tag, starts with `<`. -/
def startsWithMarkup : List Content → Bool
  | [] => true
  | .element _ _ _ :: _ => true
  | .comment _ :: _ => true
  | _ => false

mutual
/-- Well-formedness of a construct: tags and attribute names are XML names, the
attribute names of an element are distinct, text runs and comment bodies are
well-formed, whitespace is whitespace. -/
def Content.wellFormed : Content → Bool
  | .element tag attrs body =>
    isXmlName tag && attrs.all (fun a => isXmlName a.name) &&
      decide (attrs.map (fun a => a.name)).Nodup && wellFormedAll body
  | .text raw => isPlainText raw
  | .comment body => isCommentBody body
  | .space ws => ws.all is_whitespace
/-- Well-formedness of a sequence of constructs: a text run is followed by an
element, by a comment or by the end of the sequence. -/
def wellFormedAll : List Content → Bool
  | [] => true
  | c :: cs =>
    c.wellFormed &&
      (match c with
       | .text _ => startsWithMarkup cs
       | _ => true) && wellFormedAll cs
end

/-- The construct can stand before `rest` as something `parseElement` reads on
its own: it is not whitespace, and a text run is followed by a `<`. -/
def Content.standsBefore (c : Content) (rest : Str) : Bool :=
  match c with
  | .space _ => false
  | .text _ => rest.head? == some '<'
  | _ => true

mutual
/-- The nesting depth of a construct, counted in calls of `parseElement` and
iterations of its child loop. -/
def Content.depth : Content → Nat
  | .element _ _ body => depthAll body + 1
  | _ => 1
/-- The nesting depth of a sequence of constructs. -/
def depthAll : List Content → Nat
  | [] => 1
  | .space _ :: cs => depthAll cs
  | c :: cs => max c.depth (depthAll cs) + 1
end

/-- A run of open tags `<tag attrs>`, each nested in the one before. -/
def openTags : List (Str × List Attribute) → Str
  | [] => []
  | (tag, attrs) :: inner => '<' :: tag ++ renderAttrs attrs ++ '>' :: openTags inner

/-- The declaration `<?xml attrs ?>`: the attributes in the notation of the
serializer, and optional whitespace `ws` before `?>`. -/
def declaration (attrs : List Attribute) (ws : Str) : Str :=
  "<?xml".toList ++ (renderAttrs attrs ++ (ws ++ "?>".toList))

/-- The escaping `stringifyElement` applies to the text of a text node: `&`,
`"`, `'`, `<`, `>` are replaced by their entities, in that order. -/
def escapeText (text : Str) : Str :=
  let text := replaceAll text "&".toList "&amp;".toList
  let text := replaceAll text "\"".toList "&quot;".toList
  let text := replaceAll text "'".toList "&apos;".toList
  let text := replaceAll text "<".toList "&lt;".toList
  replaceAll text ">".toList "&gt;".toList

/-- The entity of a character, the character itself when it has none. -/
def entityOf (c : Char) : Str :=
  if c = '&' then "&amp;".toList
  else if c = '"' then "&quot;".toList
  else if c = '\'' then "&apos;".toList
  else if c = '<' then "&lt;".toList
  else if c = '>' then "&gt;".toList
  else [c]

/-- The text of a character while entities are being decoded: the characters of
`decoded` stand for themselves, the others are still written as entities. -/
def partialEntity (decoded : List Char) (c : Char) : Str :=
  if c ∈ decoded then [c] else entityOf c

/-- A text that survives serialization and parsing unchanged: it is not empty,
does not start with whitespace and holds no backslash and no null character. -/
def isPrintableText (t : Str) : Bool :=
  match t with
  | [] => false
  | c :: _ => !is_whitespace c && t.all (fun x => x != '\\' && x != Char.ofNat 0)

/-- No two text nodes are adjacent in the list. -/
def noAdjacentText : List Node → Bool
  | a :: b :: rest => !(a.isText && b.isText) && noAdjacentText (b :: rest)
  | _ => true

/-- The children can be told apart in the output: without pretty-printing no
two text nodes are adjacent; with pretty-printing a text node is an only child. -/
def siblingsPrintable (nice : Bool) (elements : List Node) : Bool :=
  if nice then decide (elements.length ≤ 1) || elements.all (fun e => !e.isText)
  else noAdjacentText elements

mutual
/-- The tree is one that `xml::parse` can have produced and that the serializer
writes back readably: a text node has the `#` attribute alone, a printable text
and no children; an element has an XML name as tag, XML names as attribute
names, all distinct, and children that can be told apart. -/
def Node.printable (nice : Bool) : Node → Bool
  | .mk tag attrs elements =>
    if tag == ['#'] then
      elements.isEmpty &&
        (match attrs with
         | [a] => a.name == ['#'] && isPrintableText a.text
         | _ => false)
    else
      isXmlName tag && attrs.all (fun a => isXmlName a.name) &&
        decide (attrs.map (fun a => a.name)).Nodup && siblingsPrintable nice elements &&
        printableAll nice elements
/-- Every node of the list is printable. -/
def printableAll (nice : Bool) : List Node → Bool
  | [] => true
  | e :: es => e.printable nice && printableAll nice es
end

mutual
/-- The construct the serializer writes for a node at a nesting level. -/
def Node.toContent (nice : Bool) (indentStr : Str) : Node → Nat → Content
  | .mk tag attrs elements, indent =>
    if (Node.mk tag attrs elements).isText then
      .text (escapeText ((Node.mk tag attrs elements).attrOr ['#'] []).text)
    else
      .element tag attrs
        (match elements with
         | [] => []
         | first :: others =>
           if others.isEmpty && first.isText then
             [first.toContent nice indentStr (indent + 1)]
           else
             toContentAll nice indentStr (first :: others) (indent + 1) ++
               (if nice then [.space (newline nice indentStr indent)] else []))
/-- The constructs the serializer writes for the children of a node: with
pretty-printing, every child is preceded by a line break and the indentation. -/
def toContentAll (nice : Bool) (indentStr : Str) : List Node → Nat → List Content
  | [], _ => []
  | e :: es, indent =>
    if nice then
      .space (newline nice indentStr indent) :: e.toContent nice indentStr indent ::
        toContentAll nice indentStr es indent
    else
      e.toContent nice indentStr indent :: toContentAll nice indentStr es indent
end

/-- The version can be written between double quotes as it is: it holds no
double quote, no backslash and no line feed. -/
def isPlainVersion (version : Str) : Bool :=
  version.all (fun c => c != '"' && c != '\\' && c != '\n')

/-- The number of commas in a text. -/
def commas (text : Str) : Nat := text.count ','

/-- The error `Attribute::asVec3` throws:
`std::runtime_error("invalid vec3 value " + util::quote(text))`. -/
def invalidVec3 (text : Str) : Error :=
  .runtime ("invalid vec3 value " ++ String.mk (escape text))

/-- The error `Attribute::asVec4` throws:
`std::runtime_error("invalid vec4 value " + util::quote(text))`. -/
def invalidVec4 (text : Str) : Error :=
  .runtime ("invalid vec4 value " ++ String.mk (escape text))

/-- A sequence of top-level constructs that yields no node: comments and
whitespace. -/
def isProlog (cs : List Content) : Bool :=
  cs.all (fun c => match c with
    | .comment _ => true
    | .space _ => true
    | _ => false)

/-- A run of open elements, each nested in the body of the one before: every
element is its open tag `<tag attrs>` followed by the children that precede the
place where the next one stands. -/
def openBodies : List (Str × List Attribute × List Content) → Str
  | [] => []
  | (tag, attrs, before) :: inner =>
    '<' :: tag ++ renderAttrs attrs ++ '>' :: (renderAll before ++ openBodies inner)

/-- The nesting depth of a run of open elements, counted as `Content.depth`. -/
def depthBodies : List (Str × List Attribute × List Content) → Nat
  | [] => 1
  | (_, _, before) :: inner => depthAll before + depthBodies inner + 1

mutual
/-- The node and every node below it, in document order. -/
def Node.nodes : Node → List Node
  | .mk tag attrs elements => .mk tag attrs elements :: nodesBelow elements
/-- The nodes of a sequence of trees. -/
def nodesBelow : List Node → List Node
  | [] => []
  | element :: rest => element.nodes ++ nodesBelow rest
end

/-- The shape of a node the parser builds: a node tagged `#` has an attribute
`#` and no children, any other node has a tag that is an XML name. -/
def Node.wellTagged (node : Node) : Bool :=
  if node.getTag == "#".toList then node.has "#".toList && node.getElements.isEmpty
  else isXmlName node.getTag

/-- A result the program itself gives: a value with the property `P`, or a
parsing error; not the exhaustion of the recursion bound of the model. -/
def Safe {α : Type} (P : α → Prop) : Except Error α → Prop
  | .ok a => P a
  | .error e => ∃ msg, e = .parsing msg

/-! # Theorems -/

/-! ## Attribute lookup -/

theorem mapFind_name (attrs : List Attribute) (name : Str) (a : Attribute)
    (h : mapFind attrs name = some a) : a.name = name ∧ a ∈ attrs := by
  induction attrs with
  | nil => simp [mapFind] at h
  | cons b rest ih =>
    by_cases hb : b.name = name
    · simp [mapFind, hb] at h
      subst h
      exact ⟨hb, List.mem_cons_self _ _⟩
    · simp [mapFind, hb] at h
      exact ⟨(ih h).1, List.mem_cons_of_mem _ (ih h).2⟩

/-- C9. `Node::attr(name)` fails exactly when `Node::has(name)` is false and
otherwise returns the stored attribute (the entry the map holds under `name`);
`Node::attr(name, default)` is total and returns `Attribute(name, default)` when
the name is absent and the stored attribute when it is present; `Node::has` is a
total boolean function. -/
theorem attr_fails_iff_not_has (node : Node) (name default : Str) :
    ((∃ e, node.attr name = .error e) ↔ node.has name = false) ∧
    (node.has name = false → node.attrOr name default = ⟨name, default⟩) ∧
    (node.has name = true →
      ∃ stored, mapFind node.getAttributes name = some stored ∧ stored ∈ node.getAttributes ∧
        stored.name = name ∧ node.attr name = .ok stored ∧
        node.attrOr name default = stored) := by
  unfold Node.attr Node.attrOr Node.has
  cases h : mapFind node.getAttributes name with
  | none => simp
  | some a =>
    have := mapFind_name _ _ _ h
    simp [this.1, this.2]

/-! ## `Attribute::asInt` -/


theorem digitChar_spec (d : Nat) (h : d < 10) :
    is_digit (Nat.digitChar d) = true ∧ (Nat.digitChar d).toNat - '0'.toNat = d ∧
    isspace (Nat.digitChar d) = false := by
  interval_cases d <;> decide

theorem digitsValue_append (l : Str) (c : Char) :
    digitsValue (l ++ [c]) = 10 * digitsValue l + (c.toNat - '0'.toNat) := by
  simp [digitsValue, List.foldl_append]

theorem toDigitsCore_spec (fuel : Nat) : ∀ (n : Nat) (ds : Str), n < fuel →
    ∃ l, Nat.toDigitsCore 10 fuel n ds = l ++ ds ∧ l ≠ [] ∧
      (∀ c ∈ l, is_digit c = true) ∧ digitsValue l = n := by
  induction fuel with
  | zero => intro n ds h; omega
  | succ fuel ih =>
    intro n ds h
    have hd := digitChar_spec (n % 10) (Nat.mod_lt _ (by norm_num))
    simp only [Nat.toDigitsCore]
    by_cases h0 : n / 10 = 0
    · simp only [h0, if_true]
      refine ⟨[Nat.digitChar (n % 10)], rfl, by simp, ?_, ?_⟩
      · intro c hc
        simp at hc
        subst hc
        exact hd.1
      · have : digitsValue [Nat.digitChar (n % 10)] = (Nat.digitChar (n % 10)).toNat - '0'.toNat := by
          simp [digitsValue]
        rw [this, hd.2.1]
        omega
    · simp only [h0, if_false]
      obtain ⟨l, hl, hne, hdig, hval⟩ := ih (n / 10) (Nat.digitChar (n % 10) :: ds) (by omega)
      refine ⟨l ++ [Nat.digitChar (n % 10)], by simp [hl], by simp, ?_, ?_⟩
      · intro c hc
        simp at hc
        rcases hc with hc | hc
        · exact hdig c hc
        · subst hc; exact hd.1
      · rw [digitsValue_append, hval, hd.2.1]
        omega

theorem toDigits_spec (n : Nat) :
    Nat.toDigits 10 n ≠ [] ∧ (∀ c ∈ Nat.toDigits 10 n, is_digit c = true) ∧
    digitsValue (Nat.toDigits 10 n) = n := by
  obtain ⟨l, hl, hne, hdig, hval⟩ := toDigitsCore_spec (n + 1) n [] (by omega)
  have : Nat.toDigits 10 n = l := by simp [Nat.toDigits, hl]
  rw [this]
  exact ⟨hne, hdig, hval⟩

theorem dropWhile_append_all {p : Char → Bool} (ws l : Str) (h : ∀ c ∈ ws, p c = true) :
    (ws ++ l).dropWhile p = l.dropWhile p := by
  induction ws with
  | nil => rfl
  | cons c ws ih =>
    have hc : p c = true := h c (List.mem_cons_self _ _)
    simp only [List.cons_append, List.dropWhile_cons, hc, if_true]
    exact ih (fun x hx => h x (List.mem_cons_of_mem _ hx))

theorem dropWhile_head_false {p : Char → Bool} (l : Str)
    (h : ∀ c, l.head? = some c → p c = false) : l.dropWhile p = l := by
  cases l with
  | nil => rfl
  | cons c l => simp [List.dropWhile_cons, h c rfl]

theorem takeWhile_append_all {p : Char → Bool} (l rest : Str) (h : ∀ c ∈ l, p c = true)
    (hrest : ∀ c, rest.head? = some c → p c = false) :
    (l ++ rest).takeWhile p = l := by
  induction l with
  | nil =>
    cases rest with
    | nil => rfl
    | cons c rest => simp [List.takeWhile_cons, hrest c rfl]
  | cons c l ih =>
    have hc : p c = true := h c (List.mem_cons_self _ _)
    simp only [List.cons_append, List.takeWhile_cons, hc, if_true]
    rw [ih (fun x hx => h x (List.mem_cons_of_mem _ hx))]

theorem is_digit_not_isspace (c : Char) (h : is_digit c = true) :
    isspace c = false ∧ c ≠ '-' ∧ c ≠ '+' := by
  have hn : 48 ≤ c.toNat ∧ c.toNat ≤ 57 := by
    simpa [is_digit] using h
  refine ⟨?_, ?_, ?_⟩
  · simp only [isspace, Bool.or_eq_false_iff, beq_eq_false_iff_ne]
    refine ⟨⟨⟨⟨⟨?_, ?_⟩, ?_⟩, ?_⟩, ?_⟩, ?_⟩ <;> (rintro rfl; revert hn; decide)
  · rintro rfl; revert hn; decide
  · rintro rfl; revert hn; decide

/-- The scan of `std::stoll` over whitespace, an unsigned run of digits and a
rest that does not continue the run. -/
theorem stoll_digits (ws digits rest : Str) (hws : ∀ c ∈ ws, isspace c = true)
    (hne : digits ≠ []) (hdig : ∀ c ∈ digits, is_digit c = true)
    (hrest : ∀ c, rest.head? = some c → is_digit c = false) :
    stoll (ws ++ digits ++ rest) =
      (if (2 : Int) ^ 63 ≤ (digitsValue digits : Int) then .error .outOfRange
      else .ok (digitsValue digits : Int)) ∧
    stoll (ws ++ '-' :: digits ++ rest) =
      (if -(digitsValue digits : Int) < -(2 : Int) ^ 63 then .error .outOfRange
      else .ok (-(digitsValue digits : Int))) := by
  obtain ⟨d, ds, rfl⟩ := List.exists_cons_of_ne_nil hne
  have hd := is_digit_not_isspace d (hdig d (List.mem_cons_self _ _))
  have htw : List.takeWhile is_digit (d :: (ds ++ rest)) = d :: ds := by
    simpa using takeWhile_append_all (d :: ds) rest hdig hrest
  constructor
  · unfold stoll
    rw [List.append_assoc, dropWhile_append_all ws _ hws,
      dropWhile_head_false _ (by intro c hc; simp at hc; subst hc; exact hd.1)]
    simp only [List.cons_append, beq_iff_eq, hd.2.1, hd.2.2, if_false, htw]
    generalize digitsValue (d :: ds) = v
    simp only [Bool.or_eq_true, decide_eq_true_eq]
    norm_num
    split_ifs with h1 h2 h2 <;> first | rfl | (exfalso; omega)
  · unfold stoll
    rw [List.append_assoc, dropWhile_append_all ws _ hws,
      dropWhile_head_false _ (by intro c hc; simp at hc; subst hc; decide)]
    simp only [List.cons_append, beq_self_eq_true, if_true, htw]
    generalize digitsValue (d :: ds) = v
    simp only [Bool.or_eq_true, decide_eq_true_eq]
    norm_num
    split_ifs with h1 h2 h2 <;> first | rfl | (exfalso; omega)

/-- The scan of `std::stoll` over a text without a digit at the place where the
number has to start. -/
theorem stoll_invalid (ws rest : Str) (hws : ∀ c ∈ ws, isspace c = true)
    (hrest : ∀ c ∈ rest.head?, is_digit c = false) :
    stoll (ws ++ '-' :: rest) = .error .invalidArgument ∧
    stoll (ws ++ '+' :: rest) = .error .invalidArgument ∧
    ((∀ c ∈ rest.head?, isspace c = false ∧ c ≠ '-' ∧ c ≠ '+') →
      stoll (ws ++ rest) = .error .invalidArgument) := by
  have htw : List.takeWhile is_digit rest = [] := by
    simpa using takeWhile_append_all [] rest (by simp) hrest
  refine ⟨?_, ?_, ?_⟩
  · unfold stoll
    rw [dropWhile_append_all ws _ hws,
      dropWhile_head_false _ (by intro c hc; simp at hc; subst hc; decide)]
    simp [htw]
  · unfold stoll
    rw [dropWhile_append_all ws _ hws,
      dropWhile_head_false _ (by intro c hc; simp at hc; subst hc; decide)]
    simp [htw]
  · intro h
    unfold stoll
    rw [dropWhile_append_all ws _ hws, dropWhile_head_false _ (fun c hc => (h c hc).1)]
    cases rest with
    | nil => simp
    | cons c rest =>
      have hc := h c rfl
      simp only [beq_iff_eq, hc.2.1, hc.2.2, if_false, htw]
      simp

theorem stoll_empty : stoll [] = .error .invalidArgument := by decide

/-- C10 (counterexample). `Attribute::asInt` does not fail on characters after
the digits or on leading whitespace: `"12abc"` and `" 12"` both give 12. -/
theorem asInt_accepts_trailing_characters :
    (Attribute.mk [] "12abc".toList).asInt = .ok 12 ∧
    (Attribute.mk [] " 12".toList).asInt = .ok 12 := by
  decide

/-- C10 (amended). `Attribute::asInt` is `std::stoll`: for every integer `n`, the
text made of whitespace, the base-10 literal of `n` and a rest that does not
start with a digit gives `n` when `n` is a signed 64-bit integer and fails (out
of range) otherwise; a text that has no digit after the optional whitespace and
sign fails (invalid argument), the empty text among them. -/
theorem asInt_literal (name : Str) (n : Int) (ws rest : Str)
    (hws : ∀ c ∈ ws, isspace c = true) (hrest : ∀ c ∈ rest.head?, is_digit c = false) :
    (Attribute.mk name (ws ++ intLiteral n ++ rest)).asInt =
      (if -(2 : Int) ^ 63 ≤ n ∧ n < (2 : Int) ^ 63 then .ok n else .error .outOfRange) ∧
    (Attribute.mk name (ws ++ '-' :: rest)).asInt = .error .invalidArgument ∧
    (Attribute.mk name (ws ++ '+' :: rest)).asInt = .error .invalidArgument ∧
    ((∀ c ∈ rest.head?, isspace c = false ∧ c ≠ '-' ∧ c ≠ '+') →
      (Attribute.mk name (ws ++ rest)).asInt = .error .invalidArgument) ∧
    (Attribute.mk name []).asInt = .error .invalidArgument := by
  obtain ⟨hne, hdig, hval⟩ := toDigits_spec n.natAbs
  have hd := stoll_digits ws (Nat.toDigits 10 n.natAbs) rest hws hne hdig hrest
  have hi := stoll_invalid ws rest hws hrest
  refine ⟨?_, hi.1, hi.2.1, hi.2.2, stoll_empty⟩
  simp only [Attribute.asInt, intLiteral]
  by_cases hneg : n < 0
  · simp only [hneg, if_true]
    rw [hd.2, hval]
    have : (n.natAbs : Int) = -n := by omega
    rw [this, neg_neg]
    have h2 : (0:Int) < (2:Int)^63 := by norm_num
    split_ifs with h1 h3 h3 <;> first | rfl | (exfalso; omega)
  · simp only [hneg, if_false]
    rw [hd.1, hval]
    have : (n.natAbs : Int) = n := by omega
    rw [this]
    have h2 : (0:Int) < (2:Int)^63 := by norm_num
    split_ifs with h1 h3 h3 <;> first | rfl | (exfalso; omega)

theorem asInt_literal_witness :
    (∀ c ∈ " ".toList, isspace c = true) ∧ (∀ c ∈ "abc".toList.head?, is_digit c = false) ∧
    (Attribute.mk [] (" ".toList ++ intLiteral (-12) ++ "abc".toList)).asInt = .ok (-12) :=
  ⟨by decide, by decide,
    (asInt_literal [] (-12) " ".toList "abc".toList (by decide) (by decide)).1⟩

/-! ## Vector and colour accessors -/

theorem indexOf?_append_of_not_mem (c : Char) (pre rest : Str) (h : c ∉ pre) :
    (pre ++ c :: rest).indexOf? c = some pre.length := by
  induction pre with
  | nil => simp [List.indexOf?, List.findIdx?_cons]
  | cons d pre ih =>
    have hd : d ≠ c := fun e => h (by simp [e])
    have hp : c ∉ pre := fun e => h (List.mem_cons_of_mem _ e)
    have := ih hp
    simp only [List.indexOf?] at this ⊢
    simp [List.findIdx?_cons, hd, this]

theorem find_first_comma (x rest : Str) (hx : ',' ∉ x) :
    find (x ++ ',' :: rest) ',' 0 = some x.length := by
  simp [find, indexOf?_append_of_not_mem ',' x rest hx]

theorem find_second_comma (x y rest : Str) (hy : ',' ∉ y) :
    find (x ++ ',' :: (y ++ ',' :: rest)) ',' (x.length + 1) = some (x.length + 1 + y.length) := by
  have : List.drop (x.length + 1) (x ++ ',' :: (y ++ ',' :: rest)) = y ++ ',' :: rest := by
    rw [show x ++ ',' :: (y ++ ',' :: rest) = (x ++ [',']) ++ (y ++ ',' :: rest) by simp]
    rw [List.drop_append_eq_append_drop]
    simp
  simp [find, this, indexOf?_append_of_not_mem ',' y rest hy]

/-- C5. For every text `x,y,z` (no comma in `x` and `y`) `Attribute::asVec3`
parses the first component from `x` and the third from `z`, but the second from
`text.substr(pos1 + 1, pos2)`: the field `y`, the second comma, and as many
characters of `z` as `x` is long. The length argument is `pos2`, where `asVec4`
passes `pos2 - pos1 - 1`. -/
theorem asVec3_second_field_overruns (parse_double : Str → Except Error ℚ) (name x y z : Str)
    (hx : ',' ∉ x) (hy : ',' ∉ y) :
    (Attribute.mk name (x ++ ',' :: (y ++ ',' :: z))).asVec3 parse_double =
      (do
        let a ← parse_double x
        let b ← parse_double (y ++ ',' :: z.take x.length)
        let c ← parse_double z
        return (a, b, c)) := by
  have e1 : substr (x ++ ',' :: (y ++ ',' :: z)) 0 x.length = x := by
    simp [substr]
  have hdrop1 : List.drop (x.length + 1) (x ++ ',' :: (y ++ ',' :: z)) = y ++ ',' :: z := by
    rw [show x ++ ',' :: (y ++ ',' :: z) = (x ++ [',']) ++ (y ++ ',' :: z) by simp]
    rw [List.drop_append_eq_append_drop]
    simp
  have e2 : substr (x ++ ',' :: (y ++ ',' :: z)) (x.length + 1) (x.length + 1 + y.length)
      = y ++ ',' :: z.take x.length := by
    simp only [substr, hdrop1]
    rw [List.take_append_eq_append_take]
    have h1 : List.take (x.length + 1 + y.length) y = y := List.take_of_length_le (by omega)
    have h2 : x.length + 1 + y.length - y.length = x.length + 1 := by omega
    rw [h1, h2]
    rfl
  have hdrop2 : List.drop (x.length + 1 + y.length + 1) (x ++ ',' :: (y ++ ',' :: z)) = z := by
    rw [show x ++ ',' :: (y ++ ',' :: z) = (x ++ ',' :: (y ++ [','])) ++ z by simp]
    rw [List.drop_append_eq_append_drop]
    have : (x ++ ',' :: (y ++ [','])).length = x.length + 1 + y.length + 1 := by
      simp; omega
    rw [List.drop_of_length_le (by omega), this]
    simp
  have e3 : substr (x ++ ',' :: (y ++ ',' :: z)) (x.length + 1 + y.length + 1)
      ((x ++ ',' :: (y ++ ',' :: z)).length - (x.length + 1 + y.length) - 1) = z := by
    simp only [substr, hdrop2]
    apply List.take_of_length_le
    simp
    omega
  simp only [Attribute.asVec3, find_first_comma x _ hx, find_second_comma x y z hy,
    parse_double_at, e1, e2, e3]

theorem asVec3_second_field_overruns_witness :
    ',' ∉ "1".toList ∧ ',' ∉ "2".toList ∧
    ∀ parse_double : Str → Except Error ℚ,
      (Attribute.mk [] ("1".toList ++ ',' :: ("2".toList ++ ',' :: "3".toList))).asVec3
        parse_double =
      (do
        let a ← parse_double "1".toList
        let b ← parse_double ("2".toList ++ ',' :: "3".toList.take "1".toList.length)
        let c ← parse_double "3".toList
        return (a, b, c)) :=
  ⟨by decide, by decide, fun parse_double =>
    asVec3_second_field_overruns parse_double [] "1".toList "2".toList "3".toList
      (by decide) (by decide)⟩

theorem intOr_zero_left (x : Int) (h1 : -(2 : Int) ^ 31 ≤ x) (h2 : x < (2 : Int) ^ 31) :
    intOr 0 x = x := by
  have e : intBits 0 = 0 := by decide
  simp only [intOr, e, Nat.zero_or, intOfBits, intBits]
  norm_num at h1 h2 ⊢
  split_ifs with h <;> omega

/-- C6. `Attribute::asColor` clamps only the high digit of a pair: for every
decoder that gives 0 for `'0'` and a negative `int` for the non-digit `'G'`, the
red component of `"#0G0000"` is that negative value over 255, neither
`(16*0 + 0)/255` nor a number in `[0,1]`. -/
theorem asColor_low_digit_not_clamped (hexchar2int : Char → Int)
    (parse_double : Str → Except Error ℚ) (name : Str)
    (h0 : hexchar2int '0' = 0) (hneg : hexchar2int 'G' < 0)
    (hint : -(2 : Int) ^ 31 ≤ hexchar2int 'G') :
    (Attribute.mk name "#0G0000".toList).asColor hexchar2int parse_double =
      .ok ((hexchar2int 'G' : ℚ) / 255, 0, 0, 1) ∧
    (hexchar2int 'G' : ℚ) / 255 < 0 := by
  have hs : intShiftLeft 0 4 = 0 := by decide
  have hz : intOr 0 0 = 0 := by decide
  have hG : intOr 0 (hexchar2int 'G') = hexchar2int 'G' :=
    intOr_zero_left _ hint (by have : (0:Int) < (2:Int)^31 := by norm_num
                               omega)
  constructor
  · simp [Attribute.asColor, charAt, hexPair, h0, hs, hz, hG]
  · have : (hexchar2int 'G' : ℚ) < 0 := by exact_mod_cast hneg
    linarith

theorem asColor_low_digit_not_clamped_witness :
    hexchar2int '0' = 0 ∧ hexchar2int 'G' < 0 ∧ -(2 : Int) ^ 31 ≤ hexchar2int 'G' ∧
    (Attribute.mk [] "#0G0000".toList).asColor hexchar2int (fun _ => .ok 0) =
      .ok ((hexchar2int 'G' : ℚ) / 255, 0, 0, 1) :=
  ⟨by decide, by decide, by decide,
    (asColor_low_digit_not_clamped hexchar2int (fun _ => .ok 0) [] (by decide) (by decide)
      (by decide)).1⟩

/-! ## VCM dialect: the examples -/

/-- C7 (counterexample). On `@root @child name "v" { @grandchild }` with root
tag `root` the root of the document owns two children, not one. -/
theorem parse_vcm_example_root_size :
    (parse_vcm "@root @child name \"v\" { @grandchild }".toList "root".toList).map
      (fun document => document.root.map Node.size) = .ok (some 2) := by
  decide

/-- C7 (amended). `xml::parse_vcm` on `@root @child name "v" { @grandchild }`
with the root tag `root` yields a root tagged `root` that owns two children, in
order: a node tagged `root` (the element `@root` of the source) without
attributes and children, and a node tagged `child` whose only attribute is
`name="v"` and whose only child is `grandchild`, without attributes and
children. -/
theorem parse_vcm_example :
    parse_vcm "@root @child name \"v\" { @grandchild }".toList "root".toList =
      .ok ⟨"1.0".toList, "UTF-8".toList,
        some (.mk "root".toList []
          [.mk "root".toList [] [],
           .mk "child".toList [⟨"name".toList, "v".toList⟩]
             [.mk "grandchild".toList [] []]])⟩ := by
  decide

/-- C8. `xml::parse_vcm` rejects two sources of the VCM grammar: it fails with
`unexpected character in element` on the empty block `@a { }` and on
`@a { @b { @c } }`, where the last element of a block has a block itself; the
same nesting followed by a sibling, `@a { @b { @c } @d }`, is accepted. -/
theorem parse_vcm_rejects_closing_brace_at_loop_head :
    parse_vcm "@a { }".toList "t".toList =
      .error (.parsing "unexpected character in element") ∧
    parse_vcm "@a { @b { @c } }".toList "t".toList =
      .error (.parsing "unexpected character in element") ∧
    parse_vcm "@a { @b { @c } @d }".toList "t".toList =
      .ok ⟨"1.0".toList, "UTF-8".toList,
        some (.mk "t".toList []
          [.mk "a".toList [] [.mk "b".toList [] [.mk "c".toList [] []], .mk "d".toList [] []]])⟩ := by
  decide

/-! ## Lexical core: basic facts -/

theorem xml_start_is_part (c : Char) (h : is_xml_identifier_start c = true) :
    is_xml_identifier_part c = true := by
  simp only [is_xml_identifier_start, is_xml_identifier_part, is_identifier_part,
    Bool.or_eq_true] at h ⊢
  tauto

theorem ne_of_pred_false {p : Char → Bool} {c k : Char} (hc : p c = true) (hk : p k = false) :
    c ≠ k := by
  rintro rfl
  rw [hc] at hk
  exact Bool.noConfusion hk

theorem xml_part_not_whitespace (c : Char) (h : is_xml_identifier_part c = true) :
    is_whitespace c = false := by
  simp only [is_whitespace, Bool.or_eq_false_iff, beq_eq_false_iff_ne]
  refine ⟨⟨⟨⟨?_, ?_⟩, ?_⟩, ?_⟩, ?_⟩ <;> exact ne_of_pred_false h (by decide)

theorem isXmlName_cons {n : Str} (h : isXmlName n = true) :
    ∃ c cs, n = c :: cs ∧ is_xml_identifier_start c = true ∧
      ∀ x ∈ c :: cs, is_xml_identifier_part x = true := by
  cases n with
  | nil => simp [isXmlName] at h
  | cons c cs =>
    simp only [isXmlName, Bool.and_eq_true, List.all_eq_true] at h
    refine ⟨c, cs, rfl, h.1, ?_⟩
    intro x hx
    rcases List.mem_cons.1 hx with rfl | hx
    · exact xml_start_is_part _ h.1
    · exact h.2 x hx

theorem span_append_all {p : Char → Bool} (l rest : Str) (h : ∀ c ∈ l, p c = true)
    (hrest : ∀ c ∈ rest.head?, p c = false) : (l ++ rest).span p = (l, rest) := by
  induction l with
  | nil =>
    cases rest with
    | nil => rfl
    | cons c rest =>
      have := hrest c rfl
      simp [List.span_eq_take_drop, List.takeWhile_cons, List.dropWhile_cons, this]
  | cons c l ih =>
    have hc : p c = true := h c (List.mem_cons_self _ _)
    have := ih (fun x hx => h x (List.mem_cons_of_mem _ hx))
    simp only [List.span_eq_take_drop, Prod.mk.injEq] at this ⊢
    simp [List.takeWhile_cons, List.dropWhile_cons, hc, this.1, this.2]

theorem skipWhitespace_cons_of_not (c : Char) (s : Str) (h : is_whitespace c = false) :
    skipWhitespace false (c :: s) = c :: s := by
  simp [skipWhitespace, List.dropWhile_cons, h]

theorem peek_cons_of_not (c : Char) (s : Str) (h : is_whitespace c = false) :
    peek false (c :: s) = .ok (c, c :: s) := by
  simp [peek, skipWhitespace_cons_of_not c s h]

theorem parseXMLName_append (n next : Str) (hn : isXmlName n = true)
    (hnext : ∀ c ∈ next.head?, is_xml_identifier_part c = false) :
    parseXMLName (n ++ next) = .ok (n, next) := by
  obtain ⟨c, cs, rfl, hc, hall⟩ := isXmlName_cons hn
  have hp := peek_cons_of_not c (cs ++ next) (xml_part_not_whitespace c (xml_start_is_part c hc))
  have hs := span_append_all (c :: cs) next hall hnext
  simp only [List.cons_append, List.span_eq_take_drop, Prod.mk.injEq] at hs
  simp [parseXMLName, hp, hc, hs.1, hs.2, bind, Except.bind, pure, Except.pure]

theorem parseString_quote (quote : Char) (closeRequired : Bool) (s : Str) :
    parseString quote closeRequired (quote :: s) = .ok ([], s) := by
  rw [parseString.eq_def]
  simp

theorem parseString_plain (quote : Char) (closeRequired : Bool) (c : Char) (s text rest : Str)
    (hq : c ≠ quote) (hb : c ≠ '\\') (hn : c ≠ '\n' ∨ closeRequired = false)
    (h : parseString quote closeRequired s = .ok (text, rest)) :
    parseString quote closeRequired (c :: s) = .ok (c :: text, rest) := by
  rw [parseString.eq_def]
  have hn' : (c == '\n' && closeRequired) = false := by
    rcases hn with hn | hn
    · simp [hn]
    · simp [hn]
  simp [hq, hb, hn', h]

theorem parseString_backslash (quote : Char) (closeRequired : Bool) (e d : Char)
    (s text rest : Str) (hq : quote ≠ '\\') (he : unescapeChar e = some d)
    (h : parseString quote closeRequired s = .ok (text, rest)) :
    parseString quote closeRequired ('\\' :: e :: s) = .ok (d :: text, rest) := by
  rw [parseString.eq_def]
  simp [hq.symm, he, h]

theorem parseString_escapeChar (c : Char) (s text rest : Str)
    (h : parseString '"' true s = .ok (text, rest)) :
    parseString '"' true (escapeChar c ++ s) = .ok (c :: text, rest) := by
  unfold escapeChar
  split_ifs with h1 h2 h3 h4 h5 h6 h7
  · simp only [beq_iff_eq] at h1; subst h1
    exact parseString_backslash _ _ 'n' _ _ _ _ (by decide) (by decide) h
  · simp only [beq_iff_eq] at h2; subst h2
    exact parseString_backslash _ _ 'r' _ _ _ _ (by decide) (by decide) h
  · simp only [beq_iff_eq] at h3; subst h3
    exact parseString_backslash _ _ 't' _ _ _ _ (by decide) (by decide) h
  · simp only [beq_iff_eq] at h4; subst h4
    exact parseString_backslash _ _ 'f' _ _ _ _ (by decide) (by decide) h
  · simp only [beq_iff_eq] at h5; subst h5
    exact parseString_backslash _ _ 'b' _ _ _ _ (by decide) (by decide) h
  · simp only [beq_iff_eq] at h6; subst h6
    exact parseString_backslash _ _ '"' _ _ _ _ (by decide) (by decide) h
  · simp only [beq_iff_eq] at h7; subst h7
    exact parseString_backslash _ _ '\\' _ _ _ _ (by decide) (by decide) h
  · simp only [beq_iff_eq] at h1 h6 h7
    exact parseString_plain _ _ c _ _ _ h6 h7 (Or.inl h1) h

theorem parseString_escape (v rest : Str) :
    parseString '"' true ((v.map escapeChar).flatten ++ '"' :: rest) = .ok (v, rest) := by
  induction v with
  | nil => exact parseString_quote _ _ _
  | cons c v ih =>
    simp only [List.map_cons, List.flatten_cons, List.append_assoc]
    exact parseString_escapeChar c _ _ _ ih

theorem skipWhitespace_idem (s : Str) :
    skipWhitespace false (skipWhitespace false s) = skipWhitespace false s := by
  induction s with
  | nil => rfl
  | cons c s ih =>
    by_cases hc : is_whitespace c = true
    · simpa [skipWhitespace, List.dropWhile_cons, hc] using ih
    · simp [skipWhitespace, List.dropWhile_cons, hc]

theorem skipWhitespace_append_all (ws s : Str) (h : ∀ c ∈ ws, is_whitespace c = true) :
    skipWhitespace false (ws ++ s) = skipWhitespace false s := by
  simpa [skipWhitespace] using dropWhile_append_all ws s h

theorem peek_skipWhitespace (s : Str) : peek false (skipWhitespace false s) = peek false s := by
  simp [peek, skipWhitespace_idem]

theorem parseOpenTagLoop_skipWhitespace (fuel : Nat) (node : Node) (s : Str) :
    parseOpenTagLoop fuel node (skipWhitespace false s) = parseOpenTagLoop fuel node s := by
  cases fuel with
  | zero => rfl
  | succ fuel => simp only [parseOpenTagLoop, skipWhitespace_idem]

theorem parseOpenTagLoop_end (fuel : Nat) (node : Node) (t : Char) (s : Str)
    (ht : t = '/' ∨ t = '>' ∨ t = '?') :
    parseOpenTagLoop (fuel + 1) node (t :: s) = .ok (node, t :: s) := by
  have hw : is_whitespace t = false := by rcases ht with h | h | h <;> subst h <;> decide
  simp only [parseOpenTagLoop, skipWhitespace_cons_of_not t s hw, peek_cons_of_not t s hw]
  rcases ht with h | h | h <;> subst h <;> rfl

/-- The node after the attribute loop has stored the attributes in order; the
attribute list is followed by optional whitespace and a terminator `t`. -/
theorem parseOpenTagLoop_attrs (attrs : List Attribute) :
    ∀ (fuel : Nat) (node : Node) (tl : Str) (t : Char) (s : Str), attrs.length < fuel →
      (∀ a ∈ attrs, isXmlName a.name = true) → (t = '/' ∨ t = '>' ∨ t = '?') →
      skipWhitespace false tl = t :: s →
      (∀ c ∈ tl.head?, is_xml_identifier_part c = false) →
      parseOpenTagLoop fuel node (renderAttrs attrs ++ tl) =
        .ok (attrs.foldl (fun nd a => nd.set a.name a.text) node, t :: s) := by
  induction attrs with
  | nil =>
    intro fuel node tl t s hf _ ht htl _
    obtain ⟨fuel, rfl⟩ : ∃ k, fuel = k + 1 := ⟨fuel - 1, by omega⟩
    rw [show renderAttrs [] ++ tl = tl from rfl, ← parseOpenTagLoop_skipWhitespace, htl]
    simpa using parseOpenTagLoop_end fuel node t s ht
  | cons a rest ih =>
    intro fuel node tl t s hf hnames ht htl htlhead
    obtain ⟨fuel, rfl⟩ : ∃ k, fuel = k + 1 := ⟨fuel - 1, by omega⟩
    have hrec := ih fuel (node.set a.name a.text) tl t s (by simpa using hf)
      (fun b hb => hnames b (List.mem_cons_of_mem _ hb)) ht htl htlhead
    have hname := hnames a (List.mem_cons_self _ _)
    obtain ⟨c, cs, hcs, hstart, hall⟩ := isXmlName_cons hname
    have hcw : is_whitespace c = false := xml_part_not_whitespace c (xml_start_is_part c hstart)
    have hc1 : c ≠ '/' := ne_of_pred_false hstart (by decide)
    have hc2 : c ≠ '>' := ne_of_pred_false hstart (by decide)
    have hc3 : c ≠ '?' := ne_of_pred_false hstart (by decide)
    have hte : t ≠ '=' := by rcases ht with h | h | h <;> subst h <;> decide
    -- the head of what follows the attribute is not a name character
    have hnext_head : ∀ x ∈ (renderAttrs rest ++ tl).head?, is_xml_identifier_part x = false := by
      cases rest with
      | nil => simpa [renderAttrs] using htlhead
      | cons b rest => intro x hx; simp [renderAttrs] at hx; subst hx; decide
    -- the character seen after the name when the text is empty is not `=`
    have hpeek_next : ∃ x r, peek false (renderAttrs rest ++ tl) = .ok (x, x :: r) ∧ x ≠ '=' ∧
        x :: r = skipWhitespace false (renderAttrs rest ++ tl) := by
      cases rest with
      | nil =>
        refine ⟨t, s, ?_, hte, ?_⟩
        · simp [renderAttrs, peek, htl]
        · simp [renderAttrs, htl]
      | cons b rest =>
        obtain ⟨d, ds, hds, hdstart, _⟩ := isXmlName_cons (hnames b (by simp))
        have hdw : is_whitespace d = false :=
          xml_part_not_whitespace d (xml_start_is_part d hdstart)
        have hsk : skipWhitespace false (renderAttrs (b :: rest) ++ tl) =
            d :: (ds ++ ((if b.text.isEmpty then [] else '=' :: escape b.text)
              ++ renderAttrs rest ++ tl)) := by
          simp [renderAttrs, hds, skipWhitespace, List.dropWhile_cons, hdw,
            show is_whitespace ' ' = true by decide]
        refine ⟨d, _, ?_, ne_of_pred_false hdstart (by decide), hsk.symm⟩
        simp [peek, hsk]
    simp only [renderAttrs, List.cons_append, List.append_assoc, parseOpenTagLoop]
    have hsk0 : skipWhitespace false (' ' :: (a.name ++ ((if a.text.isEmpty then [] else
        '=' :: escape a.text) ++ (renderAttrs rest ++ tl)))) =
        a.name ++ ((if a.text.isEmpty then [] else '=' :: escape a.text) ++
          (renderAttrs rest ++ tl)) := by
      simp [hcs, skipWhitespace, List.dropWhile_cons, hcw, show is_whitespace ' ' = true by decide]
    rw [hsk0]
    have hcond : (c == '/' || c == '>' || c == '?') = false := by simp [hc1, hc2, hc3]
    by_cases hempty : a.text.isEmpty = true
    · have hx := parseXMLName_append a.name (renderAttrs rest ++ tl) hname hnext_head
      obtain ⟨x, r, hpk, hxe, hxr⟩ := hpeek_next
      have hp0 : peek false (a.name ++ (renderAttrs rest ++ tl)) =
          .ok (c, a.name ++ (renderAttrs rest ++ tl)) := by
        rw [hcs]; exact peek_cons_of_not c _ hcw
      have hat : a.text = [] := by simpa using hempty
      have hxe' : (x == '=') = false := by simp [hxe]
      simp only [hempty, if_true, List.nil_append, hp0, hx, bind, Except.bind, peek_skipWhitespace,
        hpk, pure, Except.pure, hcond, hxe', Bool.false_eq_true, if_false]
      rw [hxr, parseOpenTagLoop_skipWhitespace, ← hat, hrec, List.foldl_cons]
    · have hval : (if a.text.isEmpty = true then [] else '=' :: escape a.text) =
          '=' :: escape a.text := by simp [hempty]
      have hesc : escape a.text ++ (renderAttrs rest ++ tl) =
          '"' :: ((a.text.map escapeChar).flatten ++ '"' :: (renderAttrs rest ++ tl)) := by
        simp [escape]
      rw [hval]
      simp only [List.cons_append, hesc]
      generalize htail : (a.text.map escapeChar).flatten ++ '"' :: (renderAttrs rest ++ tl)
        = tail
      have hps : parseString '"' true tail = .ok (a.text, renderAttrs rest ++ tl) := by
        rw [← htail]; exact parseString_escape a.text (renderAttrs rest ++ tl)
      have hx := parseXMLName_append a.name ('=' :: '"' :: tail)
        hname (by intro x hx; simp at hx; subst hx; decide)
      have hp0 : peek false (a.name ++ '=' :: '"' :: tail) =
          .ok (c, a.name ++ '=' :: '"' :: tail) := by
        rw [hcs]; exact peek_cons_of_not c _ hcw
      have hq : ('"' != '\'' && '"' != '"') = false := by decide
      simp only [hp0, hx, bind, Except.bind, pure, Except.pure, hcond, Bool.false_eq_true,
        if_false, skipWhitespace_cons_of_not '=' _ (show is_whitespace '=' = false by decide),
        peek_cons_of_not '=' _ (show is_whitespace '=' = false by decide), nextChar,
        skipWhitespace_cons_of_not '"' _ (show is_whitespace '"' = false by decide),
        peek_cons_of_not '"' _ (show is_whitespace '"' = false by decide), skip,
        List.drop_succ_cons, List.drop_zero, hps, beq_self_eq_true, if_true, hq]
      rw [hrec, List.foldl_cons]

/-! ## Text runs and comments -/

theorem dropWhile_append_stop {p : Char → Bool} (l : Str) (x : Char) (r : Str)
    (hx : p x = false) : (l ++ x :: r).dropWhile p = l.dropWhile p ++ x :: r := by
  induction l with
  | nil => simp [List.dropWhile_cons, hx]
  | cons c l ih =>
    by_cases hc : p c = true
    · simp [List.dropWhile_cons, hc, ih]
    · simp [List.dropWhile_cons, hc]

theorem length_dropWhile_le (p : Char → Bool) (l : Str) : (l.dropWhile p).length ≤ l.length := by
  induction l with
  | nil => simp
  | cons c l ih =>
    by_cases hc : p c = true
    · simp [List.dropWhile_cons, hc]; omega
    · simp [List.dropWhile_cons, hc]

theorem mem_dropWhile (p : Char → Bool) (l : Str) (c : Char) (h : c ∈ l.dropWhile p) : c ∈ l := by
  induction l with
  | nil => simp at h
  | cons d l ih =>
    by_cases hd : p d = true
    · simp only [List.dropWhile_cons, hd, if_true] at h
      exact List.mem_cons_of_mem _ (ih h)
    · simpa [List.dropWhile_cons, hd] using h

/-- The loop of `parseText` stops at the first `<`. -/
theorem parseTextLoop_stop (fuel : Nat) : ∀ (raw r : Str), (∀ c ∈ raw, c ≠ '<') →
    raw.length < fuel → parseTextLoop fuel (raw ++ '<' :: r) = .ok ('<' :: r) := by
  induction fuel with
  | zero => intro raw r _ h; omega
  | succ fuel ih =>
    intro raw r hraw hlen
    have hnext : hasNext (raw ++ '<' :: r) = true := by simp [hasNext]
    have hskip : skipWhitespace false (raw ++ '<' :: r) = raw.dropWhile is_whitespace ++ '<' :: r := by
      simpa [skipWhitespace] using dropWhile_append_stop raw '<' r (by decide)
    simp only [parseTextLoop, hnext, if_true, peek, hskip]
    cases hd : raw.dropWhile is_whitespace with
    | nil => simp [bind, Except.bind, pure, Except.pure]
    | cons c raw' =>
      have hmem : ∀ x ∈ c :: raw', x ∈ raw := by
        intro x hx; rw [← hd] at hx; exact mem_dropWhile _ _ _ hx
      have hc : c ≠ '<' := hraw c (hmem c (List.mem_cons_self _ _))
      have hl : raw'.length < fuel := by
        have := length_dropWhile_le is_whitespace raw
        rw [hd] at this
        simp at this
        omega
      have := ih raw' r (fun x hx => hraw x (hmem x (List.mem_cons_of_mem _ hx))) hl
      simp [bind, Except.bind, pure, Except.pure, hc, nextChar, this]

theorem parseString_no_quote (raw : Str)
    (h : ∀ c ∈ raw, c ≠ '\\' ∧ c ≠ Char.ofNat 0) :
    parseString (Char.ofNat 0) false raw = .ok (raw, []) := by
  induction raw with
  | nil => simp [parseString]
  | cons c raw ih =>
    have hc := h c (List.mem_cons_self _ _)
    exact parseString_plain _ _ c raw raw [] hc.2 hc.1 (Or.inr rfl)
      (ih (fun x hx => h x (List.mem_cons_of_mem _ hx)))

/-- `parseText` on a run without `<`, backslash and null character, followed by
a `<`, returns the run unchanged. -/
theorem parseText_plain (raw r : Str)
    (h : ∀ c ∈ raw, c ≠ '<' ∧ c ≠ '\\' ∧ c ≠ Char.ofNat 0) :
    parseText (raw ++ '<' :: r) = .ok (raw, '<' :: r) := by
  have h1 := parseTextLoop_stop ((raw ++ '<' :: r).length + 1) raw r (fun c hc => (h c hc).1)
    (by simp; omega)
  have h2 := parseString_no_quote raw (fun c hc => (h c hc).2)
  have h3 : List.take ((raw ++ '<' :: r).length - ('<' :: r).length) (raw ++ '<' :: r) = raw := by
    have : (raw ++ '<' :: r).length - ('<' :: r).length = raw.length := by simp
    rw [this, List.take_left']
    rfl
  simp only [parseText, h1, bind, Except.bind, h3, h2, pure, Except.pure]

theorem isPrefixOf_append_of_length_le (p l m : Str) (h : p.length ≤ l.length) :
    p.isPrefixOf (l ++ m) = p.isPrefixOf l := by
  induction p generalizing l with
  | nil => simp
  | cons a p ih =>
    cases l with
    | nil => simp at h
    | cons b l =>
      have := ih l (by simpa using h)
      simp only [List.cons_append, List.isPrefixOf]
      simp only [List.append_eq] at this ⊢
      rw [this]

/-- `skipTo("-->")` stops at the end of a well-formed comment body. -/
theorem skipTo_comment (body rest : Str) (h : isCommentBody body = true) :
    skipTo "-->".toList (body ++ ("-->".toList ++ rest)) = (true, "-->".toList ++ rest) := by
  induction body with
  | nil => simp [skipTo, List.isPrefixOf]
  | cons c body ih =>
    simp only [isCommentBody, Bool.and_eq_true, Bool.not_eq_true'] at h
    have hp : "-->".toList.isPrefixOf (c :: body ++ ("-->".toList ++ rest)) = false := by
      have e : c :: body ++ ("-->".toList ++ rest) = (c :: body ++ "--".toList) ++ ('>' :: rest) := by
        simp
      rw [e, isPrefixOf_append_of_length_le _ _ _ (by simp)]
      exact h.1
    simp only [List.cons_append] at hp ⊢
    rw [skipTo, hp]
    simpa using ih h.2

/-- `parseComment` on the rest of a well-formed comment. -/
theorem parseComment_render (body rest : Str) (h : isCommentBody body = true) :
    parseComment ("!--".toList ++ body ++ "-->".toList ++ rest) = .ok rest := by
  have h1 : expectStr "!--".toList ("!--".toList ++ body ++ "-->".toList ++ rest) =
      .ok (body ++ ("-->".toList ++ rest)) := by
    simp [expectStr, List.isPrefixOf]
  have h2 := skipTo_comment body rest h
  simp only [parseComment, h1, bind, Except.bind, h2]
  simp [skip, pure, Except.pure]

/-! ## Open tags -/

theorem mapAssign_fresh (attrs : List Attribute) (name : Str) (value : Attribute)
    (h : name ∉ attrs.map (fun a => a.name)) : mapAssign attrs name value = attrs ++ [value] := by
  induction attrs with
  | nil => rfl
  | cons a rest ih =>
    have ha : a.name ≠ name := fun e => h (by simp [e])
    have hr : name ∉ rest.map (fun a => a.name) := fun e => h (by simp [e])
    simp [mapAssign, ha, ih hr]

theorem foldl_set_nodup (tag : Str) (elements : List Node) (attrs : List Attribute) :
    ∀ pre : List Attribute, ((pre ++ attrs).map (fun a => a.name)).Nodup →
      attrs.foldl (fun nd a => nd.set a.name a.text) (Node.mk tag pre elements) =
        Node.mk tag (pre ++ attrs) elements := by
  induction attrs with
  | nil => intro pre _; simp
  | cons a rest ih =>
    intro pre h
    have hfresh : a.name ∉ pre.map (fun a => a.name) := by
      rw [List.map_append, List.nodup_append] at h
      intro hmem
      exact h.2.2 hmem (by simp)
    have h' : ((pre ++ [a] ++ rest).map (fun a => a.name)).Nodup := by simpa using h
    have := ih (pre ++ [a]) h'
    simp only [List.foldl_cons, Node.set, Node.getTag, Node.getAttributes, Node.getElements,
      mapAssign_fresh pre a.name _ hfresh]
    simpa using this

theorem length_renderAttrs (attrs : List Attribute) : attrs.length ≤ (renderAttrs attrs).length := by
  induction attrs with
  | nil => simp
  | cons a rest ih => simp [renderAttrs]; omega

/-- `parseOpenTag` on a tag name followed by an attribute list in the notation
of the serializer, optional whitespace and a terminator. -/
theorem parseOpenTag_attrs (tag : Str) (attrs : List Attribute) (tl : Str) (t : Char) (s : Str)
    (htag : isXmlName tag = true) (hnames : ∀ a ∈ attrs, isXmlName a.name = true)
    (hnodup : (attrs.map (fun a => a.name)).Nodup) (ht : t = '/' ∨ t = '>' ∨ t = '?')
    (htl : skipWhitespace false tl = t :: s)
    (htlhead : ∀ c ∈ tl.head?, is_xml_identifier_part c = false) :
    parseOpenTag (tag ++ (renderAttrs attrs ++ tl)) = .ok (Node.mk tag attrs [], t :: s) := by
  have hhead : ∀ c ∈ (renderAttrs attrs ++ tl).head?, is_xml_identifier_part c = false := by
    cases attrs with
    | nil => simpa [renderAttrs] using htlhead
    | cons b rest => intro x hx; simp [renderAttrs] at hx; subst hx; decide
  have h1 := parseXMLName_append tag (renderAttrs attrs ++ tl) htag hhead
  have h2 := parseOpenTagLoop_attrs attrs ((renderAttrs attrs ++ tl).length + 1)
    (Node.new tag) tl t s (by have := length_renderAttrs attrs; simp; omega) hnames ht htl htlhead
  have h3 := foldl_set_nodup tag [] attrs [] (by simpa using hnodup)
  simp only [parseOpenTag, h1, bind, Except.bind, h2]
  simp only [Node.new, h3, List.nil_append]

/-- `parseOpenTag` on a tag name followed by an attribute list in the notation
of the serializer and a terminator. -/
theorem parseOpenTag_render (tag : Str) (attrs : List Attribute) (t : Char) (s : Str)
    (htag : isXmlName tag = true) (hnames : ∀ a ∈ attrs, isXmlName a.name = true)
    (hnodup : (attrs.map (fun a => a.name)).Nodup) (ht : t = '/' ∨ t = '>' ∨ t = '?') :
    parseOpenTag (tag ++ (renderAttrs attrs ++ t :: s)) = .ok (Node.mk tag attrs [], t :: s) := by
  have htw : is_whitespace t = false := by rcases ht with h | h | h <;> subst h <;> decide
  exact parseOpenTag_attrs tag attrs (t :: s) t s htag hnames hnodup ht
    (skipWhitespace_cons_of_not t s htw)
    (by intro c hc; simp at hc; subst hc; rcases ht with h | h | h <;> subst h <;> decide)

/-! ## `parseElement` on the four kinds of construct -/

theorem parseElement_text (fuel : Nat) (raw r : Str) (h : isPlainText raw = true) :
    parseElement (fuel + 1) (raw ++ '<' :: r) =
      .ok (some (.mk ['#'] [⟨['#'], decodeEntities raw⟩] []), '<' :: r) := by
  cases raw with
  | nil => simp [isPlainText] at h
  | cons c raw =>
    simp only [isPlainText, Bool.and_eq_true, Bool.not_eq_true', List.all_eq_true,
      bne_iff_ne, ne_eq] at h
    have hc := (h.2 c (List.mem_cons_self _ _)).1
    have hp := peek_cons_of_not c (raw ++ '<' :: r) h.1
    have ht := parseText_plain (c :: raw) r
      (fun x hx => ⟨(h.2 x hx).1.1, (h.2 x hx).1.2, (h.2 x hx).2⟩)
    simp only [List.cons_append] at ht
    have hne : (c != '<') = true := by simp [hc.1]
    simp only [parseElement, List.cons_append, hp, bind, Except.bind, hne, if_true, ht, pure,
      Except.pure]
    rfl

theorem parseElement_comment (fuel : Nat) (body rest : Str) (h : isCommentBody body = true) :
    parseElement (fuel + 1) ("<!--".toList ++ body ++ "-->".toList ++ rest) = .ok (none, rest) := by
  have hc := parseComment_render body rest h
  have e : "<!--".toList ++ body ++ "-->".toList ++ rest =
      '<' :: ("!--".toList ++ body ++ "-->".toList ++ rest) := rfl
  have hp1 : peek false ('<' :: ("!--".toList ++ body ++ "-->".toList ++ rest)) =
      .ok ('<', '<' :: ("!--".toList ++ body ++ "-->".toList ++ rest)) :=
    peek_cons_of_not _ _ (by decide)
  have hp2 : peek false ("!--".toList ++ body ++ "-->".toList ++ rest) =
      .ok ('!', "!--".toList ++ body ++ "-->".toList ++ rest) :=
    peek_cons_of_not _ _ (by decide)
  have hn : isNext "!DOCTYPE ".toList ("!--".toList ++ body ++ "-->".toList ++ rest) = false := by
    simp [isNext, List.isPrefixOf]
  rw [e]
  simp only [parseElement, hp1, bind, Except.bind, nextChar, hp2, hn, hc, pure, Except.pure]
  rfl

theorem parseElement_selfClosing (fuel : Nat) (tag : Str) (attrs : List Attribute) (rest : Str)
    (htag : isXmlName tag = true) (hnames : ∀ a ∈ attrs, isXmlName a.name = true)
    (hnodup : (attrs.map (fun a => a.name)).Nodup) :
    parseElement (fuel + 1) ('<' :: (tag ++ (renderAttrs attrs ++ '/' :: '>' :: rest))) =
      .ok (some (.mk tag attrs []), rest) := by
  obtain ⟨c, cs, hcs, hstart, -⟩ := isXmlName_cons htag
  have hp1 : peek false ('<' :: (tag ++ (renderAttrs attrs ++ '/' :: '>' :: rest))) =
      .ok ('<', '<' :: (tag ++ (renderAttrs attrs ++ '/' :: '>' :: rest))) :=
    peek_cons_of_not _ _ (by decide)
  have hp2 : peek false (tag ++ (renderAttrs attrs ++ '/' :: '>' :: rest)) =
      .ok (c, tag ++ (renderAttrs attrs ++ '/' :: '>' :: rest)) := by
    rw [hcs]
    exact peek_cons_of_not _ _ (xml_part_not_whitespace c (xml_start_is_part c hstart))
  have hc : (c == '!') = false := by
    simpa using ne_of_pred_false hstart (show is_xml_identifier_start '!' = false by decide)
  have ho := parseOpenTag_render tag attrs '/' ('>' :: rest) htag hnames hnodup (Or.inl rfl)
  have he : expectChar false '>' ('>' :: rest) = .ok rest := by
    simp [expectChar, peek_cons_of_not '>' rest (by decide), bind, Except.bind, pure, Except.pure]
  simp only [parseElement, hp1, bind, Except.bind, nextChar, hp2, hc, ho, he, pure, Except.pure]
  rfl

theorem parseElement_open (fuel : Nat) (tag : Str) (attrs : List Attribute) (s rest : Str)
    (result : Node) (htag : isXmlName tag = true)
    (hnames : ∀ a ∈ attrs, isXmlName a.name = true)
    (hnodup : (attrs.map (fun a => a.name)).Nodup)
    (hloop : parseElementLoop fuel (.mk tag attrs []) (skipWhitespace false s) =
      .ok (result, '<' :: '/' :: (tag ++ '>' :: rest)))
    (hresult : result.getTag = tag) :
    parseElement (fuel + 1) ('<' :: (tag ++ (renderAttrs attrs ++ '>' :: s))) =
      .ok (some result, rest) := by
  obtain ⟨c, cs, hcs, hstart, -⟩ := isXmlName_cons htag
  have hp1 : peek false ('<' :: (tag ++ (renderAttrs attrs ++ '>' :: s))) =
      .ok ('<', '<' :: (tag ++ (renderAttrs attrs ++ '>' :: s))) :=
    peek_cons_of_not _ _ (by decide)
  have hp2 : peek false (tag ++ (renderAttrs attrs ++ '>' :: s)) =
      .ok (c, tag ++ (renderAttrs attrs ++ '>' :: s)) := by
    rw [hcs]
    exact peek_cons_of_not _ _ (xml_part_not_whitespace c (xml_start_is_part c hstart))
  have hc : (c == '!') = false := by
    simpa using ne_of_pred_false hstart (show is_xml_identifier_start '!' = false by decide)
  have ho := parseOpenTag_render tag attrs '>' s htag hnames hnodup (Or.inr (Or.inl rfl))
  have hx : expectStr result.getTag (tag ++ '>' :: rest) = .ok ('>' :: rest) := by
    rw [hresult]
    simp [expectStr]
  have he : expectChar false '>' ('>' :: rest) = .ok rest := by
    simp [expectChar, peek_cons_of_not '>' rest (by decide), bind, Except.bind, pure, Except.pure]
  simp only [parseElement, hp1, bind, Except.bind, nextChar, hp2, hc, ho, hloop, skip,
    List.drop_succ_cons, List.drop_zero, hx, he, pure, Except.pure]
  rfl

theorem parseElementLoop_end (fuel : Nat) (element : Node) (rest : Str) :
    parseElementLoop (fuel + 1) element ('<' :: '/' :: rest) =
      .ok (element, '<' :: '/' :: rest) := by
  simp [parseElementLoop, isNext, List.isPrefixOf]

theorem parseElementLoop_step (fuel : Nat) (element : Node) (s s' : Str) (sub : Option Node)
    (hnext : isNext "</".toList s = false) (h : parseElement fuel s = .ok (sub, s')) :
    parseElementLoop (fuel + 1) element s =
      parseElementLoop fuel (sub.elim element (fun x => element.add x))
        (skipWhitespace false s') := by
  have hnext' : isNext ['<', '/'] s = false := hnext
  cases sub <;> simp [parseElementLoop, hnext', h, bind, Except.bind]

/-! ## The parser on well-formed constructs -/

theorem Content.depth_pos (c : Content) : 1 ≤ c.depth := by
  cases c <;> simp [Content.depth]

theorem depthAll_pos (cs : List Content) : 1 ≤ depthAll cs := by
  induction cs with
  | nil => simp [depthAll]
  | cons c cs ih => cases c <;> simp [depthAll, ih]

theorem Node.eta (node : Node) :
    Node.mk node.getTag node.getAttributes node.getElements = node := by
  cases node; rfl

theorem render_starts_markup (cs : List Content) (rest : Str)
    (h : startsWithMarkup cs = true) :
    ∃ r, renderAll cs ++ '<' :: '/' :: rest = '<' :: r := by
  cases cs with
  | nil => exact ⟨_, rfl⟩
  | cons c cs =>
    cases c with
    | element tag attrs body => exact ⟨_, by simp [renderAll, Content.render]; rfl⟩
    | comment body => exact ⟨_, by simp [renderAll, Content.render]; rfl⟩
    | text raw => simp [startsWithMarkup] at h
    | space ws => simp [startsWithMarkup] at h

/-- A construct other than whitespace starts with a character that is not
whitespace, and does not start with `</`. -/
theorem render_head (c : Content) (rest : Str) (hwf : c.wellFormed = true)
    (hc : ∀ ws, c ≠ .space ws) :
    skipWhitespace false (c.render ++ rest) = c.render ++ rest ∧
    isNext "</".toList (c.render ++ rest) = false := by
  cases c with
  | element tag attrs body =>
    simp only [Content.wellFormed, Bool.and_eq_true] at hwf
    obtain ⟨x, xs, hx, hstart, -⟩ := isXmlName_cons hwf.1.1.1
    have hx' : x ≠ '/' := ne_of_pred_false hstart (by decide)
    constructor
    · simp only [Content.render, List.cons_append]
      exact skipWhitespace_cons_of_not _ _ (by decide)
    · simp [Content.render, hx, isNext, List.isPrefixOf, hx'.symm]
  | text raw =>
    cases raw with
    | nil => simp [Content.wellFormed, isPlainText] at hwf
    | cons x raw =>
      simp only [Content.wellFormed, isPlainText, Bool.and_eq_true, Bool.not_eq_true',
        List.all_eq_true, bne_iff_ne, ne_eq] at hwf
      have hx : '<' ≠ x := fun e => (hwf.2 x (List.mem_cons_self _ _)).1.1 e.symm
      constructor
      · simp only [Content.render, List.cons_append]
        exact skipWhitespace_cons_of_not _ _ hwf.1
      · simp [Content.render, isNext, List.isPrefixOf, hx]
  | comment body =>
    constructor
    · exact skipWhitespace_cons_of_not _ _ (by decide)
    · simp [Content.render, isNext, List.isPrefixOf]
  | space ws => exact absurd rfl (hc ws)

theorem parse_render_aux (fuel : Nat) :
    (∀ (c : Content) (rest : Str), c.wellFormed = true → c.depth ≤ fuel →
      c.standsBefore rest = true →
      parseElement fuel (c.render ++ rest) = .ok (c.node?, rest)) ∧
    (∀ (cs : List Content) (element : Node) (rest : Str), wellFormedAll cs = true →
      depthAll cs ≤ fuel →
      parseElementLoop fuel element (skipWhitespace false (renderAll cs ++ '<' :: '/' :: rest)) =
        .ok (.mk element.getTag element.getAttributes (element.getElements ++ nodesOf cs),
          '<' :: '/' :: rest)) := by
  induction fuel with
  | zero =>
    constructor
    · intro c _ _ hd; have := c.depth_pos; omega
    · intro cs _ _ _ hd; have := depthAll_pos cs; omega
  | succ fuel ih =>
    constructor
    · intro c rest hwf hd hctx
      cases c with
      | element tag attrs body =>
        simp only [Content.wellFormed, Bool.and_eq_true, List.all_eq_true,
          decide_eq_true_eq] at hwf
        obtain ⟨⟨⟨htag, hnames⟩, hnodup⟩, hbody⟩ := hwf
        simp only [Content.depth] at hd
        cases body with
        | nil =>
          have := parseElement_selfClosing fuel tag attrs rest htag hnames hnodup
          simpa [Content.render, Content.node?, nodesOf] using this
        | cons b body =>
          have hloop := ih.2 (b :: body) (.mk tag attrs []) (tag ++ '>' :: rest) hbody (by omega)
          have := parseElement_open fuel tag attrs
            (renderAll (b :: body) ++ '<' :: '/' :: (tag ++ '>' :: rest)) rest _ htag hnames
            hnodup hloop rfl
          simpa [Content.render, Content.node?, Node.getElements] using this
      | text raw =>
        cases rest with
        | nil => simp [Content.standsBefore] at hctx
        | cons x r =>
          have hx : x = '<' := by simpa [Content.standsBefore] using hctx
          subst hx
          exact parseElement_text fuel raw r hwf
      | comment body =>
        have := parseElement_comment fuel body rest hwf
        simpa [Content.render, Content.node?] using this
      | space ws => simp [Content.standsBefore] at hctx
    · intro cs
      induction cs with
      | nil =>
        intro element rest _ _
        rw [show renderAll [] ++ '<' :: '/' :: rest = '<' :: '/' :: rest from rfl,
          skipWhitespace_cons_of_not _ _ (by decide), parseElementLoop_end]
        simp [nodesOf, Node.eta]
      | cons c cs ihcs =>
        intro element rest hwf hd
        simp only [wellFormedAll, Bool.and_eq_true] at hwf
        obtain ⟨⟨hc, hfollow⟩, hcs⟩ := hwf
        by_cases hsp : ∃ ws, c = .space ws
        · obtain ⟨ws, rfl⟩ := hsp
          simp only [Content.wellFormed, List.all_eq_true] at hc
          simp only [depthAll] at hd
          have := ihcs element rest hcs hd
          simp only [renderAll, Content.render, List.append_assoc, nodesOf, Content.node?]
          rw [skipWhitespace_append_all ws _ hc]
          exact this
        · have hns : ∀ ws, c ≠ .space ws := fun ws e => hsp ⟨ws, e⟩
          have hd' : c.depth ≤ fuel ∧ depthAll cs ≤ fuel := by
            cases c with
            | space ws => exact absurd rfl (hns ws)
            | element _ _ _ => simp only [depthAll] at hd; omega
            | text _ => simp only [depthAll] at hd; omega
            | comment _ => simp only [depthAll] at hd; omega
          have hctx : c.standsBefore (renderAll cs ++ '<' :: '/' :: rest) = true := by
            cases c with
            | space ws => exact absurd rfl (hns ws)
            | element _ _ _ => rfl
            | text _ =>
              obtain ⟨r, hr⟩ := render_starts_markup cs rest hfollow
              simp [Content.standsBefore, hr]
            | comment _ => rfl
          have hhead := render_head c (renderAll cs ++ '<' :: '/' :: rest) hc hns
          have hpe := ih.1 c (renderAll cs ++ '<' :: '/' :: rest) hc hd'.1 hctx
          have hrest := ih.2 cs (c.node?.elim element (fun x => element.add x)) rest hcs hd'.2
          simp only [renderAll, List.append_assoc]
          rw [hhead.1, parseElementLoop_step fuel element _ _ _ hhead.2 hpe, hrest]
          cases hnode : c.node? with
          | none => simp [nodesOf, hnode]
          | some node => simp [nodesOf, hnode, Node.add, Node.getTag, Node.getAttributes,
              Node.getElements]

mutual
theorem Content.depth_le_render (c : Content) (hwf : c.wellFormed = true)
    (hc : ∀ ws, c ≠ .space ws) : c.depth ≤ 2 * c.render.length := by
  cases c with
  | element tag attrs body =>
    simp only [Content.wellFormed, Bool.and_eq_true] at hwf
    have := depthAll_le_render body hwf.2
    simp only [Content.depth, Content.render]
    cases body with
    | nil => simp [depthAll]
    | cons b body =>
      simp only [List.isEmpty_cons, Bool.false_eq_true, if_false, List.length_cons,
        List.length_append]
      omega
  | text raw =>
    cases raw with
    | nil => simp [Content.wellFormed, isPlainText] at hwf
    | cons x raw => simp [Content.depth, Content.render]; omega
  | comment body => simp [Content.depth, Content.render]; omega
  | space ws => exact absurd rfl (hc ws)
theorem depthAll_le_render (cs : List Content) (hwf : wellFormedAll cs = true) :
    depthAll cs ≤ 2 * (renderAll cs).length + 1 := by
  cases cs with
  | nil => simp [depthAll]
  | cons c cs =>
    simp only [wellFormedAll, Bool.and_eq_true] at hwf
    have hcs := depthAll_le_render cs hwf.2
    by_cases hsp : ∃ ws, c = .space ws
    · obtain ⟨ws, rfl⟩ := hsp
      simp only [depthAll, renderAll, List.length_append]
      omega
    · have hns : ∀ ws, c ≠ .space ws := fun ws e => hsp ⟨ws, e⟩
      have hc := c.depth_le_render hwf.1.1 hns
      have hpos := c.depth_pos
      have : depthAll (c :: cs) = max c.depth (depthAll cs) + 1 := by
        cases c with
        | space ws => exact absurd rfl (hns ws)
        | element _ _ _ => rfl
        | text _ => rfl
        | comment _ => rfl
      rw [this]
      simp only [renderAll, List.length_append]
      omega
end

theorem expectChar_cons (c : Char) (s : Str) (h : is_whitespace c = false) :
    expectChar false c (c :: s) = .ok s := by
  simp [expectChar, peek_cons_of_not c s h, bind, Except.bind, pure, Except.pure]

/-- `xml::parse` on a well-formed element, followed by anything: the document
has the default version and encoding and the root the element stands for. -/
theorem parse_render (tag : Str) (attrs : List Attribute) (body : List Content) (rest : Str)
    (hwf : (Content.element tag attrs body).wellFormed = true) :
    parse ((Content.element tag attrs body).render ++ rest) =
      .ok ⟨"1.0".toList, "UTF-8".toList, some (.mk tag attrs (nodesOf body))⟩ := by
  have hwf' := hwf
  simp only [Content.wellFormed, Bool.and_eq_true] at hwf'
  obtain ⟨c, cs, hcs, hstart, -⟩ := isXmlName_cons hwf'.1.1.1
  have hdepth := (Content.element tag attrs body).depth_le_render hwf (fun ws e => by cases e)
  obtain ⟨tail, htail⟩ : ∃ tail, (Content.element tag attrs body).render ++ rest
      = '<' :: c :: tail := by
    simp [Content.render, hcs]
  have hpe := (parse_render_aux (2 * ((Content.element tag attrs body).render ++ rest).length + 2)).1
    (Content.element tag attrs body) rest hwf (by simp only [List.length_append]; omega) rfl
  rw [htail] at hpe ⊢
  have hcw : is_whitespace c = false := xml_part_not_whitespace c (xml_start_is_part c hstart)
  have hcq : (c == '?') = false := by
    simpa using ne_of_pred_false hstart (show is_xml_identifier_start '?' = false by decide)
  have hdecl : parseDeclaration ('<' :: c :: tail) =
      .ok (Document.new "1.0".toList "UTF-8".toList, '<' :: c :: tail) := by
    simp only [parseDeclaration, expectChar_cons '<' _ (show is_whitespace '<' = false by decide),
      bind, Except.bind, pure, Except.pure, peek_cons_of_not c tail hcw, hcq]
    simp [goBack]
  simp only [parse, hdecl, bind, Except.bind, parseRootLoop, hpe, pure, Except.pure]
  rfl

/-! ## Closing tags that do not match -/

theorem isPrefixOf_append_stop (tag close : Str) (x : Char) (rest : Str)
    (hx : x ∉ tag) (h : tag.isPrefixOf (close ++ x :: rest) = true) :
    ∃ k, close = tag ++ k := by
  induction tag generalizing close with
  | nil => exact ⟨close, rfl⟩
  | cons a tag ih =>
    cases close with
    | nil =>
      simp only [List.nil_append, List.isPrefixOf, Bool.and_eq_true, beq_iff_eq] at h
      exact absurd (by simp [h.1]) hx
    | cons b close =>
      simp only [List.cons_append, List.isPrefixOf, Bool.and_eq_true, beq_iff_eq] at h
      obtain ⟨k, hk⟩ := ih close (fun hm => hx (List.mem_cons_of_mem _ hm)) h.2
      exact ⟨k, by rw [h.1, hk]; rfl⟩

/-- After `</`, a name other than the tag of the element makes `expect(tag)` or
the `expect('>')` that follows fail. -/
theorem expect_close_mismatch (tag close rest : Str) (htag : isXmlName tag = true)
    (hclose : isXmlName close = true) (hne : tag ≠ close) :
    ∃ msg, (expectStr tag (close ++ '>' :: rest) >>= fun s => expectChar false '>' s) =
      .error (.parsing msg) := by
  by_cases hp : tag.isPrefixOf (close ++ '>' :: rest) = true
  · obtain ⟨t0, ts, htagEq, -, htagAll⟩ := isXmlName_cons htag
    obtain ⟨c0, cs0, hcloseEq, -, hcloseAll⟩ := isXmlName_cons hclose
    have hgt : '>' ∉ tag := fun hm => by
      have := htagAll _ (by rw [← htagEq]; exact hm)
      revert this; decide
    obtain ⟨k, rfl⟩ := isPrefixOf_append_stop tag close '>' rest hgt hp
    cases k with
    | nil => exact absurd (by simp) hne
    | cons x k =>
      have hxpart : is_xml_identifier_part x = true := hcloseAll x (by rw [← hcloseEq]; simp)
      have hxw := xml_part_not_whitespace x hxpart
      have hxne : (x != '>') = true := by
        simpa using ne_of_pred_false hxpart (show is_xml_identifier_part '>' = false by decide)
      refine ⟨"'" ++ String.singleton '>' ++ "' expected", ?_⟩
      have hp' : tag.isPrefixOf (tag ++ x :: (k ++ '>' :: rest)) = true := by simp
      simp only [expectStr, hp', if_true, bind, Except.bind, List.append_assoc,
        List.drop_left, List.cons_append, expectChar, peek_cons_of_not x _ hxw, hxne]
  · refine ⟨"\"" ++ String.mk tag ++ "\" expected", ?_⟩
    simp only [expectStr, hp, bind, Except.bind]
    rfl

theorem parseElement_close_mismatch (fuel : Nat) (tag close : Str) (attrs : List Attribute)
    (body : List Content) (rest : Str)
    (hwf : (Content.element tag attrs body).wellFormed = true) (hd : depthAll body ≤ fuel)
    (hclose : isXmlName close = true) (hne : tag ≠ close) :
    ∃ msg, parseElement (fuel + 1)
      ('<' :: (tag ++ (renderAttrs attrs ++ '>' :: (renderAll body ++ '<' :: '/' ::
        (close ++ '>' :: rest))))) = .error (.parsing msg) := by
  simp only [Content.wellFormed, Bool.and_eq_true, List.all_eq_true, decide_eq_true_eq] at hwf
  obtain ⟨⟨⟨htag, hnames⟩, hnodup⟩, hbody⟩ := hwf
  obtain ⟨c, cs, hcs, hstart, -⟩ := isXmlName_cons htag
  obtain ⟨msg, hmsg⟩ := expect_close_mismatch tag close rest htag hclose hne
  have hloop := (parse_render_aux fuel).2 body (.mk tag attrs []) (close ++ '>' :: rest) hbody hd
  have hp1 : ∀ t, peek false ('<' :: t) = .ok ('<', '<' :: t) :=
    fun t => peek_cons_of_not _ _ (by decide)
  have hp2 : ∀ t, peek false (tag ++ t) = .ok (c, tag ++ t) := by
    intro t
    rw [hcs]
    exact peek_cons_of_not _ _ (xml_part_not_whitespace c (xml_start_is_part c hstart))
  have hc : (c == '!') = false := by
    simpa using ne_of_pred_false hstart (show is_xml_identifier_start '!' = false by decide)
  have ho := parseOpenTag_render tag attrs '>' (renderAll body ++ '<' :: '/' ::
    (close ++ '>' :: rest)) htag hnames hnodup (Or.inr (Or.inl rfl))
  refine ⟨msg, ?_⟩
  simp only [bind, Except.bind] at hmsg
  simp only [parseElement, hp1, bind, Except.bind, nextChar, hp2, hc, ho, hloop, skip,
    List.drop_succ_cons, List.drop_zero, Node.getTag, pure, Except.pure]
  revert hmsg
  cases expectStr tag (close ++ '>' :: rest) with
  | error e => intro h; simpa using h
  | ok s =>
    intro h
    simp only [] at h ⊢
    rw [h]
    rfl

theorem openTags_head (outer : List (Str × List Attribute)) (x : Char) (t : Str)
    (houter : ∀ f ∈ outer, isXmlName f.1 = true) (hx : is_xml_identifier_start x = true) :
    ∃ y r, openTags outer ++ '<' :: x :: t = '<' :: y :: r ∧ is_xml_identifier_start y = true := by
  cases outer with
  | nil => exact ⟨x, t, rfl, hx⟩
  | cons f outer =>
    obtain ⟨tag, attrs⟩ := f
    obtain ⟨c, cs, hcs, hstart, -⟩ := isXmlName_cons (houter (tag, attrs) (by simp))
    simp only at hcs
    exact ⟨c, cs ++ (renderAttrs attrs ++ '>' :: (openTags outer ++ '<' :: x :: t)),
      by simp [openTags, hcs], hstart⟩

/-- A failure of `parseElement` inside a run of open tags is a failure of the
outermost element. -/
theorem parseElement_openTags (outer : List (Str × List Attribute)) (fuel : Nat) (x : Char)
    (t : Str) (msg : String)
    (houter : ∀ f ∈ outer, isXmlName f.1 = true ∧ (∀ a ∈ f.2, isXmlName a.name = true) ∧
      (f.2.map (fun a => a.name)).Nodup)
    (hx : is_xml_identifier_start x = true)
    (h : parseElement fuel ('<' :: x :: t) = .error (.parsing msg)) :
    parseElement (fuel + 2 * outer.length) (openTags outer ++ '<' :: x :: t) =
      .error (.parsing msg) := by
  induction outer with
  | nil => simpa [openTags] using h
  | cons f outer ih =>
    obtain ⟨tag, attrs⟩ := f
    have hf := houter (tag, attrs) (by simp)
    have houter' : ∀ f ∈ outer, isXmlName f.1 = true ∧ (∀ a ∈ f.2, isXmlName a.name = true) ∧
        (f.2.map (fun a => a.name)).Nodup := fun f hm => houter f (List.mem_cons_of_mem _ hm)
    have hrec := ih houter'
    obtain ⟨y, r, hyr, hy⟩ := openTags_head outer x t (fun f hm => (houter' f hm).1) hx
    obtain ⟨c, cs, hcs, hstart, -⟩ := isXmlName_cons hf.1
    simp only at hcs
    have hp1 : ∀ t, peek false ('<' :: t) = .ok ('<', '<' :: t) :=
      fun t => peek_cons_of_not _ _ (by decide)
    have hp2 : ∀ t, peek false (tag ++ t) = .ok (c, tag ++ t) := by
      intro t
      rw [hcs]
      exact peek_cons_of_not _ _ (xml_part_not_whitespace c (xml_start_is_part c hstart))
    have hc : (c == '!') = false := by
      simpa using ne_of_pred_false hstart (show is_xml_identifier_start '!' = false by decide)
    have ho := parseOpenTag_render tag attrs '>' (openTags outer ++ '<' :: x :: t) hf.1 hf.2.1
      hf.2.2 (Or.inr (Or.inl rfl))
    have hfuel : fuel + 2 * (List.length ((tag, attrs) :: outer)) =
        (fuel + 2 * outer.length + 1) + 1 := by simp; omega
    have hnext : isNext ['<', '/'] ('<' :: y :: r) = false := by
      have : y ≠ '/' := ne_of_pred_false hy (by decide)
      simp [isNext, List.isPrefixOf, this.symm]
    rw [hfuel]
    simp only [openTags, List.cons_append, List.append_assoc, parseElement, hp1, bind,
      Except.bind, nextChar, hp2, hc, ho, pure, Except.pure]
    rw [hyr] at hrec ⊢
    simp [skipWhitespace_cons_of_not '<' _ (show is_whitespace '<' = false by decide),
      parseElementLoop, hnext, hrec, bind, Except.bind, pure, Except.pure]

theorem length_openTags (outer : List (Str × List Attribute)) :
    2 * outer.length ≤ (openTags outer).length := by
  induction outer with
  | nil => simp [openTags]
  | cons f outer ih =>
    obtain ⟨tag, attrs⟩ := f
    simp only [openTags, List.length_cons, List.length_append]
    omega

theorem parseDeclaration_absent (y : Char) (r : Str) (hy : is_xml_identifier_start y = true) :
    parseDeclaration ('<' :: y :: r) =
      .ok (Document.new "1.0".toList "UTF-8".toList, '<' :: y :: r) := by
  have hyw : is_whitespace y = false := xml_part_not_whitespace y (xml_start_is_part y hy)
  have hyq : (y == '?') = false := by
    simpa using ne_of_pred_false hy (show is_xml_identifier_start '?' = false by decide)
  simp only [parseDeclaration, expectChar_cons '<' _ (show is_whitespace '<' = false by decide),
    bind, Except.bind, pure, Except.pure, peek_cons_of_not y r hyw, hyq]
  simp [goBack]

/-- C3. For all XML names `tag` and `close` with `tag ≠ close` (one may be a
proper prefix of the other), `xml::parse` fails with a parsing error, and returns
no document, on every source in which an element opened as `<tag attrs>`, with a
well-formed body, is closed as `</close>`, whether that element is the root or
is nested in any run of open tags (`<a><b></a>` is `<b>` closed by `</a>` inside
`<a>`); what follows the closing tag does not matter. -/
theorem parse_fails_on_tag_mismatch (outer : List (Str × List Attribute)) (tag close : Str)
    (attrs : List Attribute) (body : List Content) (rest : Str)
    (houter : ∀ f ∈ outer, isXmlName f.1 = true ∧ (∀ a ∈ f.2, isXmlName a.name = true) ∧
      (f.2.map (fun a => a.name)).Nodup)
    (hwf : (Content.element tag attrs body).wellFormed = true)
    (hclose : isXmlName close = true) (hne : tag ≠ close) :
    ∃ msg, parse (openTags outer ++ '<' :: (tag ++ (renderAttrs attrs ++ '>' ::
      (renderAll body ++ '<' :: '/' :: (close ++ '>' :: rest))))) = .error (.parsing msg) := by
  have hwf' := hwf
  simp only [Content.wellFormed, Bool.and_eq_true] at hwf'
  obtain ⟨c, cs, hcs, hstart, -⟩ := isXmlName_cons hwf'.1.1.1
  have hbody := depthAll_le_render body hwf'.2
  have hlen := length_openTags outer
  generalize hinner : renderAttrs attrs ++ '>' ::
      (renderAll body ++ '<' :: '/' :: (close ++ '>' :: rest)) = inner
  have hinner_len : (renderAll body).length ≤ inner.length := by
    rw [← hinner]; simp; omega
  obtain ⟨y, r, hyr, hy⟩ := openTags_head outer c (cs ++ inner) (fun f hm => (houter f hm).1) hstart
  have hsrc : openTags outer ++ '<' :: (tag ++ inner) = '<' :: y :: r := by
    rw [← hyr, hcs]; rfl
  have hsrc_len : (openTags outer).length + inner.length + 2 ≤ ('<' :: y :: r).length := by
    rw [← hsrc, hcs]; simp; omega
  obtain ⟨fuel, hfuel, hfd⟩ : ∃ fuel, 2 * ('<' :: y :: r).length + 2 = fuel + 1 + 2 * outer.length ∧
      depthAll body ≤ fuel := ⟨2 * ('<' :: y :: r).length + 1 - 2 * outer.length, by omega, by omega⟩
  obtain ⟨msg, hmsg⟩ := parseElement_close_mismatch fuel tag close attrs body rest hwf hfd hclose hne
  rw [hinner, hcs] at hmsg
  have hpe := parseElement_openTags outer (fuel + 1) c (cs ++ inner) msg houter hstart hmsg
  refine ⟨msg, ?_⟩
  rw [hcs] at hsrc
  rw [hcs, hsrc]
  rw [show openTags outer ++ '<' :: c :: (cs ++ inner) = '<' :: y :: r from hsrc, ← hfuel] at hpe
  simp only [parse, parseDeclaration_absent y r hy, bind, Except.bind, parseRootLoop, hpe]

theorem parse_fails_on_tag_mismatch_witness :
    (∀ f ∈ [("a".toList, ([] : List Attribute))],
      isXmlName f.1 = true ∧ (∀ a ∈ f.2, isXmlName a.name = true) ∧
        (f.2.map (fun a => a.name)).Nodup) ∧
    (Content.element "b".toList [] []).wellFormed = true ∧ isXmlName "a".toList = true ∧
    "b".toList ≠ "a".toList ∧
    ∃ msg, parse "<a><b></a>".toList = .error (.parsing msg) :=
  ⟨by decide, by decide, by decide, by decide,
    parse_fails_on_tag_mismatch [("a".toList, [])] "b".toList "a".toList [] [] [] (by decide)
      (by decide) (by decide) (by decide)⟩

/-! ## The element theorem -/

theorem replaceAll_absent (a : Char) (p r s : Str) (h : a ∉ s) :
    replaceAll s (a :: p) r = s := by
  simp only [replaceAll, List.isEmpty_cons, Bool.false_eq_true, if_false]
  induction s with
  | nil => rfl
  | cons c s ih =>
    have hc : a ≠ c := fun e => h (by simp [e])
    have hs : a ∉ s := fun e => h (List.mem_cons_of_mem _ e)
    simp [replaceAllAux, List.isPrefixOf, hc, ih hs]

theorem decodeEntities_plain (raw : Str) (h : '&' ∉ raw) : decodeEntities raw = raw := by
  simp only [decodeEntities]
  have e1 : "&quot;".toList = '&' :: "quot;".toList := rfl
  have e2 : "&apos;".toList = '&' :: "apos;".toList := rfl
  have e3 : "&lt;".toList = '&' :: "lt;".toList := rfl
  have e4 : "&gt;".toList = '&' :: "gt;".toList := rfl
  have e5 : "&amp;".toList = '&' :: "amp;".toList := rfl
  rw [e1, e2, e3, e4, e5, replaceAll_absent _ _ _ _ h, replaceAll_absent _ _ _ _ h,
    replaceAll_absent _ _ _ _ h, replaceAll_absent _ _ _ _ h, replaceAll_absent _ _ _ _ h]

/-- C2. For every well-formed element `<tag attrs>c1 ... ck</tag>` (written
`<tag attrs/>` when it has no body), whose body is a sequence of well-formed
sub-elements, text runs, comments and whitespace, and whatever follows it,
`xml::parse` returns the document whose root is tagged `tag`, has exactly the
listed attributes, and has as children the nodes of the non-comment constructs
in source order; a text run stands for the node tagged `#` whose sole attribute
`#` holds the entity-decoded text, which is the text itself when it has no `&`. -/
theorem parse_wellFormed_element (tag : Str) (attrs : List Attribute) (body : List Content)
    (rest : Str) (hwf : (Content.element tag attrs body).wellFormed = true) :
    parse ((Content.element tag attrs body).render ++ rest) =
      .ok ⟨"1.0".toList, "UTF-8".toList, some (.mk tag attrs (nodesOf body))⟩ ∧
    (∀ raw : Str, (Content.text raw).node? =
      some (.mk "#".toList [⟨"#".toList, decodeEntities raw⟩] [])) ∧
    (∀ raw : Str, '&' ∉ raw → decodeEntities raw = raw) ∧
    (∀ text : Str, (Content.comment text).node? = none) :=
  ⟨parse_render tag attrs body rest hwf, fun _ => rfl, decodeEntities_plain, fun _ => rfl⟩

theorem parse_wellFormed_element_witness :
    (Content.element "a".toList [⟨"x".toList, "1".toList⟩]
      [.element "b".toList [] [], .text "text".toList]).wellFormed = true ∧
    parse "<a x=\"1\"><b/>text</a>".toList =
      .ok ⟨"1.0".toList, "UTF-8".toList,
        some (.mk "a".toList [⟨"x".toList, "1".toList⟩]
          [.mk "b".toList [] [], .mk "#".toList [⟨"#".toList, "text".toList⟩] []])⟩ :=
  ⟨by decide,
    (parse_wellFormed_element "a".toList [⟨"x".toList, "1".toList⟩]
      [.element "b".toList [] [], .text "text".toList] [] (by decide)).1⟩

/-! ## The declaration -/

theorem whitespace_not_xml_part (c : Char) (h : is_whitespace c = true) :
    is_xml_identifier_part c = false := by
  cases hp : is_xml_identifier_part c with
  | false => rfl
  | true => rw [xml_part_not_whitespace c hp] at h; exact Bool.noConfusion h

theorem peek_append_all (ws s : Str) (h : ∀ c ∈ ws, is_whitespace c = true) :
    peek false (ws ++ s) = peek false s := by
  simp only [peek, skipWhitespace_append_all ws s h]

theorem parseElement_append_all (fuel : Nat) (ws s : Str) (h : ∀ c ∈ ws, is_whitespace c = true) :
    parseElement fuel (ws ++ s) = parseElement fuel s := by
  cases fuel with
  | zero => rfl
  | succ fuel => simp only [parseElement, peek_append_all ws s h]

/-- `parseDeclaration` on a declaration: the node of the declaration is tagged
`xml` and holds the attributes; the encoding decides. -/
theorem parseDeclaration_declaration (attrs : List Attribute) (ws tail : Str)
    (hnames : ∀ a ∈ attrs, isXmlName a.name = true)
    (hnodup : (attrs.map (fun a => a.name)).Nodup) (hws : ∀ c ∈ ws, is_whitespace c = true) :
    parseDeclaration (declaration attrs ws ++ tail) =
      (if ((Node.mk "xml".toList attrs []).attrOr "encoding".toList "UTF-8".toList).text
            != "utf-8".toList &&
          ((Node.mk "xml".toList attrs []).attrOr "encoding".toList "UTF-8".toList).text
            != "UTF-8".toList then
        .error (.parsing "UTF-8 encoding is only supported")
      else
        .ok (Document.new
          ((Node.mk "xml".toList attrs []).attrOr "version".toList "1.0".toList).text
          ((Node.mk "xml".toList attrs []).attrOr "encoding".toList "UTF-8".toList).text,
          tail)) := by
  have hsrc : declaration attrs ws ++ tail =
      '<' :: '?' :: ("xml".toList ++ (renderAttrs attrs ++ (ws ++ '?' :: '>' :: tail))) := by
    simp [declaration]
  have htl : skipWhitespace false (ws ++ '?' :: '>' :: tail) = '?' :: '>' :: tail := by
    rw [skipWhitespace_append_all ws _ hws]
    exact skipWhitespace_cons_of_not _ _ (by decide)
  have htlhead : ∀ c ∈ (ws ++ '?' :: '>' :: tail).head?, is_xml_identifier_part c = false := by
    cases ws with
    | nil => intro c hc; simp at hc; subst hc; decide
    | cons w ws =>
      intro c hc; simp at hc; subst hc
      exact whitespace_not_xml_part _ (hws _ (List.mem_cons_self _ _))
  have ho := parseOpenTag_attrs "xml".toList attrs (ws ++ '?' :: '>' :: tail) '?' ('>' :: tail)
    (by decide) hnames hnodup (Or.inr (Or.inr rfl)) htl htlhead
  have hx : expectStr "?>".toList ('?' :: '>' :: tail) = .ok tail := by
    simp [expectStr, List.isPrefixOf]
  rw [hsrc]
  simp only [parseDeclaration, expectChar_cons '<' _ (show is_whitespace '<' = false by decide),
    bind, Except.bind, pure, Except.pure,
    peek_cons_of_not '?' _ (show is_whitespace '?' = false by decide), nextChar, ho, hx,
    beq_self_eq_true, if_true, Node.getTag, bne_self_eq_false, Bool.false_eq_true, if_false]

/-- C4 (counterexample). The mixed-case spelling `Utf-8` is rejected. -/
theorem parse_rejects_mixed_case_encoding :
    parse "<?xml version=\"1.0\" encoding=\"Utf-8\"?><a/>".toList =
      .error (.parsing "UTF-8 encoding is only supported") := by
  decide

/-- C4 (amended). For every source made of a declaration `<?xml attrs ?>` that
holds the attribute `encoding="E"`, optional whitespace and a well-formed root
element, `xml::parse` fails if and only if `E` is neither `utf-8` nor `UTF-8`
(the comparison is exact: two spellings are accepted); it then fails with
`UTF-8 encoding is only supported`, and otherwise returns the document with the
declared version, the encoding `E` and the root element. -/
theorem parse_declaration_encoding (attrs : List Attribute) (ws between E : Str) (tag : Str)
    (rootAttrs : List Attribute) (body : List Content) (rest : Str)
    (hnames : ∀ a ∈ attrs, isXmlName a.name = true)
    (hnodup : (attrs.map (fun a => a.name)).Nodup)
    (hws : ∀ c ∈ ws, is_whitespace c = true) (hbetween : ∀ c ∈ between, is_whitespace c = true)
    (henc : mapFind attrs "encoding".toList = some ⟨"encoding".toList, E⟩)
    (hroot : (Content.element tag rootAttrs body).wellFormed = true) :
    ((∃ e, parse (declaration attrs ws ++
        (between ++ ((Content.element tag rootAttrs body).render ++ rest))) = .error e) ↔
      (E ≠ "utf-8".toList ∧ E ≠ "UTF-8".toList)) ∧
    parse (declaration attrs ws ++
        (between ++ ((Content.element tag rootAttrs body).render ++ rest))) =
      (if E ≠ "utf-8".toList ∧ E ≠ "UTF-8".toList then
        .error (.parsing "UTF-8 encoding is only supported")
      else
        .ok ⟨((Node.mk "xml".toList attrs []).attrOr "version".toList "1.0".toList).text, E,
          some (.mk tag rootAttrs (nodesOf body))⟩) := by
  have hdecl := parseDeclaration_declaration attrs ws
    (between ++ ((Content.element tag rootAttrs body).render ++ rest)) hnames hnodup hws
  have hE : ((Node.mk "xml".toList attrs []).attrOr "encoding".toList "UTF-8".toList).text = E := by
    simp only [Node.attrOr, Node.getAttributes, henc]
  rw [hE] at hdecl
  have hdepth := (Content.element tag rootAttrs body).depth_le_render hroot (fun ws e => by cases e)
  have hpe := (parse_render_aux
    (2 * (between ++ ((Content.element tag rootAttrs body).render ++ rest)).length + 2)).1
    (Content.element tag rootAttrs body) rest hroot
    (by simp only [List.length_append]; omega) rfl
  rw [← parseElement_append_all _ between _ hbetween] at hpe
  have key : parse (declaration attrs ws ++
        (between ++ ((Content.element tag rootAttrs body).render ++ rest))) =
      (if E ≠ "utf-8".toList ∧ E ≠ "UTF-8".toList then
        .error (.parsing "UTF-8 encoding is only supported")
      else
        .ok ⟨((Node.mk "xml".toList attrs []).attrOr "version".toList "1.0".toList).text, E,
          some (.mk tag rootAttrs (nodesOf body))⟩) := by
    by_cases h : E ≠ "utf-8".toList ∧ E ≠ "UTF-8".toList
    · have hb : (E != "utf-8".toList && E != "UTF-8".toList) = true := by
        simp only [Bool.and_eq_true, bne_iff_ne]; exact h
      rw [if_pos h]
      simp only [parse, hdecl, hb, if_true, bind, Except.bind]
    · have hb : (E != "utf-8".toList && E != "UTF-8".toList) = false := by
        cases hx : (E != "utf-8".toList && E != "UTF-8".toList) with
        | false => rfl
        | true =>
          simp only [Bool.and_eq_true, bne_iff_ne] at hx
          exact absurd hx h
      rw [if_neg h]
      simp only [parse, hdecl, hb, Bool.false_eq_true, if_false, bind, Except.bind, parseRootLoop,
        hpe, pure, Except.pure]
      rfl
  refine ⟨?_, key⟩
  rw [key]
  by_cases h : E ≠ "utf-8".toList ∧ E ≠ "UTF-8".toList
  · rw [if_pos h]
    exact ⟨fun _ => h, fun _ => ⟨_, rfl⟩⟩
  · rw [if_neg h]
    exact ⟨fun ⟨e, he⟩ => (by cases he), fun h' => absurd h' h⟩

theorem parse_declaration_encoding_witness :
    (∀ a ∈ [Attribute.mk "version".toList "1.0".toList,
        Attribute.mk "encoding".toList "ISO-8859-1".toList], isXmlName a.name = true) ∧
    (([Attribute.mk "version".toList "1.0".toList,
        Attribute.mk "encoding".toList "ISO-8859-1".toList]).map (fun a => a.name)).Nodup ∧
    (∀ c ∈ ([] : Str), is_whitespace c = true) ∧
    mapFind [Attribute.mk "version".toList "1.0".toList,
        Attribute.mk "encoding".toList "ISO-8859-1".toList] "encoding".toList =
      some ⟨"encoding".toList, "ISO-8859-1".toList⟩ ∧
    (Content.element "a".toList [] []).wellFormed = true ∧
    parse "<?xml version=\"1.0\" encoding=\"ISO-8859-1\"?><a/>".toList =
      .error (.parsing "UTF-8 encoding is only supported") :=
  ⟨by decide, by decide, by decide, by decide, by decide,
    ((parse_declaration_encoding
      [Attribute.mk "version".toList "1.0".toList,
        Attribute.mk "encoding".toList "ISO-8859-1".toList] [] [] "ISO-8859-1".toList
      "a".toList [] [] [] (by decide) (by decide) (by decide) (by decide) (by decide)
      (by decide)).2).trans (if_pos ⟨by decide, by decide⟩)⟩

/-! ## Escaping and decoding of text -/

theorem replaceAll_single (s : Str) (a : Char) (r : Str) :
    replaceAll s [a] r = s.flatMap (fun c => if c = a then r else [c]) := by
  simp only [replaceAll, List.isEmpty_cons, Bool.false_eq_true, if_false]
  induction s with
  | nil => rfl
  | cons c s ih =>
    by_cases h : c = a
    · subst h
      simp [replaceAllAux, List.isPrefixOf, ih]
    · have h' : a ≠ c := fun e => h e.symm
      simp [replaceAllAux, List.isPrefixOf, h, h', ih]

theorem escapeText_eq (t : Str) : escapeText t = t.flatMap entityOf := by
  simp only [escapeText]
  rw [show "&".toList = ['&'] from rfl, show "\"".toList = ['"'] from rfl,
    show "'".toList = ['\''] from rfl, show "<".toList = ['<'] from rfl,
    show ">".toList = ['>'] from rfl]
  simp only [replaceAll_single, List.flatMap_assoc]
  congr 1
  funext c
  unfold entityOf
  split_ifs with h1 h2 h3 h4 h5
  · subst h1; decide
  · subst h2; decide
  · subst h3; decide
  · subst h4; decide
  · subst h5; decide
  · simp [h1, h2, h3, h4, h5]

/-- One decoding step over a text written character by character. -/
theorem replaceAll_flatMap (p r : Str) (f g : Char → Str) (hp : p.isEmpty = false)
    (h : ∀ c rest, replaceAllAux p r 0 (f c ++ rest) = g c ++ replaceAllAux p r 0 rest)
    (t : Str) : replaceAll (t.flatMap f) p r = t.flatMap g := by
  simp only [replaceAll, hp, Bool.false_eq_true, if_false]
  induction t with
  | nil => rfl
  | cons c t ih => simp only [List.flatMap_cons, h, ih]

theorem decode_step_plain (p' r rest : Str) (c : Char) (hc : c ≠ '&') :
    replaceAllAux ('&' :: p') r 0 (c :: rest) = c :: replaceAllAux ('&' :: p') r 0 rest := by
  have : '&' ≠ c := fun e => hc e.symm
  simp [replaceAllAux, List.isPrefixOf, this]

theorem decode_step_quot (c : Char) (rest : Str) :
    replaceAllAux "&quot;".toList "\"".toList 0 (partialEntity [] c ++ rest) =
      partialEntity ['"'] c ++ replaceAllAux "&quot;".toList "\"".toList 0 rest := by
  by_cases h1 : c = '&'
  · subst h1; simp [partialEntity, entityOf, replaceAllAux, List.isPrefixOf]
  by_cases h2 : c = '"'
  · subst h2; simp [partialEntity, entityOf, replaceAllAux, List.isPrefixOf]
  by_cases h3 : c = '\''
  · subst h3; simp [partialEntity, entityOf, replaceAllAux, List.isPrefixOf]
  by_cases h4 : c = '<'
  · subst h4; simp [partialEntity, entityOf, replaceAllAux, List.isPrefixOf]
  by_cases h5 : c = '>'
  · subst h5; simp [partialEntity, entityOf, replaceAllAux, List.isPrefixOf]
  · have := decode_step_plain "quot;".toList "\"".toList rest c h1
    simpa [partialEntity, entityOf, h1, h2, h3, h4, h5] using this

theorem decode_step_apos (c : Char) (rest : Str) :
    replaceAllAux "&apos;".toList "'".toList 0 (partialEntity ['"'] c ++ rest) =
      partialEntity ['"', '\''] c ++ replaceAllAux "&apos;".toList "'".toList 0 rest := by
  by_cases h1 : c = '&'
  · subst h1; simp [partialEntity, entityOf, replaceAllAux, List.isPrefixOf]
  by_cases h2 : c = '"'
  · subst h2; simp [partialEntity, entityOf, replaceAllAux, List.isPrefixOf]
  by_cases h3 : c = '\''
  · subst h3; simp [partialEntity, entityOf, replaceAllAux, List.isPrefixOf]
  by_cases h4 : c = '<'
  · subst h4; simp [partialEntity, entityOf, replaceAllAux, List.isPrefixOf]
  by_cases h5 : c = '>'
  · subst h5; simp [partialEntity, entityOf, replaceAllAux, List.isPrefixOf]
  · have := decode_step_plain "apos;".toList "'".toList rest c h1
    simpa [partialEntity, entityOf, h1, h2, h3, h4, h5] using this

theorem decode_step_lt (c : Char) (rest : Str) :
    replaceAllAux "&lt;".toList "<".toList 0 (partialEntity ['"', '\''] c ++ rest) =
      partialEntity ['"', '\'', '<'] c ++ replaceAllAux "&lt;".toList "<".toList 0 rest := by
  by_cases h1 : c = '&'
  · subst h1; simp [partialEntity, entityOf, replaceAllAux, List.isPrefixOf]
  by_cases h2 : c = '"'
  · subst h2; simp [partialEntity, entityOf, replaceAllAux, List.isPrefixOf]
  by_cases h3 : c = '\''
  · subst h3; simp [partialEntity, entityOf, replaceAllAux, List.isPrefixOf]
  by_cases h4 : c = '<'
  · subst h4; simp [partialEntity, entityOf, replaceAllAux, List.isPrefixOf]
  by_cases h5 : c = '>'
  · subst h5; simp [partialEntity, entityOf, replaceAllAux, List.isPrefixOf]
  · have := decode_step_plain "lt;".toList "<".toList rest c h1
    simpa [partialEntity, entityOf, h1, h2, h3, h4, h5] using this

theorem decode_step_gt (c : Char) (rest : Str) :
    replaceAllAux "&gt;".toList ">".toList 0 (partialEntity ['"', '\'', '<'] c ++ rest) =
      partialEntity ['"', '\'', '<', '>'] c ++ replaceAllAux "&gt;".toList ">".toList 0 rest := by
  by_cases h1 : c = '&'
  · subst h1; simp [partialEntity, entityOf, replaceAllAux, List.isPrefixOf]
  by_cases h2 : c = '"'
  · subst h2; simp [partialEntity, entityOf, replaceAllAux, List.isPrefixOf]
  by_cases h3 : c = '\''
  · subst h3; simp [partialEntity, entityOf, replaceAllAux, List.isPrefixOf]
  by_cases h4 : c = '<'
  · subst h4; simp [partialEntity, entityOf, replaceAllAux, List.isPrefixOf]
  by_cases h5 : c = '>'
  · subst h5; simp [partialEntity, entityOf, replaceAllAux, List.isPrefixOf]
  · have := decode_step_plain "gt;".toList ">".toList rest c h1
    simpa [partialEntity, entityOf, h1, h2, h3, h4, h5] using this

theorem decode_step_amp (c : Char) (rest : Str) :
    replaceAllAux "&amp;".toList "&".toList 0 (partialEntity ['"', '\'', '<', '>'] c ++ rest) =
      partialEntity ['"', '\'', '<', '>', '&'] c ++ replaceAllAux "&amp;".toList "&".toList 0 rest := by
  by_cases h1 : c = '&'
  · subst h1; simp [partialEntity, entityOf, replaceAllAux, List.isPrefixOf]
  by_cases h2 : c = '"'
  · subst h2; simp [partialEntity, entityOf, replaceAllAux, List.isPrefixOf]
  by_cases h3 : c = '\''
  · subst h3; simp [partialEntity, entityOf, replaceAllAux, List.isPrefixOf]
  by_cases h4 : c = '<'
  · subst h4; simp [partialEntity, entityOf, replaceAllAux, List.isPrefixOf]
  by_cases h5 : c = '>'
  · subst h5; simp [partialEntity, entityOf, replaceAllAux, List.isPrefixOf]
  · have := decode_step_plain "amp;".toList "&".toList rest c h1
    simpa [partialEntity, entityOf, h1, h2, h3, h4, h5] using this

/-- Decoding the entities of an escaped text gives the text back. -/
theorem decodeEntities_escapeText (t : Str) : decodeEntities (escapeText t) = t := by
  have h0 : escapeText t = t.flatMap (partialEntity []) := by
    rw [escapeText_eq]
    congr 1
  simp only [decodeEntities]
  rw [h0, replaceAll_flatMap "&quot;".toList _ _ _ rfl decode_step_quot,
    replaceAll_flatMap "&apos;".toList _ _ _ rfl decode_step_apos,
    replaceAll_flatMap "&lt;".toList _ _ _ rfl decode_step_lt,
    replaceAll_flatMap "&gt;".toList _ _ _ rfl decode_step_gt,
    replaceAll_flatMap "&amp;".toList _ _ _ rfl decode_step_amp]
  have : partialEntity ['"', '\'', '<', '>', '&'] = fun c => [c] := by
    funext c
    unfold partialEntity entityOf
    split_ifs with h1 h2 h3 h4 h5 h6
    all_goals first | rfl | (exfalso; simp_all)
  rw [this]
  induction t with
  | nil => rfl
  | cons c t ih => simp

/-! ## The serializer writes well-formed constructs -/

theorem stringifyAttrs_eq (size : Nat) (attrs : List Attribute) :
    ∀ count, count + attrs.length = size → attrs ≠ [] →
      ' ' :: stringifyAttrs size count attrs = renderAttrs attrs := by
  induction attrs with
  | nil => intro _ _ h; exact absurd rfl h
  | cons a rest ih =>
    intro count hsize _
    cases rest with
    | nil =>
      have hlast : ¬ (count + 1 < size) := by simp at hsize; omega
      cases ht : a.text.isEmpty <;> simp [stringifyAttrs, renderAttrs, hlast, ht]
    | cons b rest =>
      have hmore : count + 1 < size := by simp at hsize; omega
      have := ih (count + 1) (by simp at hsize ⊢; omega) (by simp)
      cases ht : a.text.isEmpty <;>
        simp [stringifyAttrs, renderAttrs, hmore, ht] at this ⊢ <;> simp [this]

theorem stringify_openTag (tag : Str) (attrs : List Attribute) :
    '<' :: tag ++ (if !attrs.isEmpty then ' ' :: stringifyAttrs attrs.length 0 attrs else []) =
      '<' :: (tag ++ renderAttrs attrs) := by
  cases attrs with
  | nil => simp [renderAttrs]
  | cons a rest =>
    have := stringifyAttrs_eq (a :: rest).length (a :: rest) 0 (by simp) (by simp)
    simp only [List.isEmpty_cons, Bool.not_false, if_true, this, List.cons_append]

theorem renderAll_append (xs ys : List Content) :
    renderAll (xs ++ ys) = renderAll xs ++ renderAll ys := by
  induction xs with
  | nil => rfl
  | cons x xs ih => simp [renderAll, ih]

theorem Node.isText_iff (tag : Str) (attrs : List Attribute) (elements : List Node) :
    (Node.mk tag attrs elements).isText = (tag == ['#']) := rfl

mutual
theorem stringifyElement_toContent (nice : Bool) (indentStr : Str) (node : Node) (indent : Nat)
    (h : node.printable nice = true) :
    stringifyElement nice indentStr node indent =
      .ok (node.toContent nice indentStr indent).render := by
  cases node with
  | mk tag attrs elements =>
    by_cases htext : (tag == ['#']) = true
    · -- a text node
      simp only [Node.printable, htext, if_true, Bool.and_eq_true] at h
      obtain ⟨hel, hattrs⟩ := h
      have hel' : elements = [] := by simpa using hel
      subst hel'
      match attrs, hattrs with
      | [a], hattrs =>
        simp only [Bool.and_eq_true, beq_iff_eq] at hattrs
        have hfind : mapFind [a] "#".toList = some a := by simp [mapFind, hattrs.1]
        have hfind' : mapFind [a] ['#'] = some a := hfind
        simp only [stringifyElement, Node.isText_iff, htext, if_true, Node.attr,
          Node.getAttributes, hfind, hfind', bind, Except.bind, pure, Except.pure, Node.toContent,
          Content.render, Node.attrOr]
        rfl
    · -- an element
      have htext' : (tag == ['#']) = false := by simpa using htext
      simp only [Node.printable, htext', Bool.false_eq_true, if_false, Bool.and_eq_true] at h
      obtain ⟨⟨⟨⟨htag, hnames⟩, hnodup⟩, hsib⟩, hall⟩ := h
      have hopen := stringify_openTag tag attrs
      cases elements with
      | nil =>
        simp only [stringifyElement, Node.isText_iff, htext', Bool.false_eq_true, if_false,
          hopen, pure, Except.pure, Node.toContent, Content.render, List.isEmpty_nil, if_true]
        simp
      | cons first others =>
        simp only [printableAll, Bool.and_eq_true] at hall
        by_cases hone : (others.isEmpty && first.isText) = true
        · have ih := stringifyElement_toContent nice indentStr first (indent + 1) hall.1
          simp only [stringifyElement, Node.isText_iff, htext', Bool.false_eq_true, if_false,
            hopen, hone, if_true, ih, bind, Except.bind, pure, Except.pure, Node.toContent,
            Content.render, List.isEmpty_cons, renderAll]
          simp
        · have hone' : (others.isEmpty && first.isText) = false := by simpa using hone
          have ih := stringifyElements_toContentAll nice indentStr (first :: others) (indent + 1)
            (by simp only [printableAll, Bool.and_eq_true]; exact hall)
          have hne : (toContentAll nice indentStr (first :: others) (indent + 1) ++
              (if nice then [Content.space (newline nice indentStr indent)] else [])).isEmpty
              = false := by
            cases nice <;> simp [toContentAll]
          have htail : renderAll (if nice then [Content.space (newline nice indentStr indent)]
              else []) = newline nice indentStr indent := by
            cases nice <;> simp [renderAll, Content.render, newline]
          simp only [stringifyElement, Node.isText_iff, htext', Bool.false_eq_true, if_false,
            hopen, hone', ih, bind, Except.bind, pure, Except.pure, Node.toContent,
            Content.render, hne, renderAll_append, htail]
          simp
theorem stringifyElements_toContentAll (nice : Bool) (indentStr : Str) (es : List Node)
    (indent : Nat) (h : printableAll nice es = true) :
    stringifyElements nice indentStr es indent =
      .ok (renderAll (toContentAll nice indentStr es indent)) := by
  cases es with
  | nil => rfl
  | cons e es =>
    simp only [printableAll, Bool.and_eq_true] at h
    have ih1 := stringifyElement_toContent nice indentStr e indent h.1
    have ih2 := stringifyElements_toContentAll nice indentStr es indent h.2
    simp only [stringifyElements, ih1, ih2, bind, Except.bind, pure, Except.pure, toContentAll]
    cases nice <;> simp [renderAll, Content.render, newline]
end

theorem entityOf_spec (c : Char) (h1 : c ≠ '\\') (h2 : c ≠ Char.ofNat 0) :
    (∀ x ∈ entityOf c, x ≠ '<' ∧ x ≠ '\\' ∧ x ≠ Char.ofNat 0) ∧
    ∃ x xs, entityOf c = x :: xs ∧ (is_whitespace c = false → is_whitespace x = false) := by
  unfold entityOf
  split_ifs with a1 a2 a3 a4 a5
  · exact ⟨by decide, _, _, rfl, fun _ => by decide⟩
  · exact ⟨by decide, _, _, rfl, fun _ => by decide⟩
  · exact ⟨by decide, _, _, rfl, fun _ => by decide⟩
  · exact ⟨by decide, _, _, rfl, fun _ => by decide⟩
  · exact ⟨by decide, _, _, rfl, fun _ => by decide⟩
  · refine ⟨?_, c, [], rfl, fun h => h⟩
    intro x hx
    simp only [List.mem_singleton] at hx
    subst hx
    exact ⟨a4, h1, h2⟩

/-- The escaped text of a printable text is a well-formed text run. -/
theorem isPlainText_escapeText (t : Str) (h : isPrintableText t = true) :
    isPlainText (escapeText t) = true := by
  cases t with
  | nil => simp [isPrintableText] at h
  | cons c t =>
    simp only [isPrintableText, Bool.and_eq_true, Bool.not_eq_true', List.all_eq_true,
      bne_iff_ne, ne_eq] at h
    obtain ⟨hcw, hall⟩ := h
    have hmem : ∀ x ∈ (c :: t).flatMap entityOf, x ≠ '<' ∧ x ≠ '\\' ∧ x ≠ Char.ofNat 0 := by
      intro x hx
      obtain ⟨y, hy, hxy⟩ := List.mem_flatMap.1 hx
      exact (entityOf_spec y (hall y hy).1 (hall y hy).2).1 x hxy
    obtain ⟨x, xs, hx, hxw⟩ := (entityOf_spec c (hall c (List.mem_cons_self _ _)).1
      (hall c (List.mem_cons_self _ _)).2).2
    rw [escapeText_eq] at *
    have hcons : (c :: t).flatMap entityOf = x :: (xs ++ t.flatMap entityOf) := by
      simp [List.flatMap_cons, hx]
    rw [hcons] at hmem ⊢
    simp only [isPlainText, Bool.and_eq_true, Bool.not_eq_true', List.all_eq_true, bne_iff_ne,
      ne_eq]
    exact ⟨hxw hcw, fun y hy => ⟨⟨(hmem y hy).1, (hmem y hy).2.1⟩, (hmem y hy).2.2⟩⟩

theorem toContent_text (nice : Bool) (indentStr : Str) (node : Node) (indent : Nat)
    (h : node.printable nice = true) (ht : node.isText = true) :
    ∃ t, node = .mk ['#'] [⟨['#'], t⟩] [] ∧ isPrintableText t = true ∧
      node.toContent nice indentStr indent = .text (escapeText t) := by
  cases node with
  | mk tag attrs elements =>
    have htag : (tag == ['#']) = true := ht
    simp only [Node.printable, htag, if_true, Bool.and_eq_true] at h
    obtain ⟨hel, hattrs⟩ := h
    have hel' : elements = [] := by simpa using hel
    subst hel'
    match attrs, hattrs with
    | [a], hattrs =>
      simp only [Bool.and_eq_true, beq_iff_eq] at hattrs
      have htag' : tag = ['#'] := by simpa using htag
      subst htag'
      refine ⟨a.text, ?_, hattrs.2, ?_⟩
      · cases a with
        | mk name text =>
          simp only at hattrs
          rw [hattrs.1]
      · simp [Node.toContent, Node.isText, Node.getTag, Node.attrOr, Node.getAttributes, mapFind,
          hattrs.1]

theorem toContent_element (nice : Bool) (indentStr : Str) (node : Node) (indent : Nat)
    (ht : node.isText = false) :
    ∃ body, node.toContent nice indentStr indent = .element node.getTag node.getAttributes body := by
  cases node with
  | mk tag attrs elements =>
    cases elements with
    | nil => exact ⟨_, by simp only [Node.toContent, ht, Bool.false_eq_true, if_false]; rfl⟩
    | cons first others =>
      exact ⟨_, by simp only [Node.toContent, ht, Bool.false_eq_true, if_false]; rfl⟩

theorem newline_whitespace (nice : Bool) (indentStr : Str) (indent : Nat)
    (h : nice = true → ∀ c ∈ indentStr, is_whitespace c = true) :
    (newline nice indentStr indent).all is_whitespace = true := by
  cases nice with
  | false => simp [newline]
  | true =>
    simp only [newline, Bool.not_true, Bool.false_eq_true, if_false, List.all_cons,
      Bool.and_eq_true, List.all_eq_true]
    refine ⟨by decide, ?_⟩
    intro c hc
    obtain ⟨l, hl, hcl⟩ := List.mem_flatten.1 hc
    rw [List.eq_of_mem_replicate hl] at hcl
    exact h rfl c hcl

/-- With pretty-printing: children none of which is a text node, each preceded
by a line break, and a last line break. -/
theorem wellFormedAll_nice (indentStr : Str) (indent k : Nat) (es : List Node)
    (hind : ∀ c ∈ indentStr, is_whitespace c = true)
    (hnt : ∀ e ∈ es, e.isText = false)
    (hwf : ∀ e ∈ es, (e.toContent true indentStr indent).wellFormed = true) :
    wellFormedAll (toContentAll true indentStr es indent ++
      [.space (newline true indentStr k)]) = true := by
  induction es with
  | nil =>
    simp [toContentAll, wellFormedAll, Content.wellFormed,
      newline_whitespace true indentStr k (fun _ => hind)]
  | cons e es ih =>
    obtain ⟨body, hbody⟩ := toContent_element true indentStr e indent (hnt e (by simp))
    have h1 := hwf e (by simp)
    have h2 := ih (fun x hx => hnt x (List.mem_cons_of_mem _ hx))
      (fun x hx => hwf x (List.mem_cons_of_mem _ hx))
    have h3 := newline_whitespace true indentStr indent (fun _ => hind)
    rw [hbody] at h1
    simp only [toContentAll, if_true, List.cons_append, wellFormedAll, Content.wellFormed, h3,
      hbody, h1, Bool.and_self, Bool.true_and]
    exact h2

/-- Without pretty-printing: children of which no two adjacent ones are text
nodes, one after the other. -/
theorem wellFormedAll_plain (indentStr : Str) (indent : Nat) (es : List Node)
    (hadj : noAdjacentText es = true)
    (hp : ∀ e ∈ es, e.printable false = true)
    (hwf : ∀ e ∈ es, (e.toContent false indentStr indent).wellFormed = true) :
    wellFormedAll (toContentAll false indentStr es indent) = true := by
  induction es with
  | nil => rfl
  | cons e es ih =>
    have h1 := hwf e (by simp)
    have hadj' : noAdjacentText es = true := by
      cases es with
      | nil => rfl
      | cons b es => simp only [noAdjacentText, Bool.and_eq_true] at hadj; exact hadj.2
    have h2 := ih hadj' (fun x hx => hp x (List.mem_cons_of_mem _ hx))
      (fun x hx => hwf x (List.mem_cons_of_mem _ hx))
    simp only [toContentAll, Bool.false_eq_true, if_false, wellFormedAll, h1, h2, Bool.true_and,
      Bool.and_true]
    cases het : e.isText with
    | false =>
      obtain ⟨body, hbody⟩ := toContent_element false indentStr e indent het
      rw [hbody]
    | true =>
      obtain ⟨t, -, -, hc⟩ := toContent_text false indentStr e indent (hp e (by simp)) het
      rw [hc]
      cases es with
      | nil => rfl
      | cons b es =>
        have hb : b.isText = false := by
          simp only [noAdjacentText, Bool.and_eq_true, Bool.not_eq_true', het,
            Bool.true_and] at hadj
          exact hadj.1
        obtain ⟨body, hbody⟩ := toContent_element false indentStr b indent hb
        simp only [toContentAll, Bool.false_eq_true, if_false, hbody, startsWithMarkup]

theorem nodesOf_append (xs ys : List Content) : nodesOf (xs ++ ys) = nodesOf xs ++ nodesOf ys := by
  induction xs with
  | nil => rfl
  | cons x xs ih =>
    cases hx : x.node? <;> simp [nodesOf, hx, ih]

theorem nodesOf_toContentAll (nice : Bool) (indentStr : Str) (indent : Nat) (es : List Node)
    (h : ∀ e ∈ es, (e.toContent nice indentStr indent).node? = some e) :
    nodesOf (toContentAll nice indentStr es indent) = es := by
  induction es with
  | nil => rfl
  | cons e es ih =>
    have h1 := h e (by simp)
    have h2 := ih (fun x hx => h x (List.mem_cons_of_mem _ hx))
    cases nice <;> simp [toContentAll, nodesOf, Content.node?, h1, h2]

mutual
/-- The construct written for a printable node is well-formed and stands for
the node. -/
theorem toContent_spec (nice : Bool) (indentStr : Str) (node : Node) (indent : Nat)
    (hind : nice = true → ∀ c ∈ indentStr, is_whitespace c = true)
    (h : node.printable nice = true) :
    (node.toContent nice indentStr indent).wellFormed = true ∧
    (node.toContent nice indentStr indent).node? = some node := by
  cases htext : node.isText with
  | true =>
    obtain ⟨t, hnode, ht, hc⟩ := toContent_text nice indentStr node indent h htext
    rw [hc]
    refine ⟨isPlainText_escapeText t ht, ?_⟩
    simp only [Content.node?, decodeEntities_escapeText, hnode]
  | false =>
    cases node with
    | mk tag attrs elements =>
      have htag : (tag == ['#']) = false := htext
      simp only [Node.printable, htag, Bool.false_eq_true, if_false, Bool.and_eq_true] at h
      obtain ⟨⟨⟨⟨hname, hnames⟩, hnodup⟩, hsib⟩, hall⟩ := h
      cases elements with
      | nil =>
        simp only [Node.toContent, htext, Bool.false_eq_true, if_false, Content.wellFormed,
          hname, hnames, hnodup, wellFormedAll, Content.node?, nodesOf, Bool.and_self, and_self]
      | cons first others =>
        have hch := toContentAll_spec nice indentStr (first :: others) (indent + 1) hind hall
        by_cases hone : (others.isEmpty && first.isText) = true
        · simp only [Bool.and_eq_true, List.isEmpty_iff] at hone
          obtain ⟨hothers, hft⟩ := hone
          subst hothers
          simp only [printableAll, Bool.and_eq_true] at hall
          obtain ⟨t, -, -, hc⟩ := toContent_text nice indentStr first (indent + 1) hall.1 hft
          have hf := hch first (by simp)
          rw [hc] at hf
          have hf1 : isPlainText (escapeText t) = true := by
            simpa [Content.wellFormed] using hf.1
          have hf2 : Node.mk ['#'] [⟨['#'], decodeEntities (escapeText t)⟩] [] = first := by
            simpa [Content.node?] using hf.2
          simp only [Node.toContent, htext, Bool.false_eq_true, if_false, List.isEmpty_nil, hft,
            Bool.and_self, if_true, hc, Content.wellFormed, hname, hnames, hnodup, wellFormedAll,
            hf1, startsWithMarkup, Content.node?, nodesOf, hf2, and_self]
        · have hone' : (others.isEmpty && first.isText) = false := by simpa using hone
          have hnodes := nodesOf_toContentAll nice indentStr (indent + 1) (first :: others)
            (fun e he => (hch e he).2)
          have hwfAll : wellFormedAll (toContentAll nice indentStr (first :: others) (indent + 1) ++
              (if nice then [Content.space (newline nice indentStr indent)] else [])) = true := by
            cases nice with
            | true =>
              have hnt : ∀ e ∈ first :: others, e.isText = false := by
                simp only [siblingsPrintable, if_true, Bool.or_eq_true, decide_eq_true_eq,
                  List.all_eq_true, Bool.not_eq_true'] at hsib
                rcases hsib with hlen | hnone
                · have ho : others = [] := by
                    cases others with
                    | nil => rfl
                    | cons _ _ => simp at hlen
                  subst ho
                  intro e he
                  simp only [List.mem_singleton] at he
                  subst he
                  simpa using hone'
                · exact hnone
              exact wellFormedAll_nice indentStr (indent + 1) indent (first :: others)
                (hind rfl) hnt (fun e he => (hch e he).1)
            | false =>
              have hadj : noAdjacentText (first :: others) = true := by
                simpa [siblingsPrintable] using hsib
              have hp : ∀ e ∈ first :: others, e.printable false = true := by
                intro e he
                have : ∀ l : List Node, printableAll false l = true → ∀ x ∈ l,
                    x.printable false = true := by
                  intro l
                  induction l with
                  | nil => intro _ x hx; simp at hx
                  | cons y l ihl =>
                    intro hl x hx
                    simp only [printableAll, Bool.and_eq_true] at hl
                    rcases List.mem_cons.1 hx with rfl | hx
                    · exact hl.1
                    · exact ihl hl.2 x hx
                exact this _ hall e he
              have := wellFormedAll_plain indentStr (indent + 1) (first :: others) hadj hp
                (fun e he => (hch e he).1)
              simpa using this
          have hnodes' : nodesOf (toContentAll nice indentStr (first :: others) (indent + 1) ++
              (if nice then [Content.space (newline nice indentStr indent)] else [])) =
              first :: others := by
            rw [nodesOf_append, hnodes]
            cases nice <;> simp [nodesOf, Content.node?]
          simp only [Node.toContent, htext, Bool.false_eq_true, if_false, hone',
            Content.wellFormed, hname, hnames, hnodup, hwfAll, Content.node?, hnodes',
            Bool.and_self, and_self]
theorem toContentAll_spec (nice : Bool) (indentStr : Str) (es : List Node) (indent : Nat)
    (hind : nice = true → ∀ c ∈ indentStr, is_whitespace c = true)
    (h : printableAll nice es = true) :
    ∀ e ∈ es, (e.toContent nice indentStr indent).wellFormed = true ∧
      (e.toContent nice indentStr indent).node? = some e := by
  cases es with
  | nil => intro e he; simp at he
  | cons x xs =>
    simp only [printableAll, Bool.and_eq_true] at h
    intro e he
    rcases List.mem_cons.1 he with rfl | he
    · exact toContent_spec nice indentStr e indent hind h.1
    · exact toContentAll_spec nice indentStr xs indent hind h.2 e he
end

/-! ## Parsing what the serializer wrote -/

theorem parseString_raw (v rest : Str) (h : isPlainVersion v = true) :
    parseString '"' true (v ++ '"' :: rest) = .ok (v, rest) := by
  induction v with
  | nil => exact parseString_quote _ _ _
  | cons c v ih =>
    simp only [isPlainVersion, List.all_cons, Bool.and_eq_true, bne_iff_ne, ne_eq] at h
    exact parseString_plain _ _ c _ _ _ h.1.1.1 h.1.1.2 (Or.inl h.1.2)
      (ih (by simpa [isPlainVersion] using h.2))

/-- One turn of the attribute loop over `name="value"` with a value that is
written as it is. -/
theorem parseOpenTagLoop_raw (fuel : Nat) (node : Node) (name v rest : Str)
    (hname : isXmlName name = true) (hv : isPlainVersion v = true) :
    parseOpenTagLoop (fuel + 1) node (' ' :: (name ++ '=' :: '"' :: (v ++ '"' :: rest))) =
      parseOpenTagLoop fuel (node.set name v) rest := by
  obtain ⟨c, cs, hcs, hstart, -⟩ := isXmlName_cons hname
  have hcw : is_whitespace c = false := xml_part_not_whitespace c (xml_start_is_part c hstart)
  have hc1 : c ≠ '/' := ne_of_pred_false hstart (by decide)
  have hc2 : c ≠ '>' := ne_of_pred_false hstart (by decide)
  have hc3 : c ≠ '?' := ne_of_pred_false hstart (by decide)
  have hcond : (c == '/' || c == '>' || c == '?') = false := by simp [hc1, hc2, hc3]
  generalize htail : v ++ '"' :: rest = tail
  have hps : parseString '"' true tail = .ok (v, rest) := by
    rw [← htail]; exact parseString_raw v rest hv
  have hsk0 : skipWhitespace false (' ' :: (name ++ '=' :: '"' :: tail)) =
      name ++ '=' :: '"' :: tail := by
    simp [hcs, skipWhitespace, List.dropWhile_cons, hcw, show is_whitespace ' ' = true by decide]
  have hx := parseXMLName_append name ('=' :: '"' :: tail) hname
    (by intro x hx; simp at hx; subst hx; decide)
  have hp0 : peek false (name ++ '=' :: '"' :: tail) = .ok (c, name ++ '=' :: '"' :: tail) := by
    rw [hcs]; exact peek_cons_of_not c _ hcw
  have hq : ('"' != '\'' && '"' != '"') = false := by decide
  simp only [parseOpenTagLoop, hsk0, hp0, hx, bind, Except.bind, pure, Except.pure, hcond,
    Bool.false_eq_true, if_false,
    skipWhitespace_cons_of_not '=' _ (show is_whitespace '=' = false by decide),
    peek_cons_of_not '=' _ (show is_whitespace '=' = false by decide), nextChar,
    skipWhitespace_cons_of_not '"' _ (show is_whitespace '"' = false by decide),
    peek_cons_of_not '"' _ (show is_whitespace '"' = false by decide), skip,
    List.drop_succ_cons, List.drop_zero, hps, beq_self_eq_true, if_true, hq]

/-- `parseDeclaration` on the declaration the serializer writes. -/
theorem parseDeclaration_stringify (version tail : Str) (hv : isPlainVersion version = true) :
    parseDeclaration ("<?xml version=\"".toList ++ version ++
      "\" encoding=\"UTF-8\" ?>".toList ++ tail) =
      .ok (Document.new version "UTF-8".toList, tail) := by
  have hsrc : "<?xml version=\"".toList ++ version ++ "\" encoding=\"UTF-8\" ?>".toList ++ tail =
      '<' :: '?' :: ("xml".toList ++ (' ' :: ("version".toList ++ '=' :: '"' :: (version ++ '"' ::
        (renderAttrs [⟨"encoding".toList, "UTF-8".toList⟩] ++ (' ' :: '?' :: '>' :: tail)))))) := by
    simp [renderAttrs, escape, escapeChar]
  generalize hrest : renderAttrs [⟨"encoding".toList, "UTF-8".toList⟩] ++
    (' ' :: '?' :: '>' :: tail) = rest at hsrc
  generalize hinner : ' ' :: ("version".toList ++ '=' :: '"' :: (version ++ '"' :: rest)) = inner
    at hsrc
  have hlen : 2 ≤ inner.length := by rw [← hinner]; simp
  obtain ⟨fuel, hfuel⟩ : ∃ fuel, inner.length + 1 = fuel + 2 + 1 := ⟨inner.length - 2, by omega⟩
  have hname := parseXMLName_append "xml".toList inner (by decide)
    (by intro c hc; rw [← hinner] at hc; simp at hc; subst hc; decide)
  have hloop1 := parseOpenTagLoop_raw (fuel + 2) (Node.new "xml".toList) "version".toList version rest
    (by decide) hv
  rw [hinner] at hloop1
  have hloop2 := parseOpenTagLoop_attrs [⟨"encoding".toList, "UTF-8".toList⟩] (fuel + 2)
    ((Node.new "xml".toList).set "version".toList version) (' ' :: '?' :: '>' :: tail) '?'
    ('>' :: tail) (by simp) (by decide) (Or.inr (Or.inr rfl))
    (by simp [skipWhitespace, List.dropWhile_cons, show is_whitespace ' ' = true by decide,
      show is_whitespace '?' = false by decide])
    (by intro c hc; simp at hc; subst hc; decide)
  rw [hrest] at hloop2
  have hopen : parseOpenTag ("xml".toList ++ inner) =
      .ok (.mk "xml".toList [⟨"version".toList, version⟩, ⟨"encoding".toList, "UTF-8".toList⟩] [],
        '?' :: '>' :: tail) := by
    simp only [parseOpenTag, hname, bind, Except.bind, hfuel, hloop1, hloop2]
    rfl
  have hx : expectStr "?>".toList ('?' :: '>' :: tail) = .ok tail := by
    simp [expectStr, List.isPrefixOf]
  rw [hsrc]
  simp only [parseDeclaration, expectChar_cons '<' _ (show is_whitespace '<' = false by decide),
    bind, Except.bind, pure, Except.pure,
    peek_cons_of_not '?' _ (show is_whitespace '?' = false by decide), nextChar, hopen, hx,
    Node.getTag, bne_self_eq_false, Bool.false_eq_true, if_false]
  rfl

/-- C1 (counterexample). Two sources that `xml::parse` accepts and whose tree
does not come back. With pretty-printing, `<a x="1"><b/>text</a>` is written
with a line break before `</a>`, which the second parse reads as part of the
text: the text node holds `text` followed by a line feed. Without
pretty-printing, the two text nodes of `<r>a<!--c-->b</r>` are written as `ab`,
which the second parse reads as one text node. -/
theorem roundtrip_counterexample :
    (parse "<a x=\"1\"><b/>text</a>".toList >>= fun document =>
      stringify document true "  ".toList >>= parse) =
      .ok ⟨"1.0".toList, "UTF-8".toList,
        some (.mk "a".toList [⟨"x".toList, "1".toList⟩]
          [.mk "b".toList [] [], .mk "#".toList [⟨"#".toList, "text\n".toList⟩] []])⟩ ∧
    parse "<r>a<!--c-->b</r>".toList =
      .ok ⟨"1.0".toList, "UTF-8".toList,
        some (.mk "r".toList []
          [.mk "#".toList [⟨"#".toList, "a".toList⟩] [],
           .mk "#".toList [⟨"#".toList, "b".toList⟩] []])⟩ ∧
    (parse "<r>a<!--c-->b</r>".toList >>= fun document =>
      stringify document false [] >>= parse) =
      .ok ⟨"1.0".toList, "UTF-8".toList,
        some (.mk "r".toList [] [.mk "#".toList [⟨"#".toList, "ab".toList⟩] []])⟩ := by
  decide

/-- C1 (amended). For every document whose version can be written between
quotes as it is and whose root is an element of a printable tree (tags and
attribute names are XML names, attribute names distinct, text nodes hold the `#`
attribute alone with a text that is not empty, does not start with whitespace
and has no backslash or null character, and: without pretty-printing no two
text nodes are adjacent; with pretty-printing, with a whitespace-only indent
string, a text node is an only child), `xml::stringify` succeeds and
`xml::parse` of its output succeeds and returns the same version and the same
tree: same tags, same attributes in the same order, same children in the same
order. The encoding of the result is `UTF-8`. -/
theorem parse_stringify (document : Document) (root : Node) (nice : Bool) (indentStr : Str)
    (hroot : document.root = some root) (hversion : isPlainVersion document.version = true)
    (helement : root.isText = false) (hprintable : root.printable nice = true)
    (hindent : nice = true → ∀ c ∈ indentStr, is_whitespace c = true) :
    ∃ output, stringify document nice indentStr = .ok output ∧
      parse output = .ok ⟨document.version, "UTF-8".toList, some root⟩ := by
  have hbody := stringifyElement_toContent nice indentStr root 0 hprintable
  obtain ⟨hwf, hnode⟩ := toContent_spec nice indentStr root 0 hindent hprintable
  obtain ⟨body, hcontent⟩ := toContent_element nice indentStr root 0 helement
  rw [hcontent] at hbody hwf hnode
  refine ⟨"<?xml version=\"".toList ++ document.version ++
    "\" encoding=\"UTF-8\" ?>".toList ++ newline nice indentStr 0 ++
    (Content.element root.getTag root.getAttributes body).render, ?_, ?_⟩
  · simp only [stringify, hroot, hbody, bind, Except.bind, pure, Except.pure]
  · have hdecl := parseDeclaration_stringify document.version
      (newline nice indentStr 0 ++ (Content.element root.getTag root.getAttributes body).render)
      hversion
    have hnl : ∀ c ∈ newline nice indentStr 0, is_whitespace c = true := by
      have := newline_whitespace nice indentStr 0 hindent
      simpa [List.all_eq_true] using this
    have hdepth := (Content.element root.getTag root.getAttributes body).depth_le_render hwf
      (fun ws e => by cases e)
    have hpe := (parse_render_aux (2 * (newline nice indentStr 0 ++
      (Content.element root.getTag root.getAttributes body).render).length + 2)).1
      (Content.element root.getTag root.getAttributes body) [] hwf
      (by simp only [List.length_append]; omega) rfl
    rw [List.append_nil, ← parseElement_append_all _ _ _ hnl, hnode] at hpe
    simp only [List.append_assoc] at hdecl ⊢
    simp only [parse, hdecl, bind, Except.bind, parseRootLoop, hpe, pure, Except.pure]
    rfl

theorem parse_stringify_witness :
    (Document.mk "1.0".toList "UTF-8".toList
      (some (.mk "a".toList [⟨"x".toList, "1".toList⟩]
        [.mk "b".toList [] [], .mk "#".toList [⟨"#".toList, "text".toList⟩] []]))).root =
      some (.mk "a".toList [⟨"x".toList, "1".toList⟩]
        [.mk "b".toList [] [], .mk "#".toList [⟨"#".toList, "text".toList⟩] []]) ∧
    isPlainVersion "1.0".toList = true ∧
    (Node.mk "a".toList [⟨"x".toList, "1".toList⟩]
        [.mk "b".toList [] [], .mk "#".toList [⟨"#".toList, "text".toList⟩] []]).isText = false ∧
    (Node.mk "a".toList [⟨"x".toList, "1".toList⟩]
        [.mk "b".toList [] [], .mk "#".toList [⟨"#".toList, "text".toList⟩] []]).printable false
      = true ∧
    ∃ output,
      stringify (Document.mk "1.0".toList "UTF-8".toList
        (some (.mk "a".toList [⟨"x".toList, "1".toList⟩]
          [.mk "b".toList [] [], .mk "#".toList [⟨"#".toList, "text".toList⟩] []]))) false
        "  ".toList = .ok output ∧
      parse output = .ok ⟨"1.0".toList, "UTF-8".toList,
        some (.mk "a".toList [⟨"x".toList, "1".toList⟩]
          [.mk "b".toList [] [], .mk "#".toList [⟨"#".toList, "text".toList⟩] []])⟩ :=
  ⟨rfl, by decide, by decide, by decide,
    parse_stringify _ _ false "  ".toList rfl (by decide) (by decide) (by decide)
      (fun h => by cases h)⟩

/-! ## `Node::set` and `Node::add` -/

theorem mapFind_mapAssign_same (attrs : List Attribute) (name : Str) (value : Attribute)
    (hv : value.name = name) : mapFind (mapAssign attrs name value) name = some value := by
  induction attrs with
  | nil => simp [mapAssign, mapFind, hv]
  | cons a rest ih =>
    by_cases ha : a.name = name
    · simp [mapAssign, mapFind, ha, hv]
    · simp [mapAssign, mapFind, ha, ih]

theorem mapFind_mapAssign_other (attrs : List Attribute) (name other : Str) (value : Attribute)
    (hv : value.name = name) (ho : other ≠ name) :
    mapFind (mapAssign attrs name value) other = mapFind attrs other := by
  have hvo : ¬ value.name = other := fun e => ho (by rw [← e, hv])
  induction attrs with
  | nil => simp [mapAssign, mapFind, hvo]
  | cons a rest ih =>
    by_cases ha : a.name = name
    · have hao : ¬ a.name = other := fun e => ho (by rw [← e, ha])
      simp [mapAssign, mapFind, ha, hvo, ho.symm]
    · by_cases hao : a.name = other
      · simp [mapAssign, mapFind, hao, ho]
      · simp [mapAssign, mapFind, ha, hao, ih]

theorem length_mapAssign (attrs : List Attribute) (name : Str) (value : Attribute) :
    (mapAssign attrs name value).length =
      attrs.length + (if (mapFind attrs name).isSome then 0 else 1) := by
  induction attrs with
  | nil => simp [mapAssign, mapFind]
  | cons a rest ih =>
    by_cases ha : a.name = name
    · simp [mapAssign, mapFind, ha]
    · simp only [mapAssign, mapFind, ha, if_false, List.length_cons, ih]
      omega

theorem mem_names_mapAssign (attrs : List Attribute) (name : Str) (value : Attribute)
    (hv : value.name = name) (x : Str) (hx : x ∈ (mapAssign attrs name value).map Attribute.name) :
    x = name ∨ x ∈ attrs.map Attribute.name := by
  induction attrs with
  | nil =>
    simp [mapAssign, hv] at hx
    exact Or.inl hx
  | cons a rest ih =>
    by_cases ha : a.name = name
    · simp only [mapAssign, ha, if_true, List.map_cons, List.mem_cons, hv] at hx ⊢
      rcases hx with h | h
      · exact Or.inl h
      · exact Or.inr (Or.inr h)
    · simp only [mapAssign, ha, if_false, List.map_cons, List.mem_cons] at hx ⊢
      rcases hx with h | h
      · exact Or.inr (Or.inl h)
      · rcases ih h with h | h
        · exact Or.inl h
        · exact Or.inr (Or.inr h)

theorem nodup_names_mapAssign (attrs : List Attribute) (name : Str) (value : Attribute)
    (hv : value.name = name) (h : (attrs.map Attribute.name).Nodup) :
    ((mapAssign attrs name value).map Attribute.name).Nodup := by
  induction attrs with
  | nil => simp [mapAssign]
  | cons a rest ih =>
    rw [List.map_cons, List.nodup_cons] at h
    by_cases ha : a.name = name
    · simp only [mapAssign, ha, if_true, List.map_cons, List.nodup_cons, hv]
      rw [ha] at h
      exact h
    · simp only [mapAssign, ha, if_false, List.map_cons, List.nodup_cons]
      refine ⟨fun hmem => ?_, ih h.2⟩
      rcases mem_names_mapAssign rest name value hv _ hmem with e | e
      · exact ha e
      · exact h.1 e

/-- C17. After `Node::set(name, text)` the lookup `attr(name)` gives the
attribute with that name and that text (so the last `set` wins), the names of
the map stay unique, every other name keeps its presence and its attribute, the
number of attributes grows by one exactly when the name was absent, and the tag
and the children are unchanged. -/
theorem set_frame (node : Node) (name text : Str) :
    (node.set name text).attr name = .ok ⟨name, text⟩ ∧
    ((node.getAttributes.map Attribute.name).Nodup →
      ((node.set name text).getAttributes.map Attribute.name).Nodup) ∧
    (∀ other, other ≠ name →
      (node.set name text).has other = node.has other ∧
      (node.set name text).attr other = node.attr other) ∧
    (node.set name text).getAttributes.length =
      node.getAttributes.length + (if node.has name then 0 else 1) ∧
    (node.set name text).getTag = node.getTag ∧
    (node.set name text).getElements = node.getElements := by
  refine ⟨?_, ?_, ?_, ?_, rfl, rfl⟩
  · simp [Node.attr, Node.set, Node.getAttributes, mapFind_mapAssign_same]
  · exact nodup_names_mapAssign _ _ _ rfl
  · intro other ho
    have := mapFind_mapAssign_other node.getAttributes name other ⟨name, text⟩ rfl ho
    simp only [Node.attr, Node.has, Node.set]
    rw [show (Node.mk node.getTag (mapAssign node.getAttributes name ⟨name, text⟩)
      node.getElements).getAttributes = mapAssign node.getAttributes name ⟨name, text⟩ from rfl,
      show (Node.mk node.getTag (mapAssign node.getAttributes name ⟨name, text⟩)
      node.getElements).getTag = node.getTag from rfl, this]
    exact ⟨rfl, rfl⟩
  · simp only [Node.set, Node.getAttributes, Node.has]
    exact length_mapAssign _ _ _

/-- C18. After `Node::add(child)` on a node with `k` children, `size()` is
`k + 1`, `sub(k)` is the added child, `sub(i)` is unchanged for every `i < k`,
and the tag and the attributes are unchanged; and on every node `sub(i)` fails
(`std::out_of_range`) for every index `i ≥ size()`. -/
theorem add_appends (node child : Node) :
    (node.add child).size = node.size + 1 ∧
    (node.add child).sub node.size = .ok child ∧
    (∀ i, i < node.size → (node.add child).sub i = node.sub i) ∧
    (node.add child).getTag = node.getTag ∧
    (node.add child).getAttributes = node.getAttributes ∧
    (∀ i, node.size ≤ i → node.sub i = .error .outOfRange) := by
  refine ⟨?_, ?_, ?_, rfl, rfl, ?_⟩
  · simp [Node.add, Node.size, Node.getElements]
  · simp [Node.add, Node.size, Node.sub, Node.getElements, List.getElem?_append_right]
  · intro i hi
    simp only [Node.size] at hi
    simp only [Node.sub, Node.add]
    rw [show (Node.mk node.getTag node.getAttributes (node.getElements ++ [child])).getElements
      = node.getElements ++ [child] from rfl, List.get?_eq_getElem?, List.get?_eq_getElem?,
      List.getElem?_append_left hi]
  · intro i hi
    simp only [Node.size] at hi
    simp [Node.sub, List.getElem?_eq_none hi]

/-! ## Commas in vector texts, the length of colour texts -/

theorem find_none_of_not_mem (text : Str) (c : Char) (h : c ∉ text) : find text c 0 = none := by
  have : text.indexOf? c = none := by
    simp only [List.indexOf?, List.findIdx?_eq_none_iff]
    intro x hx
    by_cases e : x = c
    · exact absurd (e ▸ hx) h
    · simpa using e
  simp [find, this]

theorem exists_first_occurrence (c : Char) (text : Str) (h : c ∈ text) :
    ∃ x rest, text = x ++ c :: rest ∧ c ∉ x := by
  induction text with
  | nil => simp at h
  | cons d text ih =>
    by_cases hd : d = c
    · exact ⟨[], text, by simp [hd], by simp⟩
    · have : c ∈ text := by
        rcases List.mem_cons.1 h with e | e
        · exact absurd e.symm hd
        · exact e
      obtain ⟨x, rest, e, hx⟩ := ih this
      refine ⟨d :: x, rest, by simp [e], ?_⟩
      intro hm
      rcases List.mem_cons.1 hm with e | e
      · exact hd e.symm
      · exact hx e

theorem find_after (x rest : Str) (c : Char) (k : Nat) (hk : k = x.length + 1) :
    find (x ++ c :: rest) c k = (find rest c 0).map (fun i => k + i) := by
  have : List.drop k (x ++ c :: rest) = rest := by
    rw [hk, show x ++ c :: rest = (x ++ [c]) ++ rest by simp, List.drop_append_eq_append_drop]
    simp
  simp only [find, this, List.drop_zero]
  cases rest.indexOf? c <;> simp

theorem commas_split (x rest : Str) (hx : ',' ∉ x) :
    commas (x ++ ',' :: rest) = commas rest + 1 := by
  simp [commas, List.count_append, List.count_eq_zero.2 hx]

theorem commas_zero (x : Str) (hx : ',' ∉ x) : commas x = 0 := List.count_eq_zero.2 hx

/-- The three shapes of a text by its first commas. -/
theorem comma_cases (text : Str) :
    (',' ∉ text) ∨
    (∃ x y, text = x ++ ',' :: y ∧ ',' ∉ x ∧ ',' ∉ y) ∨
    (∃ x y rest, text = x ++ ',' :: (y ++ ',' :: rest) ∧ ',' ∉ x ∧ ',' ∉ y) := by
  by_cases h : ',' ∈ text
  · obtain ⟨x, r, e, hx⟩ := exists_first_occurrence _ _ h
    by_cases h2 : ',' ∈ r
    · obtain ⟨y, rest, e2, hy⟩ := exists_first_occurrence _ _ h2
      exact Or.inr (Or.inr ⟨x, y, rest, by rw [e, e2], hx, hy⟩)
    · exact Or.inr (Or.inl ⟨x, r, e, hx, h2⟩)
  · exact Or.inl h

theorem bind_error_iff {α β : Type} (m : Except Error α) (f : α → Except Error β) (e : Error) :
    (m >>= f) = .error e ↔ m = .error e ∨ ∃ v, m = .ok v ∧ f v = .error e := by
  cases m <;> simp [bind, Except.bind]

/-- C14. For a number parser that does not itself raise these errors,
`Attribute::asVec3` fails with `invalid vec3 value` exactly when the text holds
exactly one comma, `Attribute::asVec4` fails with `invalid vec4 value` exactly
when the text holds exactly one or exactly two commas, and a text without comma
raises neither error. -/
theorem asVec_comma_errors (parse_double : Str → Except Error ℚ) (a : Attribute)
    (hpd : ∀ s, parse_double s ≠ .error (invalidVec3 a.text) ∧
      parse_double s ≠ .error (invalidVec4 a.text)) :
    (a.asVec3 parse_double = .error (invalidVec3 a.text) ↔ commas a.text = 1) ∧
    (a.asVec4 parse_double = .error (invalidVec4 a.text) ↔
      (commas a.text = 1 ∨ commas a.text = 2)) ∧
    (commas a.text = 0 →
      a.asVec3 parse_double ≠ .error (invalidVec3 a.text) ∧
      a.asVec4 parse_double ≠ .error (invalidVec4 a.text)) := by
  obtain ⟨name, text⟩ := a
  simp only at hpd ⊢
  have h3 : ∀ s, parse_double s ≠ .error (invalidVec3 text) := fun s => (hpd s).1
  have h4 : ∀ s, parse_double s ≠ .error (invalidVec4 text) := fun s => (hpd s).2
  rcases comma_cases text with h | ⟨x, y, e, hx, hy⟩ | ⟨x, y, rest, e, hx, hy⟩
  · have hf := find_none_of_not_mem text ',' h
    have hc := commas_zero text h
    simp [Attribute.asVec3, Attribute.asVec4, hf, hc, parse_double_at, bind_error_iff, h3, h4,
      pure, Except.pure]
  · have hc : commas text = 1 := by rw [e, commas_split x y hx, commas_zero y hy]
    have hf1 : find text ',' 0 = some x.length := by rw [e]; exact find_first_comma x y hx
    have hf2 : find text ',' (x.length + 1) = none := by
      rw [e, find_after x y ',' _ rfl, find_none_of_not_mem y ',' hy]; rfl
    simp [Attribute.asVec3, Attribute.asVec4, hf1, hf2, hc, invalidVec3, invalidVec4]
  · have hc : commas text = commas rest + 2 := by
      rw [e, commas_split x _ hx, commas_split y rest hy]
    have hf1 : find text ',' 0 = some x.length := by rw [e]; exact find_first_comma x _ hx
    have hf2 : find text ',' (x.length + 1) = some (x.length + 1 + y.length) := by
      rw [e]; exact find_second_comma x y rest hy
    have e' : text = (x ++ ',' :: y) ++ ',' :: rest := by rw [e]; simp
    have hf3 : find text ',' (x.length + 1 + y.length + 1) =
        (find rest ',' 0).map (fun i => x.length + 1 + y.length + 1 + i) := by
      rw [e']
      exact find_after (x ++ ',' :: y) rest ',' _ (by simp; omega)
    refine ⟨?_, ?_, ?_⟩
    · simp [Attribute.asVec3, hf1, hf2, hc, parse_double_at, bind_error_iff, h3, pure,
        Except.pure]
    · by_cases hr : ',' ∈ rest
      · obtain ⟨z, w, ez, hz⟩ := exists_first_occurrence _ _ hr
        have hcr : commas rest = commas w + 1 := by rw [ez, commas_split z w hz]
        have hfr : find rest ',' 0 = some z.length := by rw [ez]; exact find_first_comma z w hz
        rw [hfr] at hf3
        simp [Attribute.asVec4, hf1, hf2, hf3, hc, hcr, parse_double_at, bind_error_iff, h4, pure,
          Except.pure]
      · have hcr := commas_zero rest hr
        rw [find_none_of_not_mem rest ',' hr] at hf3
        simp [Attribute.asVec4, hf1, hf2, hf3, hc, hcr, invalidVec4]
    · intro h0
      omega

theorem asVec_comma_errors_witness :
    (∀ s, (fun _ => .ok 0 : Str → Except Error ℚ) s ≠
        .error (invalidVec3 (Attribute.mk [] "1,2".toList).text) ∧
      (fun _ => .ok 0 : Str → Except Error ℚ) s ≠
        .error (invalidVec4 (Attribute.mk [] "1,2".toList).text)) ∧
    (Attribute.mk [] "1,2".toList).asVec3 (fun _ => .ok 0) = .error (invalidVec3 "1,2".toList) ∧
    (Attribute.mk [] "1,2".toList).asVec4 (fun _ => .ok 0) = .error (invalidVec4 "1,2".toList) :=
  have h := asVec_comma_errors (fun _ => .ok 0) (Attribute.mk [] "1,2".toList)
    (fun _ => ⟨by simp, by simp⟩)
  ⟨fun _ => ⟨by simp, by simp⟩, h.1.2 (by decide), h.2.1.2 (Or.inl (by decide))⟩

/-- C15. For every text without comma that the number parser reads as `s`,
`asVec2`, `asVec3` and `asVec4` return the vector whose components are all `s`;
and for every text `x,y` with no comma in `x`, `asVec2` returns the pair of the
numbers read from `x` and from `y` (in particular when `y` holds no comma
either: exactly one comma). -/
theorem asVec_broadcast (parse_double : Str → Except Error ℚ) (a : Attribute) (s : ℚ)
    (name x y : Str) (hcomma : ',' ∉ a.text) (hnum : parse_double a.text = .ok s)
    (hx : ',' ∉ x) :
    a.asVec2 parse_double = .ok (s, s) ∧
    a.asVec3 parse_double = .ok (s, s, s) ∧
    a.asVec4 parse_double = .ok (s, s, s, s) ∧
    (Attribute.mk name (x ++ ',' :: y)).asVec2 parse_double =
      (do
        let u ← parse_double x
        let v ← parse_double y
        return (u, v)) := by
  have hf := find_none_of_not_mem a.text ',' hcomma
  have hs : substr a.text 0 a.text.length = a.text := by simp [substr]
  have e1 : substr (x ++ ',' :: y) 0 x.length = x := by simp [substr]
  have e2 : substr (x ++ ',' :: y) (x.length + 1) ((x ++ ',' :: y).length - x.length - 1) = y := by
    have : List.drop (x.length + 1) (x ++ ',' :: y) = y := by
      rw [show x ++ ',' :: y = (x ++ [',']) ++ y by simp, List.drop_append_eq_append_drop]
      simp
    simp only [substr, this]
    apply List.take_of_length_le
    simp
  refine ⟨?_, ?_, ?_, ?_⟩
  · simp [Attribute.asVec2, hf, parse_double_at, hs, hnum, bind, Except.bind, pure, Except.pure]
  · simp [Attribute.asVec3, hf, parse_double_at, hs, hnum, bind, Except.bind, pure, Except.pure]
  · simp [Attribute.asVec4, hf, parse_double_at, hs, hnum, bind, Except.bind, pure, Except.pure]
  · simp only [Attribute.asVec2, find_first_comma x y hx, parse_double_at, e1, e2]

theorem asVec_broadcast_witness :
    ',' ∉ (Attribute.mk [] "5".toList).text ∧
    (fun t => if t = "5".toList then .ok 5 else if t = "1".toList then .ok 1
        else if t = "2".toList then .ok 2 else .error .invalidArgument :
      Str → Except Error ℚ) (Attribute.mk [] "5".toList).text = .ok 5 ∧
    ',' ∉ "1".toList ∧
    (Attribute.mk [] "5".toList).asVec3
      (fun t => if t = "5".toList then .ok 5 else if t = "1".toList then .ok 1
        else if t = "2".toList then .ok 2 else .error .invalidArgument) = .ok (5, 5, 5) ∧
    (Attribute.mk [] "1,2".toList).asVec2
      (fun t => if t = "5".toList then .ok 5 else if t = "1".toList then .ok 1
        else if t = "2".toList then .ok 2 else .error .invalidArgument) = .ok (1, 2) :=
  have h := asVec_broadcast
    (fun t => if t = "5".toList then .ok 5 else if t = "1".toList then .ok 1
        else if t = "2".toList then .ok 2 else .error .invalidArgument)
    (Attribute.mk [] "5".toList) 5 [] "1".toList "2".toList (by decide) (by simp) (by decide)
  ⟨by decide, by simp, by decide, h.2.1, h.2.2.2.trans (by simp [bind, Except.bind, pure, Except.pure])⟩

/-- C16. For every text that begins with `#`, `Attribute::asColor` fails
exactly when the length of the text is neither 7 nor 9, and then with
`#RRGGBB or #RRGGBBAA required`; a text of length 7 or 9 never fails, whatever
its other characters, the digit decoder and the number parser. -/
theorem asColor_hash_length (hexchar2int : Char → Int) (parse_double : Str → Except Error ℚ)
    (name rest : Str) :
    ((∃ e, (Attribute.mk name ('#' :: rest)).asColor hexchar2int parse_double = .error e) ↔
      (('#' :: rest).length ≠ 7 ∧ ('#' :: rest).length ≠ 9)) ∧
    ((('#' :: rest).length ≠ 7 ∧ ('#' :: rest).length ≠ 9) →
      (Attribute.mk name ('#' :: rest)).asColor hexchar2int parse_double =
        .error (.runtime "#RRGGBB or #RRGGBBAA required")) ∧
    ((('#' :: rest).length = 7 ∨ ('#' :: rest).length = 9) →
      ∃ v, (Attribute.mk name ('#' :: rest)).asColor hexchar2int parse_double = .ok v) := by
  have h0 : charAt ('#' :: rest) 0 = '#' := rfl
  by_cases h : (('#' :: rest).length != 7 && ('#' :: rest).length != 9) = true
  · have h' := h
    simp only [Bool.and_eq_true, bne_iff_ne, ne_eq] at h'
    simp only [Attribute.asColor, h0, beq_self_eq_true, if_true, h]
    refine ⟨⟨fun _ => h', fun _ => ⟨_, rfl⟩⟩, fun _ => trivial, fun hc => ?_⟩
    rcases hc with hc | hc
    · exact absurd hc h'.1
    · exact absurd hc h'.2
  · have h' : ¬ (('#' :: rest).length ≠ 7 ∧ ('#' :: rest).length ≠ 9) := by
      simpa only [Bool.and_eq_true, bne_iff_ne, ne_eq] using h
    simp only [Attribute.asColor, h0, beq_self_eq_true, if_true, h]
    refine ⟨⟨fun ⟨e, he⟩ => (by cases he), fun hn => absurd hn h'⟩, fun hn => absurd hn h', fun _ => ⟨_, rfl⟩⟩

/-! ## The shapes of a rendered element -/

theorem stringifyElement_textNode (nice : Bool) (indentStr : Str) (node : Node) (indent : Nat)
    (h : node.isText = true) :
    stringifyElement nice indentStr node indent =
      (node.attr "#".toList).map (fun a => escapeText a.text) := by
  cases node with
  | mk tag attrs elements =>
    simp only [stringifyElement, h, if_true, escapeText, bind, Except.bind, pure, Except.pure,
      Except.map]

theorem stringifyElement_leaf (nice : Bool) (indentStr : Str) (tag : Str)
    (attrs : List Attribute) (indent : Nat) (h : (Node.mk tag attrs []).isText = false) :
    stringifyElement nice indentStr (.mk tag attrs []) indent =
      .ok ('<' :: tag ++ renderAttrs attrs ++ "/>".toList) := by
  have h' : (Node.mk tag attrs []).isText = false := h
  simp only [stringifyElement, h', Bool.false_eq_true, if_false, stringify_openTag, pure,
    Except.pure]
  simp

theorem stringifyElement_inline (nice : Bool) (indentStr : Str) (tag : Str)
    (attrs : List Attribute) (child : Node) (indent : Nat)
    (h : (Node.mk tag attrs [child]).isText = false) (hc : child.isText = true) :
    stringifyElement nice indentStr (.mk tag attrs [child]) indent =
      (child.attr "#".toList).map (fun a =>
        '<' :: tag ++ renderAttrs attrs ++ '>' :: escapeText a.text ++ '<' :: '/' :: tag ++ ['>']) := by
  have ht := stringifyElement_textNode nice indentStr child (indent + 1) hc
  simp only [stringifyElement, h, Bool.false_eq_true, if_false, stringify_openTag,
    List.isEmpty_nil, hc, Bool.and_self, if_true, ht, bind, Except.bind, pure, Except.pure,
    Except.map]
  cases child.attr "#".toList <;> simp

theorem stringifyElement_nested (nice : Bool) (indentStr : Str) (tag : Str)
    (attrs : List Attribute) (first : Node) (others : List Node) (indent : Nat)
    (h : (Node.mk tag attrs (first :: others)).isText = false)
    (hc : (others.isEmpty && first.isText) = false) :
    stringifyElement nice indentStr (.mk tag attrs (first :: others)) indent =
      (stringifyElements nice indentStr (first :: others) (indent + 1)).map (fun inner =>
        '<' :: tag ++ renderAttrs attrs ++ '>' :: inner ++ newline nice indentStr indent
          ++ '<' :: '/' :: tag ++ ['>']) := by
  rw [stringifyElement]
  simp only [h, Bool.false_eq_true, if_false, stringify_openTag,
    hc, bind, Except.bind, pure, Except.pure, Except.map]
  cases stringifyElements nice indentStr (first :: others) (indent + 1) <;> simp

theorem stringifyElements_all (nice : Bool) (indentStr : Str) (indent : Nat)
    (es : List Node) (rs : List Str)
    (h : List.Forall₂ (fun c r => stringifyElement nice indentStr c indent = .ok r) es rs) :
    stringifyElements nice indentStr es indent =
      .ok (rs.map (fun r => newline nice indentStr indent ++ r)).flatten := by
  induction h with
  | nil => simp [stringifyElements]
  | cons hd _ ih => simp [stringifyElements, hd, ih, bind, Except.bind, pure, Except.pure]

mutual
theorem stringifyElement_plain_indep (s1 s2 : Str) (node : Node) (i1 i2 : Nat) :
    stringifyElement false s1 node i1 = stringifyElement false s2 node i2 := by
  cases node with
  | mk tag attrs elements =>
    by_cases htext : (Node.mk tag attrs elements).isText = true
    · rw [stringifyElement_textNode _ _ _ _ htext, stringifyElement_textNode _ _ _ _ htext]
    · have htext' : (Node.mk tag attrs elements).isText = false := by simpa using htext
      cases elements with
      | nil => rw [stringifyElement_leaf _ _ _ _ _ htext', stringifyElement_leaf _ _ _ _ _ htext']
      | cons first others =>
        by_cases hone : (others.isEmpty && first.isText) = true
        · simp only [Bool.and_eq_true, List.isEmpty_iff] at hone
          obtain ⟨ho, hf⟩ := hone
          subst ho
          rw [stringifyElement_inline _ _ _ _ _ _ htext' hf,
            stringifyElement_inline _ _ _ _ _ _ htext' hf]
        · have hone' : (others.isEmpty && first.isText) = false := by simpa using hone
          rw [stringifyElement_nested _ _ _ _ _ _ _ htext' hone',
            stringifyElement_nested _ _ _ _ _ _ _ htext' hone',
            stringifyElements_plain_indep s1 s2 (first :: others) (i1 + 1) (i2 + 1)]
          rfl
theorem stringifyElements_plain_indep (s1 s2 : Str) (es : List Node) (i1 i2 : Nat) :
    stringifyElements false s1 es i1 = stringifyElements false s2 es i2 := by
  cases es with
  | nil => rfl
  | cons e rest =>
    simp only [stringifyElements, stringifyElement_plain_indep s1 s2 e i1 i2,
      stringifyElements_plain_indep s1 s2 rest i1 i2]
    rfl
end

/-- C19. The rendering of a non-text node is decided by its children. Without
children it is `<tag attrs/>`. With exactly one child that is a text node it is
`<tag attrs>`, the escaped text of the child and `</tag>`, nothing else, also
when pretty-printing (it fails only when that child has no `#` attribute). In
every other case it is `<tag attrs>`, the renderings of all children in order
(each after the line break of its level), the line break of the node and
`</tag>`. In the attribute list an attribute with empty text is its name alone,
any other `name=` and the quoted text. -/
theorem stringifyElement_shapes (nice : Bool) (indentStr tag : Str) (attrs : List Attribute)
    (elements : List Node) (indent : Nat) (h : (Node.mk tag attrs elements).isText = false) :
    (elements = [] →
      stringifyElement nice indentStr (.mk tag attrs elements) indent =
        .ok ('<' :: tag ++ renderAttrs attrs ++ "/>".toList)) ∧
    (∀ child, elements = [child] → child.isText = true →
      stringifyElement nice indentStr (.mk tag attrs elements) indent =
        (child.attr "#".toList).map (fun a =>
          '<' :: tag ++ renderAttrs attrs ++ '>' :: escapeText a.text
            ++ '<' :: '/' :: tag ++ ['>'])) ∧
    (elements ≠ [] → (∀ child, elements = [child] → child.isText = false) →
      ∀ rs, List.Forall₂
          (fun c r => stringifyElement nice indentStr c (indent + 1) = .ok r) elements rs →
        stringifyElement nice indentStr (.mk tag attrs elements) indent =
          .ok ('<' :: tag ++ renderAttrs attrs
            ++ '>' :: (rs.map (fun r => newline nice indentStr (indent + 1) ++ r)).flatten
            ++ newline nice indentStr indent ++ '<' :: '/' :: tag ++ ['>'])) ∧
    (∀ name rest, renderAttrs (⟨name, []⟩ :: rest) = ' ' :: name ++ renderAttrs rest) ∧
    (∀ a rest, a.text ≠ [] →
      renderAttrs (a :: rest) = ' ' :: a.name ++ '=' :: escape a.text ++ renderAttrs rest) := by
  refine ⟨?_, ?_, ?_, ?_, ?_⟩
  · rintro rfl
    exact stringifyElement_leaf _ _ _ _ _ h
  · rintro child rfl hc
    exact stringifyElement_inline _ _ _ _ _ _ h hc
  · intro hne hnot rs hrs
    cases elements with
    | nil => exact absurd rfl hne
    | cons first others =>
      have hone : (others.isEmpty && first.isText) = false := by
        cases others with
        | nil => simp [hnot first rfl]
        | cons o os => simp
      rw [stringifyElement_nested _ _ _ _ _ _ _ h hone,
        stringifyElements_all _ _ _ _ _ hrs]
      rfl
  · intro name rest
    simp [renderAttrs]
  · intro a rest ha
    have : a.text.isEmpty = false := by
      cases hh : a.text with
      | nil => exact absurd hh ha
      | cons _ _ => rfl
    simp [renderAttrs, this]

theorem stringifyElement_shapes_witness :
    (Node.mk "a".toList [⟨"x".toList, "1".toList⟩, ⟨"y".toList, []⟩]
      [.mk "b".toList [] [], .mk "#".toList [⟨"#".toList, "t".toList⟩] []]).isText = false ∧
    stringifyElement true "  ".toList
      (.mk "a".toList [⟨"x".toList, "1".toList⟩, ⟨"y".toList, []⟩]
        [.mk "b".toList [] [], .mk "#".toList [⟨"#".toList, "t".toList⟩] []]) 0 =
      .ok "<a x=\"1\" y>\n  <b/>\n  t\n</a>".toList :=
  ⟨by decide,
    ((stringifyElement_shapes true "  ".toList "a".toList
      [⟨"x".toList, "1".toList⟩, ⟨"y".toList, []⟩]
      [.mk "b".toList [] [], .mk "#".toList [⟨"#".toList, "t".toList⟩] []] 0 (by decide)).2.2.1
        (by decide) (fun _ hch => (by simp at hch)) ["<b/>".toList, "t".toList]
        (.cons (by decide) (.cons (by decide) .nil))).trans (by decide)⟩

/-- C20. With pretty-printing disabled `xml::stringify` does not use the indent
string: the output is the same for every two indent strings, it is the
declaration immediately followed by the rendering of the root, and a node with
children that are not a single text node is rendered as its open tag, the
renderings of its children one after the other with nothing between them, and
its closing tag. -/
theorem stringify_plain (document : Document) (s1 s2 : Str) :
    stringify document false s1 = stringify document false s2 ∧
    (∀ root, document.root = some root →
      stringify document false s1 =
        (stringifyElement false s1 root 0).map (fun body =>
          "<?xml version=\"".toList ++ document.version ++ "\" encoding=\"UTF-8\" ?>".toList
            ++ body)) ∧
    (∀ tag attrs first others indent rs,
      (Node.mk tag attrs (first :: others)).isText = false →
      (others.isEmpty && first.isText) = false →
      List.Forall₂ (fun c r => stringifyElement false s1 c (indent + 1) = .ok r)
        (first :: others) rs →
      stringifyElement false s1 (.mk tag attrs (first :: others)) indent =
        .ok ('<' :: tag ++ renderAttrs attrs ++ '>' :: rs.flatten ++ '<' :: '/' :: tag ++ ['>'])) := by
  refine ⟨?_, ?_, ?_⟩
  · cases hr : document.root with
    | none => simp [stringify, hr]
    | some root =>
      simp only [stringify, hr, stringifyElement_plain_indep s1 s2 root 0 0]
      rfl
  · intro root hr
    simp only [stringify, hr, bind, Except.bind, pure, Except.pure, Except.map]
    cases stringifyElement false s1 root 0 <;> simp [newline]
  · intro tag attrs first others indent rs h hone hrs
    rw [stringifyElement_nested _ _ _ _ _ _ _ h hone, stringifyElements_all _ _ _ _ _ hrs]
    simp [Except.map, newline]

/-! ## What a successful run of the parser went through -/

theorem bind_ok_iff {α β : Type} (m : Except Error α) (f : α → Except Error β) (b : β) :
    (m >>= f) = .ok b ↔ ∃ a, m = .ok a ∧ f a = .ok b := by
  cases m <;> simp [bind, Except.bind]

theorem parseElementLoop_ok_iff (fuel : Nat) (element : Node) (s : Str) (result : Node) (r : Str) :
    parseElementLoop (fuel + 1) element s = .ok (result, r) ↔
      (isNext "</".toList s = true ∧ result = element ∧ r = s) ∨
      (isNext "</".toList s = false ∧ ∃ sub s1, parseElement fuel s = .ok (sub, s1) ∧
        parseElementLoop fuel (sub.elim element (fun x => element.add x))
          (skipWhitespace false s1) = .ok (result, r)) := by
  by_cases h : isNext "</".toList s = true
  · simp only [parseElementLoop, h, if_true, Except.ok.injEq, Prod.mk.injEq]
    constructor
    · rintro ⟨rfl, rfl⟩; exact Or.inl ⟨trivial, rfl, rfl⟩
    · rintro (⟨_, rfl, rfl⟩ | ⟨hf, _⟩)
      · exact ⟨rfl, rfl⟩
      · cases hf
  · have h' : isNext "</".toList s = false := by simpa using h
    simp only [parseElementLoop, h', Bool.false_eq_true, if_false, bind_ok_iff]
    constructor
    · rintro ⟨⟨sub, s1⟩, hp, hl⟩
      refine Or.inr ⟨trivial, sub, s1, hp, ?_⟩
      cases sub <;> exact hl
    · rintro (⟨hf, _⟩ | ⟨_, sub, s1, hp, hl⟩)
      · cases hf
      · refine ⟨(sub, s1), hp, ?_⟩
        cases sub <;> exact hl

theorem parseElement_ok_iff (fuel : Nat) (s : Str) (res : Option Node) (r : Str) :
    parseElement (fuel + 1) s = .ok (res, r) ↔ ∃ c s1, peek false s = .ok (c, s1) ∧
      ((c ≠ '<' ∧ ∃ text, parseText s1 = .ok (text, r) ∧
          res = some ((Node.new "#".toList).set "#".toList (decodeEntities text))) ∨
       (c = '<' ∧ ∃ c1 s2 c2 s3, nextChar s1 = .ok (c1, s2) ∧ peek false s2 = .ok (c2, s3) ∧
          ((c2 = '!' ∧ isNext "!DOCTYPE ".toList s3 = false ∧ parseComment s3 = .ok r ∧
              res = none) ∨
           (c2 ≠ '!' ∧ ∃ el s4 c3 s5, parseOpenTag s3 = .ok (el, s4) ∧
              nextChar s4 = .ok (c3, s5) ∧
              ((c3 = '/' ∧ expectChar false '>' s5 = .ok r ∧ res = some el) ∨
               (c3 = '>' ∧ ∃ el' s6 s7,
                  parseElementLoop fuel el (skipWhitespace false s5) = .ok (el', s6) ∧
                  expectStr el'.getTag (skip 2 s6) = .ok s7 ∧
                  expectChar false '>' s7 = .ok r ∧ res = some el')))))) := by
  simp only [parseElement, pure_bind, bind_ok_iff, Prod.exists]
  constructor
  · rintro ⟨c, s1, hp, h⟩
    refine ⟨c, s1, hp, ?_⟩
    by_cases hc : c = '<'
    · subst hc
      simp only [bne_self_eq_false, Bool.false_eq_true, if_false, pure_bind, bind_ok_iff, Prod.exists] at h
      obtain ⟨c1, s2, hn, c2, s3, hp2, h⟩ := h
      refine Or.inr ⟨rfl, c1, s2, c2, s3, hn, hp2, ?_⟩
      by_cases hc2 : c2 = '!'
      · subst hc2
        simp only [beq_self_eq_true, if_true] at h
        by_cases hd : isNext "!DOCTYPE ".toList s3 = true
        · rw [if_pos hd] at h
          simp [throw, throwThe, MonadExceptOf.throw, bind, Except.bind] at h
        · have hd' : isNext "!DOCTYPE ".toList s3 = false := by simpa using hd
          simp only [hd', Bool.false_eq_true, if_false, pure_bind, bind_ok_iff, pure, Except.pure,
            Except.ok.injEq, Prod.mk.injEq] at h
          obtain ⟨s4, hc, rfl, rfl⟩ := h
          exact Or.inl ⟨rfl, hd', hc, rfl⟩
      · have hc2' : (c2 == '!') = false := by simpa using hc2
        simp only [hc2', Bool.false_eq_true, if_false, pure_bind, bind_ok_iff, Prod.exists] at h
        obtain ⟨el, s4, ho, c3, s5, hn2, h⟩ := h
        refine Or.inr ⟨hc2, el, s4, c3, s5, ho, hn2, ?_⟩
        by_cases hc3 : c3 = '/'
        · subst hc3
          simp only [beq_self_eq_true, if_true, pure_bind, bind_ok_iff, pure, Except.pure,
            Except.ok.injEq, Prod.mk.injEq] at h
          obtain ⟨s6, he, rfl, rfl⟩ := h
          exact Or.inl ⟨rfl, he, rfl⟩
        · have hc3' : (c3 == '/') = false := by simpa using hc3
          by_cases hc4 : c3 = '>'
          · subst hc4
            simp only [hc3', Bool.false_eq_true, if_false, beq_self_eq_true, if_true, pure_bind, bind_ok_iff,
              Prod.exists, pure, Except.pure, Except.ok.injEq, Prod.mk.injEq] at h
            obtain ⟨el', s6, hl, s7, he, s8, he2, rfl, rfl⟩ := h
            exact Or.inr ⟨rfl, el', s6, s7, hl, he, he2, rfl⟩
          · have hc4' : (c3 == '>') = false := by simpa using hc4
            simp [hc3', hc4', throw, throwThe, MonadExceptOf.throw, bind, Except.bind] at h
    · have hc' : (c != '<') = true := by simpa using hc
      simp only [hc', if_true, pure_bind, bind_ok_iff, Prod.exists, pure, Except.pure, Except.ok.injEq,
        Prod.mk.injEq] at h
      obtain ⟨text, s2, ht, rfl, rfl⟩ := h
      exact Or.inl ⟨hc, text, ht, rfl⟩
  · rintro ⟨c, s1, hp, h⟩
    refine ⟨c, s1, hp, ?_⟩
    rcases h with ⟨hc, text, ht, rfl⟩ | ⟨rfl, c1, s2, c2, s3, hn, hp2, h⟩
    · have hc' : (c != '<') = true := by simpa using hc
      simp only [hc', if_true, pure_bind, bind_ok_iff, Prod.exists, pure, Except.pure, Except.ok.injEq,
        Prod.mk.injEq]
      exact ⟨text, r, ht, by simp [decodeEntities]⟩
    · simp only [bne_self_eq_false, Bool.false_eq_true, if_false, pure_bind, bind_ok_iff, Prod.exists]
      refine ⟨c1, s2, hn, c2, s3, hp2, ?_⟩
      rcases h with ⟨rfl, hd, hc, rfl⟩ | ⟨hc2, el, s4, c3, s5, ho, hn2, h⟩
      · simp only [beq_self_eq_true, if_true, hd, Bool.false_eq_true, if_false, pure_bind, bind_ok_iff,
          pure, Except.pure, Except.ok.injEq, Prod.mk.injEq]
        exact ⟨r, hc, by simp⟩
      · have hc2' : (c2 == '!') = false := by simpa using hc2
        simp only [hc2', Bool.false_eq_true, if_false, pure_bind, bind_ok_iff, Prod.exists]
        refine ⟨el, s4, ho, c3, s5, hn2, ?_⟩
        rcases h with ⟨rfl, he, rfl⟩ | ⟨rfl, el', s6, s7, hl, he, he2, rfl⟩
        · simp only [beq_self_eq_true, if_true, pure_bind, bind_ok_iff, pure, Except.pure,
            Except.ok.injEq, Prod.mk.injEq]
          exact ⟨r, he, by simp⟩
        · have hc3' : ('>' == '/') = false := by decide
          simp only [hc3', Bool.false_eq_true, if_false, beq_self_eq_true, if_true, pure_bind, bind_ok_iff,
            Prod.exists, pure, Except.pure, Except.ok.injEq, Prod.mk.injEq]
          exact ⟨el', s6, hl, s7, he, r, he2, by simp⟩

theorem parseXMLName_ok_iff (s name r : Str) :
    parseXMLName s = .ok (name, r) ↔ ∃ c s1, peek false s = .ok (c, s1) ∧
      is_xml_identifier_start c = true ∧ s1.span is_xml_identifier_part = (name, r) := by
  simp only [parseXMLName, bind_ok_iff, Prod.exists]
  constructor
  · rintro ⟨c, s1, hp, h⟩
    by_cases hc : is_xml_identifier_start c = true
    · simp only [hc, Bool.not_true, Bool.false_eq_true, if_false, pure_bind] at h
      exact ⟨c, s1, hp, hc, by simpa [pure, Except.pure] using h⟩
    · have hc' : is_xml_identifier_start c = false := by simpa using hc
      simp [hc', throw, throwThe, MonadExceptOf.throw, bind, Except.bind] at h
  · rintro ⟨c, s1, hp, hc, h⟩
    refine ⟨c, s1, hp, ?_⟩
    simp only [hc, Bool.not_true, Bool.false_eq_true, if_false, pure_bind]
    simpa [pure, Except.pure] using h

theorem parseOpenTagLoop_ok_iff (fuel : Nat) (node : Node) (s : Str) (result : Node) (r : Str) :
    parseOpenTagLoop (fuel + 1) node s = .ok (result, r) ↔
      ∃ c s1, peek false (skipWhitespace false s) = .ok (c, s1) ∧
        (((c = '/' ∨ c = '>' ∨ c = '?') ∧ result = node ∧ r = s1) ∨
         (¬ (c = '/' ∨ c = '>' ∨ c = '?') ∧ ∃ attrname s2 c2 s3,
            parseXMLName s1 = .ok (attrname, s2) ∧
            peek false (skipWhitespace false s2) = .ok (c2, s3) ∧
            ((c2 ≠ '=' ∧
                parseOpenTagLoop fuel (node.set attrname []) s3 = .ok (result, r)) ∨
             (c2 = '=' ∧ ∃ c3 s4 quote s5 attrtext s6, nextChar s3 = .ok (c3, s4) ∧
                peek false (skipWhitespace false s4) = .ok (quote, s5) ∧
                (quote = '\'' ∨ quote = '"') ∧
                parseString quote true (skip 1 s5) = .ok (attrtext, s6) ∧
                parseOpenTagLoop fuel (node.set attrname attrtext) s6 = .ok (result, r))))) := by
  simp only [parseOpenTagLoop, bind_ok_iff, Prod.exists]
  constructor
  · rintro ⟨c, s1, hp, h⟩
    refine ⟨c, s1, hp, ?_⟩
    by_cases hc : (c = '/' ∨ c = '>' ∨ c = '?')
    · have hc' : (c == '/' || c == '>' || c == '?') = true := by
        rcases hc with rfl | rfl | rfl <;> decide
      simp only [hc', if_true, pure, Except.pure, Except.ok.injEq, Prod.mk.injEq] at h
      exact Or.inl ⟨hc, h.1.symm, h.2.symm⟩
    · have hc' : (c == '/' || c == '>' || c == '?') = false := by
        simp only [not_or] at hc
        simp [hc.1, hc.2.1, hc.2.2]
      simp only [hc', Bool.false_eq_true, if_false, pure_bind, bind_ok_iff, Prod.exists] at h
      obtain ⟨attrname, s2, hx, c2, s3, hp2, h⟩ := h
      refine Or.inr ⟨hc, attrname, s2, c2, s3, hx, hp2, ?_⟩
      by_cases hc2 : c2 = '='
      · subst hc2
        simp only [beq_self_eq_true, if_true, bind_ok_iff, Prod.exists] at h
        obtain ⟨c3, s4, hn, quote, s5, hp3, h⟩ := h
        by_cases hq : (quote = '\'' ∨ quote = '"')
        · have hq' : (quote != '\'' && quote != '"') = false := by
            rcases hq with rfl | rfl <;> decide
          simp only [hq', Bool.false_eq_true, if_false, pure_bind, bind_ok_iff, Prod.exists] at h
          obtain ⟨attrtext, s6, hs, h⟩ := h
          exact Or.inr ⟨rfl, c3, s4, quote, s5, attrtext, s6, hn, hp3, hq, hs, h⟩
        · have hq' : (quote != '\'' && quote != '"') = true := by
            simpa [not_or] using hq
          simp [hq', throw, throwThe, MonadExceptOf.throw, bind, Except.bind] at h
      · have hc2' : (c2 == '=') = false := by simpa using hc2
        simp only [hc2', Bool.false_eq_true, if_false] at h
        exact Or.inl ⟨hc2, h⟩
  · rintro ⟨c, s1, hp, h⟩
    refine ⟨c, s1, hp, ?_⟩
    rcases h with ⟨hc, rfl, rfl⟩ | ⟨hc, attrname, s2, c2, s3, hx, hp2, h⟩
    · have hc' : (c == '/' || c == '>' || c == '?') = true := by
        rcases hc with rfl | rfl | rfl <;> decide
      simp only [hc', if_true, pure, Except.pure]
    · have hc' : (c == '/' || c == '>' || c == '?') = false := by
        simp only [not_or] at hc
        simp [hc.1, hc.2.1, hc.2.2]
      simp only [hc', Bool.false_eq_true, if_false, pure_bind, bind_ok_iff, Prod.exists]
      refine ⟨attrname, s2, hx, c2, s3, hp2, ?_⟩
      rcases h with ⟨hc2, h⟩ | ⟨rfl, c3, s4, quote, s5, attrtext, s6, hn, hp3, hq, hs, h⟩
      · have hc2' : (c2 == '=') = false := by simpa using hc2
        simp only [hc2', Bool.false_eq_true, if_false]
        exact h
      · simp only [beq_self_eq_true, if_true, bind_ok_iff, Prod.exists]
        refine ⟨c3, s4, hn, quote, s5, hp3, ?_⟩
        have hq' : (quote != '\'' && quote != '"') = false := by
          rcases hq with rfl | rfl <;> decide
        simp only [hq', Bool.false_eq_true, if_false, pure_bind, bind_ok_iff, Prod.exists]
        exact ⟨attrtext, s6, hs, h⟩

theorem dropWhile_eq_cons {p : Char → Bool} {l rest : Str} {c : Char}
    (h : l.dropWhile p = c :: rest) : p c = false := by
  induction l with
  | nil => cases h
  | cons d l ih =>
    by_cases hd : p d = true
    · rw [List.dropWhile_cons, if_pos hd] at h
      exact ih h
    · rw [List.dropWhile_cons, if_neg hd] at h
      cases h
      simpa using hd

theorem peek_ok {s s1 : Str} {c : Char} (h : peek false s = .ok (c, s1)) :
    ∃ rest, s1 = c :: rest ∧ skipWhitespace false s = c :: rest ∧ is_whitespace c = false := by
  simp only [peek] at h
  cases hs : skipWhitespace false s with
  | nil => simp [hs] at h
  | cons d rest =>
    simp only [hs, Except.ok.injEq, Prod.mk.injEq] at h
    obtain ⟨rfl, rfl⟩ := h
    refine ⟨rest, rfl, rfl, ?_⟩
    simp only [skipWhitespace, Bool.false_eq_true, if_false] at hs
    exact dropWhile_eq_cons hs

theorem parseXMLName_isXmlName {s name r : Str} (h : parseXMLName s = .ok (name, r)) :
    isXmlName name = true := by
  obtain ⟨c, s1, hp, hc, hspan⟩ := (parseXMLName_ok_iff s name r).1 h
  obtain ⟨rest, rfl, -, -⟩ := peek_ok hp
  have hpart := xml_start_is_part c hc
  rw [List.span_eq_take_drop, List.takeWhile_cons, List.dropWhile_cons] at hspan
  simp only [hpart, if_true, Prod.mk.injEq] at hspan
  rw [← hspan.1]
  simp only [isXmlName, hc, Bool.true_and, List.all_eq_true]
  intro x hx
  exact List.mem_takeWhile_imp hx

theorem parseOpenTagLoop_tag (fuel : Nat) : ∀ (node : Node) (s : Str) (result : Node) (r : Str),
    parseOpenTagLoop fuel node s = .ok (result, r) →
      result.getTag = node.getTag ∧ result.getElements = node.getElements := by
  induction fuel with
  | zero => intro node s result r h; simp [parseOpenTagLoop] at h
  | succ fuel ih =>
    intro node s result r h
    obtain ⟨c, s1, -, h⟩ := (parseOpenTagLoop_ok_iff fuel node s result r).1 h
    rcases h with ⟨-, rfl, -⟩ | ⟨-, attrname, s2, c2, s3, -, -, h⟩
    · exact ⟨rfl, rfl⟩
    · rcases h with ⟨-, h⟩ | ⟨-, c3, s4, quote, s5, attrtext, s6, -, -, -, -, h⟩
      · have := ih _ _ _ _ h
        exact ⟨this.1, this.2⟩
      · have := ih _ _ _ _ h
        exact ⟨this.1, this.2⟩

theorem parseOpenTag_tag {s r : Str} {element : Node} (h : parseOpenTag s = .ok (element, r)) :
    isXmlName element.getTag = true ∧ element.getElements = [] := by
  simp only [parseOpenTag, bind_ok_iff, Prod.exists] at h
  obtain ⟨tag, s1, hx, hl⟩ := h
  have := parseOpenTagLoop_tag _ _ _ _ _ hl
  rw [this.1, this.2]
  exact ⟨parseXMLName_isXmlName hx, rfl⟩

theorem parseElementLoop_tag (fuel : Nat) : ∀ (element : Node) (s : Str) (result : Node) (r : Str),
    parseElementLoop fuel element s = .ok (result, r) →
      result.getTag = element.getTag ∧ result.getAttributes = element.getAttributes := by
  induction fuel with
  | zero => intro element s result r h; simp [parseElementLoop] at h
  | succ fuel ih =>
    intro element s result r h
    rcases (parseElementLoop_ok_iff fuel element s result r).1 h with
      ⟨-, rfl, -⟩ | ⟨-, sub, s1, -, h⟩
    · exact ⟨rfl, rfl⟩
    · have := ih _ _ _ _ h
      cases sub with
      | none => exact this
      | some x => exact this

/-- The two kinds of node `parseElement` returns: a text pseudo-node, tagged `#`
with its text under `#` and no children, or an element whose tag is an XML
name. -/
theorem parseElement_node_kind {fuel : Nat} {s r : Str} {node : Node}
    (h : parseElement fuel s = .ok (some node, r)) :
    (∃ text, node = .mk "#".toList [⟨"#".toList, text⟩] []) ∨ isXmlName node.getTag = true := by
  cases fuel with
  | zero => simp [parseElement] at h
  | succ fuel =>
    obtain ⟨c, s1, -, h⟩ := (parseElement_ok_iff fuel s (some node) r).1 h
    rcases h with ⟨-, text, -, hres⟩ | ⟨-, c1, s2, c2, s3, -, -, h⟩
    · left
      refine ⟨decodeEntities text, ?_⟩
      simp only [Option.some.injEq] at hres
      rw [hres]
      rfl
    · right
      rcases h with ⟨-, -, -, hres⟩ | ⟨-, el, s4, c3, s5, ho, -, h⟩
      · cases hres
      · rcases h with ⟨-, -, hres⟩ | ⟨-, el', s6, s7, hl, -, -, hres⟩
        · simp only [Option.some.injEq] at hres
          rw [hres]; exact (parseOpenTag_tag ho).1
        · simp only [Option.some.injEq] at hres
          rw [hres, (parseElementLoop_tag _ _ _ _ _ hl).1]
          exact (parseOpenTag_tag ho).1

theorem parseRootLoop_ok (fuel : Nat) : ∀ (s : Str) (root : Node) (r : Str),
    parseRootLoop fuel s = .ok (root, r) → ∃ fuel' s', parseElement fuel' s' = .ok (some root, r) := by
  induction fuel with
  | zero => intro s root r h; simp [parseRootLoop] at h
  | succ fuel ih =>
    intro s root r h
    simp only [parseRootLoop, bind_ok_iff, Prod.exists] at h
    obtain ⟨res, s1, hp, h⟩ := h
    cases res with
    | none => exact ih _ _ _ h
    | some x =>
      simp only [pure, Except.pure, Except.ok.injEq, Prod.mk.injEq] at h
      obtain ⟨rfl, rfl⟩ := h
      exact ⟨_, _, hp⟩

theorem parse_ok {source : Str} {document : Document} (h : parse source = .ok document) :
    ∃ d s root r, parseDeclaration source = .ok (d, s) ∧
      parseRootLoop (s.length + 1) s = .ok (root, r) ∧ document = d.setRoot root := by
  simp only [parse, bind_ok_iff, Prod.exists, pure, Except.pure, Except.ok.injEq] at h
  obtain ⟨d, s, hd, root, r, hr, rfl⟩ := h
  exact ⟨d, s, root, r, hd, hr, rfl⟩

theorem isXmlName_ne_hash {tag : Str} (h : isXmlName tag = true) : tag ≠ "#".toList := by
  rintro rfl
  revert h
  decide

/-- C11 (counterexample). After a declaration the first construct is a text
run: `xml::parse` succeeds and the root is the text pseudo-node. -/
theorem parse_text_root :
    parse "<?xml version=\"1.0\"?>text".toList =
      .ok ⟨"1.0".toList, "UTF-8".toList,
        some (.mk "#".toList [⟨"#".toList, "text".toList⟩] [])⟩ := by
  decide

/-- C11 (amended). For every source on which `xml::parse` succeeds the root of
the document is not null, and it is either a real element, whose tag is a
non-empty XML name and not the sentinel `#`, or a text pseudo-node (tag `#`,
its text under the attribute `#`, no children), which is what the first
construct that is not a comment gives when it is a text run. -/
theorem parse_root_kind (source : Str) (document : Document)
    (h : parse source = .ok document) :
    ∃ root, document.root = some root ∧
      ((isXmlName root.getTag = true ∧ root.getTag ≠ [] ∧ root.getTag ≠ "#".toList ∧
          root.isText = false) ∨
        ∃ text, root = .mk "#".toList [⟨"#".toList, text⟩] []) := by
  obtain ⟨d, s, root, r, -, hr, rfl⟩ := parse_ok h
  obtain ⟨fuel', s', hp⟩ := parseRootLoop_ok _ _ _ _ hr
  refine ⟨root, rfl, ?_⟩
  rcases parseElement_node_kind hp with ht | hn
  · exact Or.inr ht
  · left
    have hne := isXmlName_ne_hash hn
    refine ⟨hn, ?_, hne, ?_⟩
    · rintro e; rw [e] at hn; cases hn
    · simpa [Node.isText] using hne

theorem parse_root_kind_witness :
    parse "<!--c--><a x=\"1\">t</a>".toList =
      .ok ⟨"1.0".toList, "UTF-8".toList,
        some (.mk "a".toList [⟨"x".toList, "1".toList⟩]
          [.mk "#".toList [⟨"#".toList, "t".toList⟩] []])⟩ ∧
    ∃ root, (Document.mk "1.0".toList "UTF-8".toList
        (some (.mk "a".toList [⟨"x".toList, "1".toList⟩]
          [.mk "#".toList [⟨"#".toList, "t".toList⟩] []]))).root = some root ∧
      ((isXmlName root.getTag = true ∧ root.getTag ≠ [] ∧ root.getTag ≠ "#".toList ∧
          root.isText = false) ∨
        ∃ text, root = .mk "#".toList [⟨"#".toList, text⟩] []) :=
  ⟨by decide, parse_root_kind "<!--c--><a x=\"1\">t</a>".toList _ (by decide)⟩

/-! ## `<!DOCTYPE` where an element is expected -/

theorem parseElement_doctype (rest : Str) :
    ∃ msg, ∀ fuel, parseElement (fuel + 1) ("<!DOCTYPE".toList ++ rest) = .error (.parsing msg) := by
  have hp1 : peek false ('<' :: '!' :: ("DOCTYPE".toList ++ rest)) =
      .ok ('<', '<' :: '!' :: ("DOCTYPE".toList ++ rest)) := peek_cons_of_not _ _ (by decide)
  have hp2 : peek false ('!' :: ("DOCTYPE".toList ++ rest)) =
      .ok ('!', '!' :: ("DOCTYPE".toList ++ rest)) := peek_cons_of_not _ _ (by decide)
  have hc : parseComment ('!' :: ("DOCTYPE".toList ++ rest)) =
      .error (.parsing ("\"" ++ String.mk "!--".toList ++ "\" expected")) := by
    simp [parseComment, expectStr, List.isPrefixOf, bind, Except.bind]
  by_cases hd : isNext "!DOCTYPE ".toList ('!' :: ("DOCTYPE".toList ++ rest)) = true
  · refine ⟨"XML DTD is not supported yet", fun fuel => ?_⟩
    rw [show "<!DOCTYPE".toList ++ rest = '<' :: '!' :: ("DOCTYPE".toList ++ rest) from rfl]
    simp only [parseElement, hp1, hp2, nextChar, bind, Except.bind, bne_self_eq_false,
      Bool.false_eq_true, if_false, beq_self_eq_true, if_true, hd, throw, throwThe,
      MonadExceptOf.throw, pure, Except.pure]
  · refine ⟨"\"" ++ String.mk "!--".toList ++ "\" expected", fun fuel => ?_⟩
    have hd' : isNext "!DOCTYPE ".toList ('!' :: ("DOCTYPE".toList ++ rest)) = false := by
      simpa using hd
    rw [show "<!DOCTYPE".toList ++ rest = '<' :: '!' :: ("DOCTYPE".toList ++ rest) from rfl]
    simp only [parseElement, hp1, hp2, nextChar, bind, Except.bind, bne_self_eq_false,
      Bool.false_eq_true, if_false, beq_self_eq_true, if_true, hd', hc, throw, throwThe,
      MonadExceptOf.throw, pure, Except.pure]

theorem renderAll_head (cs : List Content) (tail : Str) (h : startsWithMarkup cs = true)
    (ht : tail.head? = some '<') : (renderAll cs ++ tail).head? = some '<' := by
  cases cs with
  | nil => exact ht
  | cons c cs =>
    cases c with
    | element tag attrs body => simp [renderAll, Content.render]
    | comment body => simp [renderAll, Content.render]
    | text raw => simp [startsWithMarkup] at h
    | space ws => simp [startsWithMarkup] at h

/-- The child loop on well-formed children followed by anything that starts
with `<`: the children are read and the loop goes on at what follows, with fuel
left. -/
theorem parseElementLoop_prefix (cs : List Content) : ∀ (fuel m : Nat) (element : Node)
    (tail : Str), wellFormedAll cs = true → depthAll cs ≤ fuel → tail.head? = some '<' →
    ∃ k, 1 ≤ k ∧
      parseElementLoop (fuel + m) element (skipWhitespace false (renderAll cs ++ tail)) =
        parseElementLoop (k + m)
          (.mk element.getTag element.getAttributes (element.getElements ++ nodesOf cs))
          (skipWhitespace false tail) := by
  induction cs with
  | nil =>
    intro fuel m element tail _ hd _
    simp only [depthAll] at hd
    exact ⟨fuel, hd, by simp [renderAll, nodesOf, Node.eta]⟩
  | cons c cs ihcs =>
    intro fuel m element tail hwf hd ht
    simp only [wellFormedAll, Bool.and_eq_true] at hwf
    obtain ⟨⟨hc, hfollow⟩, hcs⟩ := hwf
    by_cases hsp : ∃ ws, c = .space ws
    · obtain ⟨ws, rfl⟩ := hsp
      simp only [Content.wellFormed, List.all_eq_true] at hc
      simp only [depthAll] at hd
      obtain ⟨k, hk, h⟩ := ihcs fuel m element tail hcs hd ht
      refine ⟨k, hk, ?_⟩
      simp only [renderAll, Content.render, List.append_assoc, nodesOf, Content.node?]
      rw [skipWhitespace_append_all ws _ hc]
      exact h
    · have hns : ∀ ws, c ≠ .space ws := fun ws e => hsp ⟨ws, e⟩
      have hd' : c.depth ≤ fuel - 1 ∧ depthAll cs ≤ fuel - 1 ∧ 1 ≤ fuel := by
        have := depthAll_pos cs
        cases c with
        | space ws => exact absurd rfl (hns ws)
        | element _ _ _ => simp only [depthAll] at hd; omega
        | text _ => simp only [depthAll] at hd; omega
        | comment _ => simp only [depthAll] at hd; omega
      obtain ⟨f, rfl⟩ : ∃ f, fuel = f + 1 := ⟨fuel - 1, by omega⟩
      simp only [Nat.add_sub_cancel] at hd'
      have hctx : c.standsBefore (renderAll cs ++ tail) = true := by
        cases c with
        | space ws => exact absurd rfl (hns ws)
        | element _ _ _ => rfl
        | text _ =>
          have := renderAll_head cs tail hfollow ht
          simp [Content.standsBefore, this]
        | comment _ => rfl
      have hhead := render_head c (renderAll cs ++ tail) hc hns
      have hpe := (parse_render_aux (f + m)).1 c (renderAll cs ++ tail) hc (by omega) hctx
      obtain ⟨k, hk, h⟩ := ihcs f m (c.node?.elim element (fun x => element.add x)) tail hcs
        hd'.2.1 ht
      refine ⟨k, hk, ?_⟩
      simp only [renderAll, List.append_assoc]
      rw [hhead.1, show f + 1 + m = (f + m) + 1 by omega,
        parseElementLoop_step (f + m) element _ _ _ hhead.2 hpe, h]
      cases hnode : c.node? with
      | none => simp [nodesOf, hnode]
      | some node => simp [nodesOf, hnode, Node.add, Node.getTag, Node.getAttributes,
          Node.getElements]

theorem openBodies_head (frames : List (Str × List Attribute × List Content)) (y : Char)
    (t : Str) (hframes : ∀ f ∈ frames, isXmlName f.1 = true)
    (hy : y ≠ '/' ∧ y ≠ '?' ∧ is_whitespace y = false) :
    ∃ y' t', openBodies frames ++ '<' :: y :: t = '<' :: y' :: t' ∧
      (y' ≠ '/' ∧ y' ≠ '?' ∧ is_whitespace y' = false) := by
  cases frames with
  | nil => exact ⟨y, t, rfl, hy⟩
  | cons f frames =>
    obtain ⟨tag, attrs, before⟩ := f
    obtain ⟨c, cs, hcs, hstart, -⟩ := isXmlName_cons (hframes (tag, attrs, before) (by simp))
    simp only at hcs
    refine ⟨c, cs ++ (renderAttrs attrs ++ '>' :: (renderAll before ++
      (openBodies frames ++ '<' :: y :: t))), by simp [openBodies, hcs], ?_, ?_, ?_⟩
    · exact ne_of_pred_false hstart (by decide)
    · exact ne_of_pred_false hstart (by decide)
    · exact xml_part_not_whitespace c (xml_start_is_part c hstart)

/-- An error of `parseElement` at a place inside a run of open elements, after
well-formed children, is the error of the whole. -/
theorem parseElement_openBodies (frames : List (Str × List Attribute × List Content))
    (y : Char) (t : Str) (e : Error)
    (hframes : ∀ f ∈ frames, isXmlName f.1 = true ∧ (∀ a ∈ f.2.1, isXmlName a.name = true) ∧
      (f.2.1.map (fun a => a.name)).Nodup ∧ wellFormedAll f.2.2 = true)
    (hy : y ≠ '/' ∧ y ≠ '?' ∧ is_whitespace y = false)
    (h : ∀ fuel, parseElement (fuel + 1) ('<' :: y :: t) = .error e) :
    ∀ fuel, depthBodies frames ≤ fuel →
      parseElement fuel (openBodies frames ++ '<' :: y :: t) = .error e := by
  induction frames with
  | nil =>
    intro fuel hd
    simp only [depthBodies] at hd
    obtain ⟨f, rfl⟩ : ∃ f, fuel = f + 1 := ⟨fuel - 1, by omega⟩
    exact h f
  | cons f frames ih =>
    intro fuel hd
    obtain ⟨tag, attrs, before⟩ := f
    have hf := hframes (tag, attrs, before) (by simp)
    have hframes' : ∀ f ∈ frames, isXmlName f.1 = true ∧
        (∀ a ∈ f.2.1, isXmlName a.name = true) ∧
        (f.2.1.map (fun a => a.name)).Nodup ∧ wellFormedAll f.2.2 = true :=
      fun f hm => hframes f (List.mem_cons_of_mem _ hm)
    have hrec := ih hframes'
    simp only [depthBodies] at hd
    obtain ⟨n, rfl⟩ : ∃ n, fuel = n + 1 := ⟨fuel - 1, by omega⟩
    obtain ⟨y', t', hyt, hy'⟩ := openBodies_head frames y t (fun f hm => (hframes' f hm).1) hy
    rw [hyt] at hrec
    obtain ⟨c, cs, hcs, hstart, -⟩ := isXmlName_cons hf.1
    simp only at hcs
    have hp1 : ∀ t, peek false ('<' :: t) = .ok ('<', '<' :: t) :=
      fun t => peek_cons_of_not _ _ (by decide)
    have hp2 : ∀ t, peek false (tag ++ t) = .ok (c, tag ++ t) := by
      intro t
      rw [hcs]
      exact peek_cons_of_not _ _ (xml_part_not_whitespace c (xml_start_is_part c hstart))
    have hc : (c == '!') = false := by
      simpa using ne_of_pred_false hstart (show is_xml_identifier_start '!' = false by decide)
    have ho := parseOpenTag_render tag attrs '>' (renderAll before ++ '<' :: y' :: t') hf.1
      hf.2.1 hf.2.2.1 (Or.inr (Or.inl rfl))
    have hnext : isNext "</".toList ('<' :: y' :: t') = false := by
      simp [isNext, List.isPrefixOf, hy'.1.symm]
    have hsk : skipWhitespace false ('<' :: y' :: t') = '<' :: y' :: t' :=
      skipWhitespace_cons_of_not _ _ (by decide)
    obtain ⟨k, hk, hpre⟩ := parseElementLoop_prefix before (depthAll before)
      (n - depthAll before) (Node.mk tag attrs []) ('<' :: y' :: t') hf.2.2.2 (le_refl _) rfl
    rw [show depthAll before + (n - depthAll before) = n by omega, hsk] at hpre
    obtain ⟨j, hj⟩ : ∃ j, k + (n - depthAll before) = j + 1 :=
      ⟨k + (n - depthAll before) - 1, by omega⟩
    have hinner := hrec j (by omega)
    have hloop : parseElementLoop n (Node.mk tag attrs [])
        (skipWhitespace false (renderAll before ++ '<' :: y' :: t')) = .error e := by
      rw [hpre, hj]
      simp only [parseElementLoop, hnext, Bool.false_eq_true, if_false, hinner, bind,
        Except.bind]
    simp only [openBodies, List.cons_append, List.append_assoc, hyt, parseElement, hp1, bind,
      Except.bind, nextChar, hp2, hc, ho, pure, Except.pure]
    simp [hloop]

theorem depthBodies_le (frames : List (Str × List Attribute × List Content)) (inner : Str)
    (hframes : ∀ f ∈ frames, isXmlName f.1 = true ∧ wellFormedAll f.2.2 = true) :
    depthBodies frames ≤ 2 * (openBodies frames ++ inner).length + 2 := by
  induction frames with
  | nil => simp [depthBodies]
  | cons f frames ih =>
    obtain ⟨tag, attrs, before⟩ := f
    have hf := hframes (tag, attrs, before) (by simp)
    have := ih (fun f hm => hframes f (List.mem_cons_of_mem _ hm))
    have hb := depthAll_le_render before hf.2
    simp only [depthBodies, openBodies, List.length_cons, List.length_append] at this ⊢
    omega

theorem parseElement_skipWhitespace (fuel : Nat) (s : Str) :
    parseElement fuel (skipWhitespace false s) = parseElement fuel s := by
  cases fuel with
  | zero => rfl
  | succ fuel => simp only [parseElement, peek_skipWhitespace]

theorem length_skipWhitespace_le (s : Str) : (skipWhitespace false s).length ≤ s.length := by
  simp only [skipWhitespace, Bool.false_eq_true, if_false]
  exact length_dropWhile_le _ _

theorem prolog_head (pre : List Content) (y : Char) (t : Str) (hpre : isProlog pre = true)
    (hwf : wellFormedAll pre = true) (hy : y ≠ '/' ∧ y ≠ '?' ∧ is_whitespace y = false) :
    ∃ y' t', skipWhitespace false (renderAll pre ++ '<' :: y :: t) = '<' :: y' :: t' ∧
      (y' ≠ '/' ∧ y' ≠ '?' ∧ is_whitespace y' = false) := by
  induction pre with
  | nil => exact ⟨y, t, skipWhitespace_cons_of_not _ _ (by decide), hy⟩
  | cons c pre ih =>
    simp only [wellFormedAll, Bool.and_eq_true] at hwf
    have hpre' : isProlog pre = true := by
      simp only [isProlog, List.all_cons, Bool.and_eq_true] at hpre ⊢
      exact hpre.2
    cases c with
    | element _ _ _ => simp [isProlog] at hpre
    | text _ => simp [isProlog] at hpre
    | comment body =>
      exact ⟨'!', _, skipWhitespace_cons_of_not _ _ (by decide), by decide, by decide, by decide⟩
    | space ws =>
      have hws : ∀ c ∈ ws, is_whitespace c = true := by
        simpa [Content.wellFormed] using hwf.1.1
      obtain ⟨y', t', h, hy'⟩ := ih hpre' hwf.2
      refine ⟨y', t', ?_, hy'⟩
      simp only [renderAll, Content.render, List.append_assoc]
      rw [skipWhitespace_append_all ws _ hws]
      exact h

/-- The root loop on comments and whitespace followed by a construct on which
`parseElement` fails: the loop fails with the same error. -/
theorem parseRootLoop_prolog (pre : List Content) (x : Str) (e : Error)
    (hx : skipWhitespace false x = x)
    (h : ∀ fuel, 2 * x.length + 2 ≤ fuel → parseElement fuel x = .error e) :
    isProlog pre = true → wellFormedAll pre = true →
    ∀ (s : Str) (n : Nat), skipWhitespace false s = skipWhitespace false (renderAll pre ++ x) →
      (skipWhitespace false s).length + 1 ≤ n → parseRootLoop n s = .error e := by
  induction pre with
  | nil =>
    intro _ _ s n hs hn
    obtain ⟨n', rfl⟩ : ∃ n', n = n' + 1 := ⟨n - 1, by omega⟩
    rw [show renderAll [] ++ x = x from rfl, hx] at hs
    have hlen := length_skipWhitespace_le s
    have hpe : parseElement (2 * s.length + 2) s = .error e := by
      rw [← parseElement_skipWhitespace, hs]
      exact h _ (by rw [hs] at hlen; omega)
    simp only [parseRootLoop, hpe, bind, Except.bind]
  | cons c pre ih =>
    intro hpre hwf s n hs hn
    simp only [wellFormedAll, Bool.and_eq_true] at hwf
    have hpre' : isProlog pre = true := by
      simp only [isProlog, List.all_cons, Bool.and_eq_true] at hpre ⊢
      exact hpre.2
    cases c with
    | element _ _ _ => simp [isProlog] at hpre
    | text _ => simp [isProlog] at hpre
    | space ws =>
      have hws : ∀ c ∈ ws, is_whitespace c = true := by
        simpa [Content.wellFormed] using hwf.1.1
      refine ih hpre' hwf.2 s n ?_ hn
      rw [hs]
      simp only [renderAll, Content.render, List.append_assoc]
      exact skipWhitespace_append_all ws _ hws
    | comment body =>
      have hb : isCommentBody body = true := hwf.1.1
      obtain ⟨n', rfl⟩ : ∃ n', n = n' + 1 := ⟨n - 1, by omega⟩
      have hrender : renderAll (Content.comment body :: pre) ++ x =
          "<!--".toList ++ body ++ "-->".toList ++ (renderAll pre ++ x) := by
        simp [renderAll, Content.render]
      rw [hrender, show "<!--".toList ++ body ++ "-->".toList ++ (renderAll pre ++ x) =
        '<' :: ("!--".toList ++ body ++ "-->".toList ++ (renderAll pre ++ x)) from rfl,
        skipWhitespace_cons_of_not _ _ (by decide)] at hs
      have hpe : parseElement (2 * s.length + 2) s = .ok (none, renderAll pre ++ x) := by
        rw [← parseElement_skipWhitespace, hs]
        exact parseElement_comment (2 * s.length + 1) body (renderAll pre ++ x) hb
      have hrec := ih hpre' hwf.2 (renderAll pre ++ x) n' rfl (by
        have h1 := length_skipWhitespace_le (renderAll pre ++ x)
        rw [hs] at hn
        simp only [List.length_cons, List.length_append] at hn h1
        omega)
      simp only [parseRootLoop, hpe, bind, Except.bind, hrec]

theorem parseDeclaration_none (s : Str) (y : Char) (t : Str)
    (hs : skipWhitespace false s = '<' :: y :: t) (hy : y ≠ '?' ∧ is_whitespace y = false) :
    parseDeclaration s = .ok (Document.new "1.0".toList "UTF-8".toList, '<' :: y :: t) := by
  have hp : peek false s = .ok ('<', '<' :: y :: t) := by simp [peek, hs]
  have hp2 : peek false (y :: t) = .ok (y, y :: t) := peek_cons_of_not _ _ hy.2
  have hq : (y == '?') = false := by simpa using hy.1
  obtain ⟨ws, hsplit⟩ : ∃ ws, s = ws ++ ('<' :: y :: t) := by
    have := List.takeWhile_append_dropWhile is_whitespace s
    simp only [skipWhitespace, Bool.false_eq_true, if_false] at hs
    rw [hs] at this
    exact ⟨_, this.symm⟩
  have hback : goBack s (y :: t) = '<' :: y :: t := by
    have hlen : s.length - (y :: t).length - 1 = ws.length := by
      rw [hsplit]
      simp only [List.length_append, List.length_cons]
      omega
    rw [goBack, hlen, hsplit]
    simp
  simp only [parseDeclaration, expectChar, hp, bind, Except.bind, pure, Except.pure,
    bne_self_eq_false, Bool.false_eq_true, if_false, List.drop_succ_cons, List.drop_zero,
    hp2, hq, hback]

/-- C12. `xml::parse` fails with a parsing error, and returns no document, on
every source in which `<!DOCTYPE` stands where the parser expects an element,
whatever follows it: at top level, after an optional declaration and after
comments and whitespace (before or instead of a root), or inside the body of an
element at any depth, after any well-formed children. With `<!DOCTYPE `
(a blank follows) the error is `XML DTD is not supported yet`; otherwise
`parseComment` fails on `"!--" expected`. -/
theorem parse_fails_on_doctype (decl : Option (List Attribute × Str)) (pre : List Content)
    (frames : List (Str × List Attribute × List Content)) (rest : Str)
    (hdecl : ∀ d ∈ decl, (∀ a ∈ d.1, isXmlName a.name = true) ∧
      (d.1.map (fun a => a.name)).Nodup ∧ ∀ c ∈ d.2, is_whitespace c = true)
    (hpre : isProlog pre = true ∧ wellFormedAll pre = true)
    (hframes : ∀ f ∈ frames, isXmlName f.1 = true ∧ (∀ a ∈ f.2.1, isXmlName a.name = true) ∧
      (f.2.1.map (fun a => a.name)).Nodup ∧ wellFormedAll f.2.2 = true) :
    ∃ msg, parse (decl.elim [] (fun d => declaration d.1 d.2) ++
      (renderAll pre ++ (openBodies frames ++ ("<!DOCTYPE".toList ++ rest)))) =
        .error (.parsing msg) := by
  obtain ⟨msg, hmsg⟩ := parseElement_doctype rest
  have hbang : '!' ≠ '/' ∧ '!' ≠ '?' ∧ is_whitespace '!' = false := by decide
  rw [show "<!DOCTYPE".toList ++ rest = '<' :: '!' :: ("DOCTYPE".toList ++ rest) from rfl]
    at hmsg ⊢
  have hx := parseElement_openBodies frames '!' ("DOCTYPE".toList ++ rest) _ hframes hbang hmsg
  have hlen := depthBodies_le frames ('<' :: '!' :: ("DOCTYPE".toList ++ rest))
    (fun f hm => ⟨(hframes f hm).1, (hframes f hm).2.2.2⟩)
  obtain ⟨y, t, hyt, hy⟩ := openBodies_head frames '!' ("DOCTYPE".toList ++ rest)
    (fun f hm => (hframes f hm).1) hbang
  rw [hyt] at hx hlen ⊢
  have hroot := parseRootLoop_prolog pre ('<' :: y :: t) (.parsing msg)
    (skipWhitespace_cons_of_not _ _ (by decide)) (fun fuel hf => hx fuel (by omega))
    hpre.1 hpre.2
  cases decl with
  | none =>
    obtain ⟨y2, t2, hs, hy2⟩ := prolog_head pre y t hpre.1 hpre.2 hy
    have hd := parseDeclaration_none (renderAll pre ++ '<' :: y :: t) y2 t2 hs ⟨hy2.2.1, hy2.2.2⟩
    have hsk : skipWhitespace false ('<' :: y2 :: t2) = '<' :: y2 :: t2 :=
      skipWhitespace_cons_of_not _ _ (by decide)
    have hr := hroot ('<' :: y2 :: t2) (('<' :: y2 :: t2).length + 1) (by rw [hsk, hs])
      (by rw [hsk])
    refine ⟨msg, ?_⟩
    simp only [Option.elim, List.nil_append, parse, hd, bind, Except.bind, hr]
  | some d =>
    obtain ⟨attrs, ws⟩ := d
    obtain ⟨hnames, hnodup, hws⟩ := hdecl (attrs, ws) rfl
    have hd := parseDeclaration_declaration attrs ws (renderAll pre ++ '<' :: y :: t)
      hnames hnodup hws
    have hr := hroot (renderAll pre ++ '<' :: y :: t)
      ((renderAll pre ++ '<' :: y :: t).length + 1) rfl
      (by have := length_skipWhitespace_le (renderAll pre ++ '<' :: y :: t); omega)
    by_cases henc :
        ((Node.mk "xml".toList attrs []).attrOr "encoding".toList "UTF-8".toList).text
          ≠ "utf-8".toList ∧
        ((Node.mk "xml".toList attrs []).attrOr "encoding".toList "UTF-8".toList).text
          ≠ "UTF-8".toList
    · have hcond : (((Node.mk "xml".toList attrs []).attrOr "encoding".toList
            "UTF-8".toList).text != "utf-8".toList &&
          ((Node.mk "xml".toList attrs []).attrOr "encoding".toList "UTF-8".toList).text
            != "UTF-8".toList) = true := by
        simpa using henc
      rw [hcond, if_pos rfl] at hd
      refine ⟨"UTF-8 encoding is only supported", ?_⟩
      simp only [Option.elim, parse, hd, bind, Except.bind]
    · have hcond : (((Node.mk "xml".toList attrs []).attrOr "encoding".toList
            "UTF-8".toList).text != "utf-8".toList &&
          ((Node.mk "xml".toList attrs []).attrOr "encoding".toList "UTF-8".toList).text
            != "UTF-8".toList) = false := by
        simpa [Bool.and_eq_false_iff, not_and_or] using henc
      rw [hcond, if_neg (by simp)] at hd
      refine ⟨msg, ?_⟩
      simp only [Option.elim, parse, hd, bind, Except.bind, hr]

theorem parse_fails_on_doctype_witness :
    (∀ d ∈ (some ([⟨"version".toList, "1.0".toList⟩], []) : Option (List Attribute × Str)),
      (∀ a ∈ d.1, isXmlName a.name = true) ∧
      (d.1.map (fun a => a.name)).Nodup ∧ ∀ c ∈ d.2, is_whitespace c = true) ∧
    (isProlog [Content.comment "c".toList, Content.space " ".toList] = true ∧
      wellFormedAll [Content.comment "c".toList, Content.space " ".toList] = true) ∧
    (∀ f ∈ [("a".toList, ([] : List Attribute), [Content.element "b".toList [] []])],
      isXmlName f.1 = true ∧ (∀ a ∈ f.2.1, isXmlName a.name = true) ∧
      (f.2.1.map (fun a => a.name)).Nodup ∧ wellFormedAll f.2.2 = true) ∧
    ∃ msg, parse "<?xml version=\"1.0\"?><!--c--> <a><b/><!DOCTYPE>".toList =
      .error (.parsing msg) :=
  ⟨by decide, by decide, by decide,
    parse_fails_on_doctype (some ([⟨"version".toList, "1.0".toList⟩], []))
      [Content.comment "c".toList, Content.space " ".toList]
      [("a".toList, [], [Content.element "b".toList [] []])] ">".toList
      (by decide) (by decide) (by decide)⟩

/-! ## The parser does not look past what it consumes -/

theorem dropWhile_ext {p : Char → Bool} {s r : Str} {c : Char} (t : Str)
    (h : s.dropWhile p = c :: r) : (s ++ t).dropWhile p = c :: (r ++ t) := by
  induction s with
  | nil => cases h
  | cons d s ih =>
    by_cases hd : p d = true
    · rw [List.dropWhile_cons, if_pos hd] at h
      rw [List.cons_append, List.dropWhile_cons, if_pos hd]
      exact ih h
    · rw [List.dropWhile_cons, if_neg hd] at h
      rw [List.cons_append, List.dropWhile_cons, if_neg hd]
      cases h
      rfl

theorem skipWhitespace_ext {s r : Str} {c : Char} (t : Str)
    (h : skipWhitespace false s = c :: r) : skipWhitespace false (s ++ t) = c :: (r ++ t) := by
  simp only [skipWhitespace, Bool.false_eq_true, if_false] at h ⊢
  exact dropWhile_ext t h

theorem peek_ext {s s1 : Str} {c : Char} (t : Str) (h : peek false s = .ok (c, s1)) :
    peek false (s ++ t) = .ok (c, s1 ++ t) := by
  obtain ⟨rest, rfl, hs, -⟩ := peek_ok h
  simp only [peek, skipWhitespace_ext t hs, List.cons_append]

theorem peek_skip_ext {s s1 : Str} {c : Char} (t : Str)
    (h : peek false (skipWhitespace false s) = .ok (c, s1)) :
    peek false (skipWhitespace false (s ++ t)) = .ok (c, s1 ++ t) := by
  rw [peek_skipWhitespace] at h ⊢
  exact peek_ext t h

theorem nextChar_ext {s s1 : Str} {c : Char} (t : Str) (h : nextChar s = .ok (c, s1)) :
    nextChar (s ++ t) = .ok (c, s1 ++ t) := by
  cases s with
  | nil => simp [nextChar] at h
  | cons d s =>
    simp only [nextChar, Except.ok.injEq, Prod.mk.injEq] at h
    obtain ⟨rfl, rfl⟩ := h
    rfl

theorem isPrefixOf_ext {p s : Str} (t : Str) (h : p.isPrefixOf s = true) :
    p.isPrefixOf (s ++ t) = true := by
  rw [List.isPrefixOf_iff_prefix] at h ⊢
  exact h.trans (List.prefix_append s t)

theorem isPrefixOf_length {p s : Str} (h : p.isPrefixOf s = true) : p.length ≤ s.length := by
  rw [List.isPrefixOf_iff_prefix] at h
  exact h.length_le

theorem drop_ext {s : Str} {n : Nat} (t : Str) (h : n ≤ s.length) :
    (s ++ t).drop n = s.drop n ++ t := List.drop_append_of_le_length h

theorem expectStr_ext {p s r : Str} (t : Str) (h : expectStr p s = .ok r) :
    expectStr p (s ++ t) = .ok (r ++ t) := by
  simp only [expectStr] at h ⊢
  by_cases hp : p.isPrefixOf s = true
  · simp only [hp, if_true, Except.ok.injEq] at h
    simp only [isPrefixOf_ext t hp, if_true, drop_ext t (isPrefixOf_length hp), h]
  · simp [hp] at h

theorem expectChar_ext {s r : Str} {c : Char} (t : Str) (h : expectChar false c s = .ok r) :
    expectChar false c (s ++ t) = .ok (r ++ t) := by
  simp only [expectChar, bind_ok_iff, Prod.exists] at h ⊢
  obtain ⟨d, s1, hp, h⟩ := h
  refine ⟨d, s1 ++ t, peek_ext t hp, ?_⟩
  obtain ⟨rest, rfl, -, -⟩ := peek_ok hp
  by_cases hd : d = c
  · subst hd
    simp only [bne_self_eq_false, Bool.false_eq_true, if_false, pure_bind] at h ⊢
    simp only [pure, Except.pure, Except.ok.injEq] at h ⊢
    rw [← h]
    rfl
  · have hd' : (d != c) = true := by simpa using hd
    simp [hd', throw, throwThe, MonadExceptOf.throw, bind, Except.bind] at h

theorem skipTo_ext (p : Str) (hp : p ≠ []) : ∀ (s r : Str) (t : Str),
    skipTo p s = (true, r) → skipTo p (s ++ t) = (true, r ++ t) ∧ p.isPrefixOf r = true := by
  intro s
  induction s with
  | nil =>
    intro r t h
    cases p with
    | nil => exact absurd rfl hp
    | cons a p => simp [skipTo] at h
  | cons c s ih =>
    intro r t h
    by_cases hc : p.isPrefixOf (c :: s) = true
    · rw [skipTo, if_pos hc] at h
      cases h
      have := isPrefixOf_ext t hc
      rw [List.cons_append] at this ⊢
      rw [skipTo, if_pos this]
      exact ⟨rfl, hc⟩
    · rw [skipTo, if_neg hc] at h
      have hlen : ¬ p.isPrefixOf (c :: (s ++ t)) = true := by
        intro hpt
        by_cases hl : p.length ≤ (c :: s).length
        · rw [← List.cons_append, isPrefixOf_append_of_length_le p (c :: s) t hl] at hpt
          exact hc hpt
        · -- the pattern reaches past the end of `c :: s`: `skipTo` would not have found it
          have hnil : ∀ (u : Str), u.length < p.length → (skipTo p u).1 = false := by
            intro u
            induction u with
            | nil =>
              intro hu
              cases p with
              | nil => simp at hu
              | cons a p => rfl
            | cons d u ihu =>
              intro hu
              have hnp : ¬ p.isPrefixOf (d :: u) = true := by
                intro hcon
                have := isPrefixOf_length hcon
                omega
              rw [skipTo, if_neg hnp]
              exact ihu (by simp at hu ⊢; omega)
          have := hnil s (by simp at hl; omega)
          rw [h] at this
          cases this
      rw [List.cons_append, skipTo, if_neg hlen]
      exact ih r t h

theorem parseComment_ext {s r : Str} (t : Str) (h : parseComment s = .ok r) :
    parseComment (s ++ t) = .ok (r ++ t) := by
  simp only [parseComment, bind_ok_iff] at h ⊢
  obtain ⟨s1, he, h⟩ := h
  refine ⟨s1 ++ t, expectStr_ext t he, ?_⟩
  cases hk : skipTo "-->".toList s1 with
  | mk found s2 =>
    rw [hk] at h
    cases found with
    | false => simp [throw, throwThe, MonadExceptOf.throw] at h
    | true =>
      obtain ⟨h1, h2⟩ := skipTo_ext "-->".toList (by decide) s1 s2 t hk
      simp only [if_true, pure, Except.pure, Except.ok.injEq] at h
      simp only [h1, if_true, pure, Except.pure, Except.ok.injEq, skip]
      rw [drop_ext t (show 3 ≤ s2.length from isPrefixOf_length h2), ← h]
      rfl

theorem parseString_ext (quote : Char) (t : Str) : ∀ (n : Nat) (s text r : Str),
    s.length ≤ n → parseString quote true s = .ok (text, r) →
      parseString quote true (s ++ t) = .ok (text, r ++ t) := by
  intro n
  induction n with
  | zero =>
    intro s text r hn h
    cases s with
    | nil => simp [parseString] at h
    | cons c s => simp at hn
  | succ n ih =>
    intro s text r hn h
    cases s with
    | nil => simp [parseString] at h
    | cons c s =>
      rw [parseString.eq_def] at h
      rw [List.cons_append, parseString.eq_def]
      simp only at h ⊢
      by_cases hq : (c == quote) = true
      · simp only [hq, if_true, Except.ok.injEq, Prod.mk.injEq] at h ⊢
        obtain ⟨rfl, rfl⟩ := h
        exact ⟨rfl, rfl⟩
      · simp only [hq, Bool.false_eq_true, if_false] at h ⊢
        by_cases hb : (c == '\\') = true
        · simp only [hb, if_true] at h ⊢
          cases s with
          | nil => simp at h
          | cons e s =>
            simp only [List.cons_append] at h ⊢
            cases hu : unescapeChar e with
            | none => simp [hu] at h
            | some d =>
              simp only [hu] at h ⊢
              cases hrec : parseString quote true s with
              | error err => simp [hrec] at h
              | ok v =>
                obtain ⟨text', r'⟩ := v
                simp only [hrec, Except.ok.injEq, Prod.mk.injEq] at h
                obtain ⟨rfl, rfl⟩ := h
                have := ih s text' r' (by simp at hn; omega) hrec
                simp only [this]
        · simp only [hb, Bool.false_eq_true, if_false] at h ⊢
          by_cases hnl : (c == '\n' && true) = true
          · simp [hnl] at h
          · simp only [hnl, Bool.false_eq_true, if_false] at h ⊢
            cases hrec : parseString quote true s with
            | error err => simp [hrec] at h
            | ok v =>
              obtain ⟨text', r'⟩ := v
              simp only [hrec, Except.ok.injEq, Prod.mk.injEq] at h
              obtain ⟨rfl, rfl⟩ := h
              have := ih s text' r' (by simp at hn; omega) hrec
              simp only [this]

theorem span_ext {p : Char → Bool} {s name r : Str} (t : Str) (h : s.span p = (name, r))
    (hr : r ≠ []) : (s ++ t).span p = (name, r ++ t) := by
  rw [List.span_eq_take_drop] at h ⊢
  simp only [Prod.mk.injEq] at h
  obtain ⟨h1, h2⟩ := h
  cases r with
  | nil => exact absurd rfl hr
  | cons c r =>
    have hd := dropWhile_ext t h2
    have hc := dropWhile_eq_cons h2
    have hsplit := List.takeWhile_append_dropWhile p s
    rw [h1, h2] at hsplit
    have htake : (s ++ t).takeWhile p = name := by
      rw [← hsplit, List.append_assoc]
      have hall : ∀ x ∈ name, p x = true := by
        intro x hx
        rw [← h1] at hx
        exact List.mem_takeWhile_imp hx
      rw [show (c :: r) ++ t = c :: (r ++ t) from rfl]
      exact takeWhile_append_all name (c :: (r ++ t)) hall (by simpa using hc)
    rw [htake, hd]
    rfl

theorem parseXMLName_ext {s name r : Str} (t : Str) (h : parseXMLName s = .ok (name, r))
    (hr : r ≠ []) : parseXMLName (s ++ t) = .ok (name, r ++ t) := by
  obtain ⟨c, s1, hp, hc, hspan⟩ := (parseXMLName_ok_iff s name r).1 h
  exact (parseXMLName_ok_iff _ _ _).2 ⟨c, s1 ++ t, peek_ext t hp, hc, span_ext t hspan hr⟩

theorem peek_nonempty {s s1 : Str} {c : Char} (h : peek false (skipWhitespace false s) = .ok (c, s1)) :
    s ≠ [] := by
  rintro rfl
  simp [peek, skipWhitespace] at h

theorem parseOpenTagLoop_ext (t : Str) (fuel : Nat) : ∀ (node : Node) (s : Str) (result : Node)
    (r : Str) (fuel' : Nat), parseOpenTagLoop fuel node s = .ok (result, r) → fuel ≤ fuel' →
      parseOpenTagLoop fuel' node (s ++ t) = .ok (result, r ++ t) := by
  induction fuel with
  | zero => intro node s result r fuel' h; simp [parseOpenTagLoop] at h
  | succ fuel ih =>
    intro node s result r fuel' h hf
    obtain ⟨f', rfl⟩ : ∃ f', fuel' = f' + 1 := ⟨fuel' - 1, by omega⟩
    obtain ⟨c, s1, hp, h⟩ := (parseOpenTagLoop_ok_iff fuel node s result r).1 h
    refine (parseOpenTagLoop_ok_iff f' node (s ++ t) result (r ++ t)).2
      ⟨c, s1 ++ t, peek_skip_ext t hp, ?_⟩
    rcases h with ⟨hc, rfl, rfl⟩ | ⟨hc, attrname, s2, c2, s3, hx, hp2, h⟩
    · exact Or.inl ⟨hc, rfl, rfl⟩
    · refine Or.inr ⟨hc, attrname, s2 ++ t, c2, s3 ++ t,
        parseXMLName_ext t hx (peek_nonempty hp2), peek_skip_ext t hp2, ?_⟩
      rcases h with ⟨hc2, h⟩ | ⟨hc2, c3, s4, quote, s5, attrtext, s6, hn, hp3, hq, hs, h⟩
      · exact Or.inl ⟨hc2, ih _ _ _ _ f' h (by omega)⟩
      · refine Or.inr ⟨hc2, c3, s4 ++ t, quote, s5 ++ t, attrtext, s6 ++ t, nextChar_ext t hn,
          peek_skip_ext t hp3, hq, ?_, ih _ _ _ _ f' h (by omega)⟩
        obtain ⟨rest, rfl, -, -⟩ := peek_ok hp3
        exact parseString_ext quote t _ _ _ _ (le_refl _) hs

theorem parseOpenTagLoop_nonempty {fuel : Nat} {node result : Node} {s r : Str}
    (h : parseOpenTagLoop fuel node s = .ok (result, r)) : s ≠ [] := by
  cases fuel with
  | zero => simp [parseOpenTagLoop] at h
  | succ fuel =>
    obtain ⟨c, s1, hp, -⟩ := (parseOpenTagLoop_ok_iff fuel node s result r).1 h
    exact peek_nonempty hp

theorem parseOpenTag_ext {s r : Str} {element : Node} (t : Str)
    (h : parseOpenTag s = .ok (element, r)) : parseOpenTag (s ++ t) = .ok (element, r ++ t) := by
  simp only [parseOpenTag, bind_ok_iff, Prod.exists] at h ⊢
  obtain ⟨tag, s1, hx, hl⟩ := h
  exact ⟨tag, s1 ++ t, parseXMLName_ext t hx (parseOpenTagLoop_nonempty hl),
    parseOpenTagLoop_ext t _ _ _ _ _ _ hl (by simp)⟩

theorem parseTextLoop_ext (t : Str) (fuel : Nat) : ∀ (s r : Str) (fuel' : Nat),
    parseTextLoop fuel s = .ok r → r ≠ [] → fuel ≤ fuel' →
      parseTextLoop fuel' (s ++ t) = .ok (r ++ t) ∧ r.length ≤ s.length := by
  induction fuel with
  | zero => intro s r fuel' h; simp [parseTextLoop] at h
  | succ fuel ih =>
    intro s r fuel' h hr hf
    obtain ⟨f', rfl⟩ : ∃ f', fuel' = f' + 1 := ⟨fuel' - 1, by omega⟩
    cases s with
    | nil =>
      simp only [parseTextLoop, hasNext, List.isEmpty_nil, Bool.not_true, Bool.false_eq_true,
        if_false, pure, Except.pure, Except.ok.injEq] at h
      exact absurd h.symm hr
    | cons d s =>
      have hn : hasNext (d :: s) = true := rfl
      have hn' : hasNext (d :: s ++ t) = true := rfl
      rw [parseTextLoop, if_pos hn] at h
      rw [parseTextLoop, if_pos hn']
      simp only [bind_ok_iff, Prod.exists] at h ⊢
      obtain ⟨c, s1, hp, h⟩ := h
      refine ⟨?_, ?_⟩
      · refine ⟨c, s1 ++ t, peek_ext t hp, ?_⟩
        by_cases hc : (c == '<') = true
        · simp only [hc, if_true, pure, Except.pure, Except.ok.injEq] at h ⊢
          rw [h]
        · simp only [hc, Bool.false_eq_true, if_false, pure_bind, bind_ok_iff,
            Prod.exists] at h ⊢
          obtain ⟨c1, s2, hnc, h⟩ := h
          exact ⟨c1, s2 ++ t, nextChar_ext t hnc, (ih s2 r f' h hr (by omega)).1⟩
      · obtain ⟨rest, rfl, hs, -⟩ := peek_ok hp
        have hl := length_skipWhitespace_le (d :: s)
        rw [hs] at hl
        by_cases hc : (c == '<') = true
        · simp only [hc, if_true, pure, Except.pure, Except.ok.injEq] at h
          rw [← h]
          exact hl
        · simp only [hc, Bool.false_eq_true, if_false, pure_bind, bind_ok_iff,
            Prod.exists] at h
          obtain ⟨c1, s2, hnc, h⟩ := h
          simp only [nextChar, Except.ok.injEq, Prod.mk.injEq] at hnc
          have := (ih s2 r f' h hr (by omega)).2
          rw [← hnc.2] at this
          simp only [List.length_cons] at hl ⊢
          omega

theorem parseText_ext {s text r : Str} (t : Str) (h : parseText s = .ok (text, r)) (hr : r ≠ []) :
    parseText (s ++ t) = .ok (text, r ++ t) := by
  simp only [parseText, bind_ok_iff, Prod.exists, pure, Except.pure, Except.ok.injEq,
    Prod.mk.injEq] at h ⊢
  obtain ⟨s1, hl, text', rest, hs, rfl, rfl⟩ := h
  obtain ⟨hl', hlen⟩ := parseTextLoop_ext t _ s s1 ((s ++ t).length + 1) hl hr (by simp)
  refine ⟨s1 ++ t, hl', text', rest, ?_, rfl, rfl⟩
  have e : (s ++ t).length - (s1 ++ t).length = s.length - s1.length := by
    simp only [List.length_append]; omega
  rw [e, List.take_append_of_le_length (by omega)]
  exact hs

theorem parseElement_nonempty {fuel : Nat} {s r : Str} {res : Option Node}
    (h : parseElement fuel s = .ok (res, r)) : skipWhitespace false s ≠ [] := by
  cases fuel with
  | zero => simp [parseElement] at h
  | succ fuel =>
    obtain ⟨c, s1, hp, -⟩ := (parseElement_ok_iff fuel s res r).1 h
    obtain ⟨rest, -, hs, -⟩ := peek_ok hp
    rw [hs]
    exact List.cons_ne_nil _ _

theorem parseElementLoop_nonempty {fuel : Nat} {element result : Node} {s r : Str}
    (h : parseElementLoop fuel element s = .ok (result, r)) : s ≠ [] := by
  cases fuel with
  | zero => simp [parseElementLoop] at h
  | succ fuel =>
    rcases (parseElementLoop_ok_iff fuel element s result r).1 h with
      ⟨hn, -, -⟩ | ⟨-, sub, s1, hp, -⟩
    · rintro rfl
      simp [isNext, List.isPrefixOf] at hn
    · have := parseElement_nonempty hp
      rintro rfl
      exact this rfl

theorem parseElementLoop_closes (fuel : Nat) : ∀ (element result : Node) (s r : Str),
    parseElementLoop fuel element s = .ok (result, r) → isNext "</".toList r = true := by
  induction fuel with
  | zero => intro element result s r h; simp [parseElementLoop] at h
  | succ fuel ih =>
    intro element result s r h
    rcases (parseElementLoop_ok_iff fuel element s result r).1 h with
      ⟨hn, -, rfl⟩ | ⟨-, sub, s1, -, hl⟩
    · exact hn
    · exact ih _ _ _ _ hl

theorem parseElement_lt_fails (fuel : Nat) (res : Option Node) (r : Str) :
    parseElement fuel ['<'] ≠ .ok (res, r) := by
  intro h
  cases fuel with
  | zero => simp [parseElement] at h
  | succ fuel =>
    obtain ⟨c, s1, hp, h⟩ := (parseElement_ok_iff fuel _ res r).1 h
    have hp' : peek false ['<'] = .ok ('<', ['<']) := by decide
    rw [hp'] at hp
    simp only [Except.ok.injEq, Prod.mk.injEq] at hp
    obtain ⟨rfl, rfl⟩ := hp
    rcases h with ⟨hc, -⟩ | ⟨-, c1, s2, c2, s3, hn, hp2, -⟩
    · exact hc rfl
    · simp only [nextChar, Except.ok.injEq, Prod.mk.injEq] at hn
      rw [← hn.2] at hp2
      simp [peek, skipWhitespace] at hp2

theorem isNext_close_ext {fuel : Nat} {s r : Str} {res : Option Node} (t : Str)
    (hn : isNext "</".toList s = false) (h : parseElement fuel s = .ok (res, r)) :
    isNext "</".toList (s ++ t) = false := by
  cases s with
  | nil => exact absurd (by simp [skipWhitespace]) (parseElement_nonempty h)
  | cons a s =>
    cases s with
    | nil =>
      by_cases ha : a = '<'
      · subst ha
        exact absurd h (parseElement_lt_fails fuel res r)
      · simp [isNext, List.isPrefixOf, Ne.symm ha]
    | cons b s =>
      simp only [isNext] at hn ⊢
      rw [isPrefixOf_append_of_length_le _ _ _ (by simp)]
      exact hn

theorem isNext_doctype_ext {s r : Str} (t : Str) (h : parseComment s = .ok r) :
    isNext "!DOCTYPE ".toList (s ++ t) = false := by
  simp only [parseComment, bind_ok_iff] at h
  obtain ⟨s1, he, -⟩ := h
  by_cases hp : "!--".toList.isPrefixOf s = true
  · obtain ⟨u, rfl⟩ := List.isPrefixOf_iff_prefix.1 hp
    simp [isNext, List.isPrefixOf]
  · simp only [expectStr, hp, Bool.false_eq_true, if_false] at he
    cases he

theorem parseElement_ext (t : Str) (fuel : Nat) :
    (∀ (s : Str) (res : Option Node) (r : Str) (fuel' : Nat),
      parseElement fuel s = .ok (res, r) →
      ((skipWhitespace false s).head? = some '<' ∨ r ≠ []) → fuel ≤ fuel' →
      parseElement fuel' (s ++ t) = .ok (res, r ++ t)) ∧
    (∀ (element : Node) (s : Str) (result : Node) (r : Str) (fuel' : Nat),
      parseElementLoop fuel element s = .ok (result, r) → fuel ≤ fuel' →
      parseElementLoop fuel' element (s ++ t) = .ok (result, r ++ t)) := by
  induction fuel with
  | zero =>
    constructor
    · intro s res r fuel' h; simp [parseElement] at h
    · intro element s result r fuel' h; simp [parseElementLoop] at h
  | succ fuel ih =>
    constructor
    · intro s res r fuel' h hcond hf
      obtain ⟨f', rfl⟩ : ∃ f', fuel' = f' + 1 := ⟨fuel' - 1, by omega⟩
      obtain ⟨c, s1, hp, h⟩ := (parseElement_ok_iff fuel s res r).1 h
      refine (parseElement_ok_iff f' (s ++ t) res (r ++ t)).2 ⟨c, s1 ++ t, peek_ext t hp, ?_⟩
      rcases h with ⟨hc, text, ht, hres⟩ | ⟨hc, c1, s2, c2, s3, hn, hp2, h⟩
      · have hr : r ≠ [] := by
          rcases hcond with hh | hh
          · obtain ⟨rest, -, hs, -⟩ := peek_ok hp
            rw [hs] at hh
            simp only [List.head?_cons, Option.some.injEq] at hh
            exact absurd hh hc
          · exact hh
        exact Or.inl ⟨hc, text, parseText_ext t ht hr, hres⟩
      · refine Or.inr ⟨hc, c1, s2 ++ t, c2, s3 ++ t, nextChar_ext t hn, peek_ext t hp2, ?_⟩
        rcases h with ⟨hc2, hd, hcm, hres⟩ | ⟨hc2, el, s4, c3, s5, ho, hn2, h⟩
        · exact Or.inl ⟨hc2, isNext_doctype_ext t hcm, parseComment_ext t hcm, hres⟩
        · refine Or.inr ⟨hc2, el, s4 ++ t, c3, s5 ++ t, parseOpenTag_ext t ho,
            nextChar_ext t hn2, ?_⟩
          rcases h with ⟨hc3, he, hres⟩ | ⟨hc3, el', s6, s7, hl, he, he2, hres⟩
          · exact Or.inl ⟨hc3, expectChar_ext t he, hres⟩
          · refine Or.inr ⟨hc3, el', s6 ++ t, s7 ++ t, ?_, ?_, expectChar_ext t he2, hres⟩
            · have hne := parseElementLoop_nonempty hl
              cases hsk : skipWhitespace false s5 with
              | nil => exact absurd hsk hne
              | cons x xs =>
                rw [skipWhitespace_ext t hsk, ← List.cons_append, ← hsk]
                exact ih.2 _ _ _ _ f' hl (by omega)
            · have hcl := isPrefixOf_length (parseElementLoop_closes _ _ _ _ _ hl)
              rw [skip, drop_ext t (show 2 ≤ s6.length from hcl)]
              exact expectStr_ext t he
    · intro element s result r fuel' h hf
      obtain ⟨f', rfl⟩ : ∃ f', fuel' = f' + 1 := ⟨fuel' - 1, by omega⟩
      rcases (parseElementLoop_ok_iff fuel element s result r).1 h with
        ⟨hn, rfl, rfl⟩ | ⟨hn, sub, s1, hp, hl⟩
      · exact (parseElementLoop_ok_iff f' _ _ _ _).2 (Or.inl ⟨isPrefixOf_ext t hn, rfl, rfl⟩)
      · have hne := parseElementLoop_nonempty hl
        have hs1 : s1 ≠ [] := by
          rintro rfl
          exact hne rfl
        refine (parseElementLoop_ok_iff f' _ _ _ _).2 (Or.inr ⟨isNext_close_ext t hn hp,
          sub, s1 ++ t, ih.1 _ _ _ f' hp (Or.inr hs1) (by omega), ?_⟩)
        cases hsk : skipWhitespace false s1 with
        | nil => exact absurd hsk hne
        | cons x xs =>
          rw [skipWhitespace_ext t hsk, ← List.cons_append, ← hsk]
          exact ih.2 _ _ _ _ f' hl (by omega)

theorem parseElement_starts_markup {fuel : Nat} {s r : Str} {res : Option Node}
    (h : parseElement fuel s = .ok (res, r)) (hres : ∀ node, res = some node → node.isText = false) :
    (skipWhitespace false s).head? = some '<' := by
  cases fuel with
  | zero => simp [parseElement] at h
  | succ fuel =>
    obtain ⟨c, s1, hp, h⟩ := (parseElement_ok_iff fuel s res r).1 h
    obtain ⟨rest, -, hs, -⟩ := peek_ok hp
    rcases h with ⟨-, text, -, rfl⟩ | ⟨rfl, -⟩
    · have := hres _ rfl
      revert this
      simp [Node.isText, Node.set, Node.new, Node.getTag]
    · rw [hs]; rfl

theorem parseRootLoop_ext (t : Str) (n : Nat) : ∀ (s : Str) (root : Node) (r : Str) (n' : Nat),
    parseRootLoop n s = .ok (root, r) → root.isText = false → n ≤ n' →
      parseRootLoop n' (s ++ t) = .ok (root, r ++ t) := by
  induction n with
  | zero => intro s root r n' h; simp [parseRootLoop] at h
  | succ n ih =>
    intro s root r n' h hroot hn
    obtain ⟨m, rfl⟩ : ∃ m, n' = m + 1 := ⟨n' - 1, by omega⟩
    simp only [parseRootLoop, bind_ok_iff, Prod.exists] at h ⊢
    obtain ⟨res, s1, hp, h⟩ := h
    have hfuel : 2 * s.length + 2 ≤ 2 * (s ++ t).length + 2 := by
      simp only [List.length_append]; omega
    cases res with
    | none =>
      have hext := (parseElement_ext t _).1 s none s1 _ hp
        (Or.inl (parseElement_starts_markup hp (fun _ e => by cases e))) hfuel
      exact ⟨none, s1 ++ t, hext, ih _ _ _ m h hroot (by omega)⟩
    | some x =>
      simp only [pure, Except.pure, Except.ok.injEq, Prod.mk.injEq] at h
      obtain ⟨rfl, rfl⟩ := h
      have hext := (parseElement_ext t _).1 s (some x) s1 _ hp
        (Or.inl (parseElement_starts_markup hp (fun _ e => by cases e; exact hroot))) hfuel
      exact ⟨some x, s1 ++ t, hext, rfl⟩

theorem goBack_ext (source s t : Str) : goBack (source ++ t) (s ++ t) = goBack source s ++ t := by
  simp only [goBack, List.length_append]
  rw [show source.length + t.length - (s.length + t.length) - 1 = source.length - s.length - 1
    by omega]
  exact drop_ext t (by omega)

theorem parseDeclaration_ext {source s : Str} {document : Document} (t : Str)
    (h : parseDeclaration source = .ok (document, s)) :
    parseDeclaration (source ++ t) = .ok (document, s ++ t) := by
  simp only [parseDeclaration, bind_ok_iff, Prod.exists] at h ⊢
  obtain ⟨s1, he, c, s2, hp, h⟩ := h
  refine ⟨s1 ++ t, expectChar_ext t he, c, s2 ++ t, peek_ext t hp, ?_⟩
  by_cases hc : (c == '?') = true
  · simp only [hc, if_true, bind_ok_iff, Prod.exists] at h ⊢
    obtain ⟨c1, s3, hn, node, s4, ho, s5, hx, h⟩ := h
    refine ⟨c1, s3 ++ t, nextChar_ext t hn, node, s4 ++ t, parseOpenTag_ext t ho, s5 ++ t,
      expectStr_ext t hx, ?_⟩
    by_cases htag : (node.getTag != "xml".toList) = true
    · rw [if_pos htag] at h
      simp [throw, throwThe, MonadExceptOf.throw, bind, Except.bind] at h
    · simp only [htag, Bool.false_eq_true, if_false, pure_bind] at h ⊢
      by_cases henc : ((node.attrOr "encoding".toList "UTF-8".toList).text != "utf-8".toList &&
          (node.attrOr "encoding".toList "UTF-8".toList).text != "UTF-8".toList) = true
      · rw [if_pos henc] at h
        simp [throw, throwThe, MonadExceptOf.throw, bind, Except.bind] at h
      · simp only [henc, Bool.false_eq_true, if_false, pure_bind, pure, Except.pure,
          Except.ok.injEq, Prod.mk.injEq] at h ⊢
        exact ⟨h.1, by rw [← h.2]⟩
  · simp only [hc, Bool.false_eq_true, if_false, pure, Except.pure, Except.ok.injEq,
      Prod.mk.injEq] at h ⊢
    exact ⟨h.1, by rw [← h.2, goBack_ext]⟩

/-- C13. For every source `s` on which `xml::parse` succeeds with a root that
is an element (not a text pseudo-node) and for every text `t`, `xml::parse` on
`s` followed by `t` succeeds as well and returns the same document: what stands
after the `>` that closes the root is neither consumed nor validated. -/
theorem parse_ignores_trailing (s t : Str) (document : Document) (root : Node)
    (h : parse s = .ok document) (hroot : document.root = some root)
    (helem : root.isText = false) : parse (s ++ t) = .ok document := by
  obtain ⟨d, s0, root', r, hd, hr, rfl⟩ := parse_ok h
  have e : root' = root := by simpa [Document.setRoot] using hroot
  subst e
  have hd' := parseDeclaration_ext t hd
  have hr' := parseRootLoop_ext t _ s0 root' r ((s0 ++ t).length + 1) hr helem
    (by simp only [List.length_append]; omega)
  simp only [parse, hd', hr', bind, Except.bind, pure, Except.pure]

theorem parse_ignores_trailing_witness :
    parse "<a><b/></a>".toList =
      .ok ⟨"1.0".toList, "UTF-8".toList, some (.mk "a".toList [] [.mk "b".toList [] []])⟩ ∧
    (Node.mk "a".toList [] [.mk "b".toList [] []]).isText = false ∧
    parse ("<a><b/></a>".toList ++ "</a> <<".toList) =
      .ok ⟨"1.0".toList, "UTF-8".toList, some (.mk "a".toList [] [.mk "b".toList [] []])⟩ :=
  ⟨by decide, by decide,
    parse_ignores_trailing "<a><b/></a>".toList "</a> <<".toList _
      (.mk "a".toList [] [.mk "b".toList [] []]) (by decide) rfl (by decide)⟩

/-! ## Escaping then decoding; pretty-printing -/

theorem entityOf_no_markup (c x : Char) (hx : x ∈ entityOf c) :
    x ≠ '<' ∧ x ≠ '>' ∧ x ≠ '"' ∧ x ≠ '\'' := by
  unfold entityOf at hx
  split_ifs at hx with a1 a2 a3 a4 a5
  · revert x; decide
  · revert x; decide
  · revert x; decide
  · revert x; decide
  · revert x; decide
  · simp only [List.mem_singleton] at hx
    subst hx
    exact ⟨a4, a5, a2, a3⟩

/-- C21. For every string `t`, the escaping the serializer applies to the text
of a text node (`&`, `"`, `'`, `<`, `>` replaced in that order by their
entities), followed by the substitution the parser applies to a text run
(`&quot;`, `&apos;`, `&lt;`, `&gt;`, `&amp;` replaced in that order), gives `t`
back; and the escaped string holds none of `<`, `>`, `"`, `'`. The two chains
are the ones of the source: the serializer writes `escapeText` of the text of a
text node, and the parser stores `decodeEntities` of the text run it read. -/
theorem decode_escape (t : Str) :
    decodeEntities (escapeText t) = t ∧
    ('<' ∉ escapeText t ∧ '>' ∉ escapeText t ∧ '"' ∉ escapeText t ∧ '\'' ∉ escapeText t) ∧
    (∀ nice indentStr indent,
      stringifyElement nice indentStr (.mk "#".toList [⟨"#".toList, t⟩] []) indent =
        .ok (escapeText t)) ∧
    (∀ fuel s c s1 r, peek false s = .ok (c, s1) → c ≠ '<' →
      parseText s1 = .ok (escapeText t, r) →
      parseElement (fuel + 1) s = .ok (some (.mk "#".toList [⟨"#".toList, t⟩] []), r)) := by
  have hmem : ∀ x ∈ escapeText t, x ≠ '<' ∧ x ≠ '>' ∧ x ≠ '"' ∧ x ≠ '\'' := by
    intro x hx
    rw [escapeText_eq] at hx
    obtain ⟨c, -, hc⟩ := List.mem_flatMap.1 hx
    exact entityOf_no_markup c x hc
  refine ⟨decodeEntities_escapeText t, ⟨fun h => (hmem _ h).1 rfl, fun h => (hmem _ h).2.1 rfl,
    fun h => (hmem _ h).2.2.1 rfl, fun h => (hmem _ h).2.2.2 rfl⟩, ?_, ?_⟩
  · intro nice indentStr indent
    rw [stringifyElement_textNode _ _ _ _ (show (Node.mk "#".toList [⟨"#".toList, t⟩] []).isText = true from rfl)]
    rfl
  · intro fuel s c s1 r hp hc ht
    refine (parseElement_ok_iff fuel s _ r).2 ⟨c, s1, hp, Or.inl ⟨hc, escapeText t, ht, ?_⟩⟩
    rw [decodeEntities_escapeText]
    rfl

/-- C22. With pretty-printing enabled and the indent string `s`, `xml::stringify`
writes one line feed after the declaration and then the root at depth 0; and
the rendering at depth `d` of every node that is neither self-closing nor an
element with a single inlined text child is its open tag, then every child,
rendered at depth `d + 1` and preceded by a line feed and exactly `d + 1`
copies of `s`, then a line feed, exactly `d` copies of `s` and the closing
tag. -/
theorem stringify_pretty (s : Str) :
    (∀ document root, document.root = some root →
      stringify document true s =
        (stringifyElement true s root 0).map (fun body =>
          "<?xml version=\"".toList ++ document.version ++ "\" encoding=\"UTF-8\" ?>".toList
            ++ '\n' :: body)) ∧
    (∀ tag attrs first others d rs,
      (Node.mk tag attrs (first :: others)).isText = false →
      (others.isEmpty && first.isText) = false →
      List.Forall₂ (fun c r => stringifyElement true s c (d + 1) = .ok r) (first :: others) rs →
      stringifyElement true s (.mk tag attrs (first :: others)) d =
        .ok ('<' :: tag ++ renderAttrs attrs
          ++ '>' :: (rs.map (fun r => '\n' :: (List.replicate (d + 1) s).flatten ++ r)).flatten
          ++ '\n' :: (List.replicate d s).flatten ++ '<' :: '/' :: tag ++ ['>'])) := by
  constructor
  · intro document root hr
    simp only [stringify, hr, bind, Except.bind, pure, Except.pure, Except.map]
    cases stringifyElement true s root 0 <;> simp [newline]
  · intro tag attrs first others d rs h hone hrs
    rw [stringifyElement_nested _ _ _ _ _ _ _ h hone, stringifyElements_all _ _ _ _ _ hrs]
    simp [Except.map, newline]

/-! ## The nodes of a parsed document -/

theorem nodesBelow_append (xs ys : List Node) :
    nodesBelow (xs ++ ys) = nodesBelow xs ++ nodesBelow ys := by
  induction xs with
  | nil => rfl
  | cons x xs ih => simp [nodesBelow, ih]

theorem Node.nodes_eq (node : Node) : node.nodes = node :: nodesBelow node.getElements := by
  cases node; rfl

theorem wellTagged_textNode (text : Str) :
    (Node.mk "#".toList [⟨"#".toList, text⟩] []).wellTagged = true := by
  simp [Node.wellTagged, Node.getTag, Node.has, Node.getAttributes, Node.getElements, mapFind]

theorem wellTagged_of_isXmlName {node : Node} (h : isXmlName node.getTag = true) :
    node.wellTagged = true := by
  have hne : (node.getTag == "#".toList) = false := by
    simpa using isXmlName_ne_hash h
  simp only [Node.wellTagged, hne, Bool.false_eq_true, if_false, h]

theorem parseElement_wellTagged (fuel : Nat) :
    (∀ (s : Str) (node : Node) (r : Str), parseElement fuel s = .ok (some node, r) →
      ∀ m ∈ node.nodes, m.wellTagged = true) ∧
    (∀ (element : Node) (s : Str) (result : Node) (r : Str),
      parseElementLoop fuel element s = .ok (result, r) →
      (∀ m ∈ nodesBelow element.getElements, m.wellTagged = true) →
      ∀ m ∈ nodesBelow result.getElements, m.wellTagged = true) := by
  induction fuel with
  | zero =>
    constructor
    · intro s node r h; simp [parseElement] at h
    · intro element s result r h; simp [parseElementLoop] at h
  | succ fuel ih =>
    constructor
    · intro s node r h
      obtain ⟨c, s1, -, h⟩ := (parseElement_ok_iff fuel s (some node) r).1 h
      rcases h with ⟨-, text, -, hres⟩ | ⟨-, c1, s2, c2, s3, -, -, h⟩
      · simp only [Option.some.injEq] at hres
        subst hres
        intro m hm
        have : m = Node.mk "#".toList [⟨"#".toList, decodeEntities text⟩] [] := by
          simpa [Node.nodes, nodesBelow, Node.set, Node.new, Node.getTag, Node.getAttributes,
            Node.getElements, mapAssign] using hm
        rw [this]
        exact wellTagged_textNode _
      · rcases h with ⟨-, -, -, hres⟩ | ⟨-, el, s4, c3, s5, ho, -, h⟩
        · cases hres
        · have hel := parseOpenTag_tag ho
          rcases h with ⟨-, -, hres⟩ | ⟨-, el', s6, s7, hl, -, -, hres⟩
          · simp only [Option.some.injEq] at hres
            subst hres
            intro m hm
            rw [Node.nodes_eq, hel.2] at hm
            simp only [nodesBelow, List.mem_singleton] at hm
            rw [hm]
            exact wellTagged_of_isXmlName hel.1
          · simp only [Option.some.injEq] at hres
            subst hres
            have htag := (parseElementLoop_tag _ _ _ _ _ hl).1
            have hbelow := ih.2 _ _ _ _ hl (by rw [hel.2]; intro m hm; simp [nodesBelow] at hm)
            intro m hm
            rw [Node.nodes_eq] at hm
            rcases List.mem_cons.1 hm with e | e
            · rw [e]
              exact wellTagged_of_isXmlName (by rw [htag]; exact hel.1)
            · exact hbelow m e
    · intro element s result r h helem
      rcases (parseElementLoop_ok_iff fuel element s result r).1 h with
        ⟨-, rfl, -⟩ | ⟨-, sub, s1, hp, hl⟩
      · exact helem
      · refine ih.2 _ _ _ _ hl ?_
        cases sub with
        | none => exact helem
        | some x =>
          have hx := ih.1 _ _ _ hp
          intro m hm
          simp only [Option.elim, Node.add, Node.getElements, nodesBelow_append, nodesBelow,
            List.append_nil, List.mem_append] at hm
          rcases hm with e | e
          · exact helem m e
          · exact hx m e

mutual
theorem stringifyElement_wellTagged (nice : Bool) (indentStr : Str) (node : Node) (indent : Nat)
    (h : ∀ m ∈ node.nodes, m.wellTagged = true) :
    ∃ out, stringifyElement nice indentStr node indent = .ok out := by
  cases node with
  | mk tag attrs elements =>
    have hself := h (Node.mk tag attrs elements) (by simp [Node.nodes])
    by_cases htext : (Node.mk tag attrs elements).isText = true
    · have htag : ((Node.mk tag attrs elements).getTag == "#".toList) = true := htext
      simp only [Node.wellTagged, htag, if_true, Bool.and_eq_true, Node.has] at hself
      rw [stringifyElement_textNode _ _ _ _ htext]
      simp only [Node.attr]
      cases hf : mapFind (Node.mk tag attrs elements).getAttributes "#".toList with
      | none => rw [hf] at hself; simp at hself
      | some a => exact ⟨_, rfl⟩
    · have htext' : (Node.mk tag attrs elements).isText = false := by simpa using htext
      cases elements with
      | nil => exact ⟨_, stringifyElement_leaf _ _ _ _ _ htext'⟩
      | cons first others =>
        have hbelow : ∀ m ∈ nodesBelow (first :: others), m.wellTagged = true :=
          fun m hm => h m (by simp only [Node.nodes]; exact List.mem_cons_of_mem _ hm)
        by_cases hone : (others.isEmpty && first.isText) = true
        · simp only [Bool.and_eq_true, List.isEmpty_iff] at hone
          obtain ⟨ho, hf⟩ := hone
          subst ho
          have hfirst : first.wellTagged = true :=
            hbelow first (by rw [nodesBelow, Node.nodes_eq]; simp)
          have htag : (first.getTag == "#".toList) = true := hf
          simp only [Node.wellTagged, htag, if_true, Bool.and_eq_true, Node.has] at hfirst
          rw [stringifyElement_inline _ _ _ _ _ _ htext' hf]
          simp only [Node.attr]
          cases hfind : mapFind first.getAttributes "#".toList with
          | none => rw [hfind] at hfirst; simp at hfirst
          | some a => exact ⟨_, rfl⟩
        · have hone' : (others.isEmpty && first.isText) = false := by simpa using hone
          obtain ⟨inner, hinner⟩ := stringifyElements_wellTagged nice indentStr
            (first :: others) (indent + 1) hbelow
          rw [stringifyElement_nested _ _ _ _ _ _ _ htext' hone', hinner]
          exact ⟨_, rfl⟩
theorem stringifyElements_wellTagged (nice : Bool) (indentStr : Str) (es : List Node)
    (indent : Nat) (h : ∀ m ∈ nodesBelow es, m.wellTagged = true) :
    ∃ out, stringifyElements nice indentStr es indent = .ok out := by
  cases es with
  | nil => exact ⟨_, rfl⟩
  | cons e rest =>
    obtain ⟨one, hone⟩ := stringifyElement_wellTagged nice indentStr e indent
      (fun m hm => h m (by simp only [nodesBelow, List.mem_append]; exact Or.inl hm))
    obtain ⟨more, hmore⟩ := stringifyElements_wellTagged nice indentStr rest indent
      (fun m hm => h m (by simp only [nodesBelow, List.mem_append]; exact Or.inr hm))
    exact ⟨newline nice indentStr indent ++ one ++ more, by
      simp only [stringifyElements, hone, hmore, bind, Except.bind, pure, Except.pure]⟩
end

/-- C24. In every document `xml::parse` returns, the root is not null, every
node tagged `#` (the root or any node below it) has an attribute named `#` and
no children, and every other node has a tag that is a non-empty XML name, hence
not `#`; so `xml::stringify` succeeds on the document, with and without
pretty-printing. On a node tagged `#` without the attribute `#` the serializer
fails: `element.attr("#")` throws. -/
theorem parse_nodes_wellTagged (source : Str) (document : Document)
    (h : parse source = .ok document) :
    (∃ root, document.root = some root ∧
      ∀ m ∈ root.nodes,
        (m.getTag = "#".toList → m.has "#".toList = true ∧ m.getElements = []) ∧
        (m.getTag ≠ "#".toList → isXmlName m.getTag = true ∧ m.getTag ≠ [])) ∧
    (∀ nice indentStr, ∃ out, stringify document nice indentStr = .ok out) ∧
    (∀ attrs elements nice indentStr indent, mapFind attrs "#".toList = none →
      stringifyElement nice indentStr (.mk "#".toList attrs elements) indent =
        .error (.runtime "element <# ...> missing attribute #")) := by
  obtain ⟨d, s, root, r, -, hr, rfl⟩ := parse_ok h
  obtain ⟨fuel', s', hp⟩ := parseRootLoop_ok _ _ _ _ hr
  have hall := (parseElement_wellTagged fuel').1 _ _ _ hp
  refine ⟨⟨root, rfl, ?_⟩, ?_, ?_⟩
  · intro m hm
    have hw := hall m hm
    constructor
    · intro htag
      have htag' : (m.getTag == "#".toList) = true := by simpa using htag
      simp only [Node.wellTagged, htag', if_true, Bool.and_eq_true, List.isEmpty_iff] at hw
      exact hw
    · intro htag
      have htag' : (m.getTag == "#".toList) = false := by simpa using htag
      simp only [Node.wellTagged, htag', Bool.false_eq_true, if_false] at hw
      refine ⟨hw, ?_⟩
      intro e
      rw [e] at hw
      cases hw
  · intro nice indentStr
    obtain ⟨out, hout⟩ := stringifyElement_wellTagged nice indentStr root 0 hall
    exact ⟨"<?xml version=\"".toList ++ d.version ++ "\" encoding=\"UTF-8\" ?>".toList
      ++ newline nice indentStr 0 ++ out, by
      simp only [stringify, Document.setRoot, hout, bind, Except.bind, pure, Except.pure]⟩
  · intro attrs elements nice indentStr indent hfind
    rw [stringifyElement_textNode _ _ _ _
      (show (Node.mk "#".toList attrs elements).isText = true from rfl)]
    simp only [Node.attr, Node.getAttributes, hfind, Except.map]
    rfl

theorem parse_nodes_wellTagged_witness :
    parse "<a x=\"1\">t<b/></a>".toList =
      .ok ⟨"1.0".toList, "UTF-8".toList,
        some (.mk "a".toList [⟨"x".toList, "1".toList⟩]
          [.mk "#".toList [⟨"#".toList, "t".toList⟩] [], .mk "b".toList [] []])⟩ ∧
    ∀ nice indentStr, ∃ out, stringify ⟨"1.0".toList, "UTF-8".toList,
        some (.mk "a".toList [⟨"x".toList, "1".toList⟩]
          [.mk "#".toList [⟨"#".toList, "t".toList⟩] [], .mk "b".toList [] []])⟩
        nice indentStr = .ok out :=
  ⟨by decide, (parse_nodes_wellTagged "<a x=\"1\">t<b/></a>".toList _ (by decide)).2.1⟩

/-! ## Termination: the recursion bounds suffice -/

theorem Safe.bind {α β : Type} {P : α → Prop} {Q : β → Prop} {m : Except Error α}
    {f : α → Except Error β} (hm : Safe P m) (hf : ∀ a, P a → Safe Q (f a)) :
    Safe Q (m >>= f) := by
  cases m with
  | error e => exact hm
  | ok a => exact hf a hm

theorem Safe.mono {α : Type} {P Q : α → Prop} {m : Except Error α} (hm : Safe P m)
    (h : ∀ a, P a → Q a) : Safe Q m := by
  cases m with
  | error e => exact hm
  | ok a => exact h a hm

theorem Safe.result {α : Type} {P : α → Prop} {m : Except Error α} (hm : Safe P m) :
    (∃ a, m = .ok a ∧ P a) ∨ ∃ msg, m = .error (.parsing msg) := by
  cases m with
  | error e =>
    obtain ⟨msg, rfl⟩ := hm
    exact Or.inr ⟨msg, rfl⟩
  | ok a => exact Or.inl ⟨a, rfl, hm⟩

theorem length_skipWhitespaceHashComment_le (s : Str) :
    ∀ inComment, (skipWhitespaceHashComment inComment s).length ≤ s.length := by
  induction s with
  | nil => intro b; cases b <;> simp [skipWhitespaceHashComment]
  | cons c s ih =>
    intro b
    cases b with
    | true =>
      simp only [skipWhitespaceHashComment]
      split_ifs
      · have := ih false; simp only [List.length_cons]; omega
      · have := ih true; simp only [List.length_cons]; omega
    | false =>
      simp only [skipWhitespaceHashComment]
      split_ifs
      · have := ih false; simp only [List.length_cons]; omega
      · have := ih true; simp only [List.length_cons]; omega
      · exact le_refl _

theorem length_skip_le (hashComment : Bool) (s : Str) :
    (skipWhitespace hashComment s).length ≤ s.length := by
  cases hashComment with
  | false => exact length_skipWhitespace_le s
  | true =>
    simp only [skipWhitespace, if_true]
    exact length_skipWhitespaceHashComment_le s false

theorem peek_safe (hashComment : Bool) (s : Str) :
    Safe (fun x => x.2.length ≤ s.length ∧ ∃ rest, x.2 = x.1 :: rest) (peek hashComment s) := by
  have hl := length_skip_le hashComment s
  simp only [peek]
  cases hs : skipWhitespace hashComment s with
  | nil => exact ⟨_, rfl⟩
  | cons c rest =>
    rw [hs] at hl
    exact ⟨hl, rest, rfl⟩

theorem nextChar_safe (s : Str) :
    Safe (fun x => x.2.length + 1 = s.length) (nextChar s) := by
  cases s with
  | nil => exact ⟨_, rfl⟩
  | cons c rest => exact rfl

theorem expectChar_safe (hashComment : Bool) (c : Char) (s : Str) :
    Safe (fun r => r.length < s.length) (expectChar hashComment c s) := by
  simp only [expectChar]
  refine Safe.bind (peek_safe hashComment s) ?_
  rintro ⟨d, s1⟩ ⟨hl, rest, hr⟩
  simp only at hl hr ⊢
  subst hr
  split_ifs
  · exact ⟨_, rfl⟩
  · show (List.drop 1 (d :: rest)).length < s.length
    simp only [List.length_cons] at hl
    simp only [List.drop_succ_cons, List.drop_zero]
    omega

theorem expectStr_safe (p s : Str) : Safe (fun r => r.length ≤ s.length) (expectStr p s) := by
  simp only [expectStr]
  split_ifs
  · show (List.drop p.length s).length ≤ s.length
    simp
  · exact ⟨_, rfl⟩

theorem parseString_safe (quote : Char) (closeRequired : Bool) : ∀ (n : Nat) (s : Str),
    s.length ≤ n → Safe (fun x => x.2.length ≤ s.length) (parseString quote closeRequired s) := by
  intro n
  induction n with
  | zero =>
    intro s hn
    have : s = [] := List.length_eq_zero.1 (by omega)
    subst this
    rw [parseString.eq_def]
    simp only
    split_ifs
    · exact ⟨_, rfl⟩
    · exact le_refl _
  | succ n ih =>
    intro s hn
    cases s with
    | nil =>
      rw [parseString.eq_def]
      simp only
      split_ifs
      · exact ⟨_, rfl⟩
      · exact le_refl _
    | cons c s =>
      rw [parseString.eq_def]
      simp only
      split_ifs
      · show s.length ≤ (c :: s).length
        simp
      · cases s with
        | nil => exact ⟨_, rfl⟩
        | cons e s =>
          simp only
          cases unescapeChar e with
          | none => exact ⟨_, rfl⟩
          | some d =>
            simp only
            have := ih s (by simp at hn; omega)
            cases hrec : parseString quote closeRequired s with
            | error err => rw [hrec] at this; exact this
            | ok v =>
              rw [hrec] at this
              show v.2.length ≤ (c :: e :: s).length
              have : v.2.length ≤ s.length := this
              simp only [List.length_cons]; omega
      · exact ⟨_, rfl⟩
      · have := ih s (by simp at hn; omega)
        cases hrec : parseString quote closeRequired s with
        | error err => rw [hrec] at this; exact this
        | ok v =>
          rw [hrec] at this
          show v.2.length ≤ (c :: s).length
          have : v.2.length ≤ s.length := this
          simp only [List.length_cons]; omega

theorem length_skipTo_le (p : Str) (s : Str) : (skipTo p s).2.length ≤ s.length := by
  induction s with
  | nil => simp [skipTo]
  | cons c s ih =>
    simp only [skipTo]
    split_ifs
    · exact le_refl _
    · simp only [List.length_cons]; omega

theorem parseComment_safe (s : Str) : Safe (fun r => r.length ≤ s.length) (parseComment s) := by
  simp only [parseComment]
  refine Safe.bind (expectStr_safe _ s) ?_
  intro s1 h1
  have := length_skipTo_le "-->".toList s1
  cases hk : skipTo "-->".toList s1 with
  | mk found s2 =>
    rw [hk] at this
    simp only at this ⊢
    split_ifs
    · show (List.drop 3 s2).length ≤ s.length
      simp only [List.length_drop]; omega
    · exact ⟨_, rfl⟩

theorem length_span_snd_lt {p : Char → Bool} (c : Char) (rest : Str) (h : p c = true) :
    ((c :: rest).span p).2.length < (c :: rest).length := by
  rw [List.span_eq_take_drop]
  simp only [List.dropWhile_cons, h, if_true, List.length_cons]
  have := length_dropWhile_le p rest
  omega

theorem length_span_snd_le {p : Char → Bool} (s : Str) : (s.span p).2.length ≤ s.length := by
  rw [List.span_eq_take_drop]
  exact length_dropWhile_le p s

theorem parseXMLName_safe (s : Str) :
    Safe (fun x => x.2.length < s.length) (parseXMLName s) := by
  simp only [parseXMLName]
  refine Safe.bind (peek_safe false s) ?_
  rintro ⟨c, s1⟩ ⟨hl, rest, hr⟩
  simp only at hl hr ⊢
  subst hr
  by_cases hc : is_xml_identifier_start c = true
  · simp only [hc, Bool.not_true, Bool.false_eq_true, if_false, pure_bind]
    have := length_span_snd_lt c rest (xml_start_is_part c hc)
    show ((c :: rest).span is_xml_identifier_part).2.length < s.length
    omega
  · have hc' : is_xml_identifier_start c = false := by simpa using hc
    simp only [hc', Bool.not_false, if_true]
    exact ⟨_, rfl⟩

theorem parseName_safe (hashComment : Bool) (s : Str) :
    Safe (fun x => x.2.length < s.length) (parseName hashComment s) := by
  simp only [parseName]
  refine Safe.bind (peek_safe hashComment s) ?_
  rintro ⟨c, s1⟩ ⟨hl, rest, hr⟩
  simp only at hl hr ⊢
  subst hr
  by_cases hc : is_identifier_start c = true
  · simp only [hc, Bool.not_true, Bool.false_eq_true, if_false, pure_bind]
    have hpart : is_identifier_part c = true := by simp [is_identifier_part, hc]
    have := length_span_snd_lt c rest hpart
    show ((c :: rest).span is_identifier_part).2.length < s.length
    omega
  · have hc' : is_identifier_start c = false := by simpa using hc
    simp only [hc', Bool.not_false, if_true]
    exact ⟨_, rfl⟩

theorem parseOpenTagLoop_safe (fuel : Nat) : ∀ (node : Node) (s : Str), s.length + 1 ≤ fuel →
    Safe (fun x => x.2.length ≤ s.length) (parseOpenTagLoop fuel node s) := by
  induction fuel with
  | zero => intro node s h; omega
  | succ fuel ih =>
    intro node s hf
    have hsk := length_skip_le false s
    simp only [parseOpenTagLoop]
    refine Safe.bind (peek_safe false _) ?_
    rintro ⟨c, s1⟩ ⟨hl1, -⟩
    simp only at hl1 ⊢
    split_ifs
    · show s1.length ≤ s.length
      omega
    · simp only [pure_bind]
      refine Safe.bind (parseXMLName_safe s1) ?_
      rintro ⟨attrname, s2⟩ hl2
      simp only at hl2 ⊢
      have hsk2 := length_skip_le false s2
      refine Safe.bind (peek_safe false _) ?_
      rintro ⟨c2, s3⟩ ⟨hl3, -⟩
      simp only at hl3 ⊢
      split_ifs
      · refine Safe.bind (nextChar_safe s3) ?_
        rintro ⟨c3, s4⟩ hl4
        simp only at hl4 ⊢
        have hsk4 := length_skip_le false s4
        refine Safe.bind (peek_safe false _) ?_
        rintro ⟨quote, s5⟩ ⟨hl5, -⟩
        simp only at hl5 ⊢
        split_ifs
        · exact ⟨_, rfl⟩
        · have hsk5 : (skip 1 s5).length ≤ s5.length := by simp [skip]
          refine Safe.bind (parseString_safe quote true _ _ (le_refl _)) ?_
          rintro ⟨attrtext, s6⟩ hl6
          simp only at hl6 ⊢
          exact (ih _ s6 (by omega)).mono (fun x hx => by omega)
      · exact (ih _ s3 (by omega)).mono (fun x hx => by omega)

theorem parseOpenTag_safe (s : Str) : Safe (fun x => x.2.length < s.length) (parseOpenTag s) := by
  simp only [parseOpenTag]
  refine Safe.bind (parseXMLName_safe s) ?_
  rintro ⟨tag, s1⟩ hl
  simp only at hl ⊢
  exact (parseOpenTagLoop_safe _ _ s1 (le_refl _)).mono (fun x hx => by omega)

theorem parseTextLoop_safe (fuel : Nat) : ∀ (s : Str), s.length + 1 ≤ fuel →
    Safe (fun r => r.length ≤ s.length) (parseTextLoop fuel s) := by
  induction fuel with
  | zero => intro s h; omega
  | succ fuel ih =>
    intro s hf
    simp only [parseTextLoop]
    split_ifs
    · refine Safe.bind (peek_safe false s) ?_
      rintro ⟨c, s1⟩ ⟨hl1, -⟩
      simp only at hl1 ⊢
      split_ifs
      · show s1.length ≤ s.length
        exact hl1
      · simp only [pure_bind]
        refine Safe.bind (nextChar_safe s1) ?_
        rintro ⟨c2, s2⟩ hl2
        simp only at hl2 ⊢
        exact (ih s2 (by omega)).mono (fun x hx => by omega)
    · exact le_refl _

theorem parseText_safe (c : Char) (rest : Str) (hw : is_whitespace c = false) (hc : c ≠ '<') :
    Safe (fun x => x.2.length < (c :: rest).length) (parseText (c :: rest)) := by
  have hp := peek_cons_of_not c rest hw
  have hc' : (c == '<') = false := by simpa using hc
  have hn : hasNext (c :: rest) = true := rfl
  have hloop : parseTextLoop ((c :: rest).length + 1) (c :: rest) =
      parseTextLoop (rest.length + 1) rest := by
    rw [List.length_cons, parseTextLoop]
    simp only [hn, if_true, hp, bind, Except.bind, hc', Bool.false_eq_true, if_false, pure,
      Except.pure, nextChar]
  simp only [parseText, hloop]
  refine Safe.bind (parseTextLoop_safe (rest.length + 1) rest (le_refl _)) ?_
  intro r hr
  refine Safe.bind (parseString_safe (Char.ofNat 0) false _ _ (le_refl _)) ?_
  rintro ⟨text, r2⟩ -
  show r.length < (c :: rest).length
  simp only [List.length_cons]
  omega

theorem peek_safe_plain (s : Str) :
    Safe (fun x => x.2.length ≤ s.length ∧ ∃ rest, x.2 = x.1 :: rest ∧ is_whitespace x.1 = false)
      (peek false s) := by
  have h := peek_safe false s
  cases hp : peek false s with
  | error e => rw [hp] at h; exact h
  | ok v =>
    obtain ⟨c, s1⟩ := v
    rw [hp] at h
    obtain ⟨rest, hr, -, hw⟩ := peek_ok hp
    exact ⟨h.1, rest, hr, hw⟩

/-- With the bound `parse` passes, `parseElement` and its child loop give a
result of the program, and `parseElement` consumes at least one character. -/
theorem parseElement_safe (fuel : Nat) :
    (∀ (s : Str), 2 * s.length + 1 ≤ fuel →
      Safe (fun x => x.2.length < s.length) (parseElement fuel s)) ∧
    (∀ (element : Node) (s : Str), 2 * s.length + 2 ≤ fuel →
      Safe (fun x => x.2.length ≤ s.length) (parseElementLoop fuel element s)) := by
  induction fuel with
  | zero =>
    constructor
    · intro s h; omega
    · intro element s h; omega
  | succ fuel ih =>
    constructor
    · intro s hf
      simp only [parseElement]
      refine Safe.bind (peek_safe_plain s) ?_
      rintro ⟨c, s1⟩ ⟨hl1, rest, hr, hw⟩
      simp only at hl1 hr hw ⊢
      subst hr
      by_cases hc : c = '<'
      · subst hc
        simp only [bne_self_eq_false, Bool.false_eq_true, if_false, pure_bind]
        refine Safe.bind (nextChar_safe _) ?_
        rintro ⟨c1, s2⟩ hl2
        simp only at hl2 ⊢
        refine Safe.bind (peek_safe false s2) ?_
        rintro ⟨c2, s3⟩ ⟨hl3, -⟩
        simp only at hl3 ⊢
        split_ifs
        · exact ⟨_, rfl⟩
        · refine Safe.bind (parseComment_safe s3) ?_
          intro r hl4
          show r.length < s.length
          omega
        · refine Safe.bind (parseOpenTag_safe s3) ?_
          rintro ⟨el, s4⟩ hl4
          simp only at hl4 ⊢
          refine Safe.bind (nextChar_safe s4) ?_
          rintro ⟨c3, s5⟩ hl5
          simp only at hl5 ⊢
          have hsk := length_skip_le false s5
          split_ifs
          · refine Safe.bind (expectChar_safe false '>' s5) ?_
            intro r hl6
            show r.length < s.length
            omega
          · refine Safe.bind (ih.2 el (skipWhitespace false s5) (by omega)) ?_
            rintro ⟨el', s6⟩ hl6
            simp only at hl6 ⊢
            have hsk6 : (skip 2 s6).length ≤ s6.length := by simp [skip]
            refine Safe.bind (expectStr_safe _ _) ?_
            intro s7 hl7
            refine Safe.bind (expectChar_safe false '>' s7) ?_
            intro r hl8
            show r.length < s.length
            omega
          · exact ⟨_, rfl⟩
      · have hc' : (c != '<') = true := by simpa using hc
        simp only [hc', if_true]
        refine Safe.bind (parseText_safe c rest hw hc) ?_
        rintro ⟨text, r⟩ hl2
        show r.length < s.length
        have : r.length < (c :: rest).length := hl2
        omega
    · intro element s hf
      simp only [parseElementLoop]
      split_ifs
      · exact le_refl _
      · refine Safe.bind (ih.1 s (by omega)) ?_
        rintro ⟨sub, s1⟩ hl1
        simp only at hl1 ⊢
        have hsk := length_skip_le false s1
        exact (ih.2 _ (skipWhitespace false s1) (by omega)).mono (fun x hx => by omega)

theorem length_goBack_le (source s : Str) : (goBack source s).length ≤ source.length := by
  simp [goBack]

theorem parseDeclaration_safe (source : Str) :
    Safe (fun x => x.2.length ≤ source.length) (parseDeclaration source) := by
  simp only [parseDeclaration]
  refine Safe.bind (expectChar_safe false '<' source) ?_
  intro s1 hl1
  refine Safe.bind (peek_safe false s1) ?_
  rintro ⟨c, s2⟩ ⟨hl2, -⟩
  simp only at hl2 ⊢
  split_ifs
  · refine Safe.bind (nextChar_safe s2) ?_
    rintro ⟨c1, s3⟩ hl3
    simp only at hl3 ⊢
    refine Safe.bind (parseOpenTag_safe s3) ?_
    rintro ⟨node, s4⟩ hl4
    simp only at hl4 ⊢
    refine Safe.bind (expectStr_safe _ s4) ?_
    intro s5 hl5
    by_cases htag : (node.getTag != "xml".toList) = true
    · rw [if_pos htag]
      exact ⟨_, rfl⟩
    · rw [if_neg htag]
      simp only [pure_bind]
      split_ifs
      · exact ⟨_, rfl⟩
      · show s5.length ≤ source.length
        omega
  · exact length_goBack_le source s2

theorem parseRootLoop_safe (n : Nat) : ∀ (s : Str), s.length + 1 ≤ n →
    Safe (fun _ => True) (parseRootLoop n s) := by
  induction n with
  | zero => intro s h; omega
  | succ n ih =>
    intro s hn
    simp only [parseRootLoop]
    refine Safe.bind ((parseElement_safe _).1 s (by omega)) ?_
    rintro ⟨root, s1⟩ hl
    simp only at hl ⊢
    cases root with
    | none => exact ih s1 (by omega)
    | some x => exact trivial

theorem parse_safe (source : Str) : Safe (fun _ => True) (parse source) := by
  simp only [parse]
  refine Safe.bind (parseDeclaration_safe source) ?_
  rintro ⟨document, s⟩ -
  refine Safe.bind (parseRootLoop_safe _ s (le_refl _)) ?_
  rintro ⟨root, r⟩ -
  exact trivial

theorem parseValue_safe (s : Str) : Safe (fun x => x.2.length ≤ s.length) (parseValue s) := by
  simp only [parseValue]
  refine Safe.bind (peek_safe true s) ?_
  rintro ⟨c, s1⟩ ⟨hl1, -⟩
  simp only at hl1 ⊢
  split_ifs
  · refine Safe.bind (nextChar_safe s1) ?_
    rintro ⟨c1, s2⟩ hl2
    simp only at hl2 ⊢
    exact (parseString_safe c true _ s2 (le_refl _)).mono (fun x hx => by omega)
  · refine Safe.bind (nextChar_safe s1) ?_
    rintro ⟨c1, s2⟩ hl2
    simp only at hl2 ⊢
    have hspan : (readUntil ')' s2).2.length ≤ s2.length := length_span_snd_le s2
    refine Safe.bind (expectChar_safe true ')' _) ?_
    intro r hl3
    show r.length ≤ s.length
    omega
  · have hspan : (readUntilWhitespace s1).2.length ≤ s1.length := length_span_snd_le s1
    show (readUntilWhitespace s1).2.length ≤ s.length
    omega

theorem parseSubElementsAttrs_safe (fuel : Nat) : ∀ (subnode : Node) (s : Str),
    s.length + 1 ≤ fuel →
    Safe (fun x => x.2.length ≤ s.length) (parseSubElementsAttrs fuel subnode s) := by
  induction fuel with
  | zero => intro subnode s h; omega
  | succ fuel ih =>
    intro subnode s hf
    simp only [parseSubElementsAttrs]
    split_ifs
    · refine Safe.bind (peek_safe true s) ?_
      rintro ⟨c, s1⟩ ⟨hl1, -⟩
      simp only at hl1 ⊢
      split_ifs
      · refine Safe.bind (parseName_safe true s1) ?_
        rintro ⟨attrname, s2⟩ hl2
        simp only at hl2 ⊢
        have hsk2 := length_skip_le true s2
        refine Safe.bind (parseValue_safe _) ?_
        rintro ⟨value, s3⟩ hl3
        simp only at hl3 ⊢
        have hsk3 := length_skip_le true s3
        exact (ih _ (skipWhitespace true s3) (by omega)).mono (fun x hx => by omega)
      · show s1.length ≤ s.length
        exact hl1
    · exact le_refl _

/-- With the bound `parse_vcm` passes, `parseSubElements` and its loop give a
result of the program. -/
theorem parseSubElements_safe (fuel : Nat) :
    (∀ (node : Node) (s : Str), 2 * s.length + 2 ≤ fuel →
      Safe (fun x => x.2.length ≤ s.length) (parseSubElements fuel node s)) ∧
    (∀ (node : Node) (s : Str), 2 * s.length + 1 ≤ fuel →
      Safe (fun x => x.2.length ≤ s.length) (parseSubElementsLoop fuel node s)) := by
  induction fuel with
  | zero =>
    constructor
    · intro node s h; omega
    · intro node s h; omega
  | succ fuel ih =>
    constructor
    · intro node s hf
      have hsk := length_skip_le true s
      simp only [parseSubElements]
      cases fuel with
      | zero => omega
      | succ fuel =>
        exact (ih.2 node (skipWhitespace true s) (by omega)).mono (fun x hx => by omega)
    · intro node s hf
      simp only [parseSubElementsLoop]
      split_ifs
      · refine Safe.bind (peek_safe true s) ?_
        rintro ⟨c, s1⟩ ⟨hl1, -⟩
        simp only at hl1 ⊢
        split_ifs
        · exact ⟨_, rfl⟩
        · simp only [pure_bind]
          refine Safe.bind (nextChar_safe s1) ?_
          rintro ⟨c1, s2⟩ hl2
          simp only at hl2 ⊢
          refine Safe.bind (parseName_safe true s2) ?_
          rintro ⟨name, s3⟩ hl3
          simp only at hl3 ⊢
          have hsk3 := length_skip_le true s3
          refine Safe.bind (parseSubElementsAttrs_safe _ _ (skipWhitespace true s3)
            (le_refl _)) ?_
          rintro ⟨subnode, s4⟩ hl4
          simp only at hl4 ⊢
          split_ifs
          · show s4.length ≤ s.length
            omega
          · refine Safe.bind (peek_safe true s4) ?_
            rintro ⟨c5, s5⟩ ⟨hl5, -⟩
            simp only at hl5 ⊢
            split_ifs
            · refine Safe.bind (nextChar_safe s5) ?_
              rintro ⟨c6, s6⟩ hl6
              simp only at hl6 ⊢
              refine Safe.bind (ih.1 subnode s6 (by omega)) ?_
              rintro ⟨subnode', s7⟩ hl7
              simp only at hl7 ⊢
              refine Safe.bind (expectChar_safe true '}' s7) ?_
              intro s8 hl8
              have hsk8 := length_skip_le true s8
              exact (ih.2 _ (skipWhitespace true s8) (by omega)).mono (fun x hx => by omega)
            · show s5.length ≤ s.length
              omega
            · exact (ih.2 _ s5 (by omega)).mono (fun x hx => by omega)
      · exact le_refl _

theorem parse_vcm_safe (source tag : Str) : Safe (fun _ => True) (parse_vcm source tag) := by
  simp only [parse_vcm]
  refine Safe.bind ((parseSubElements_safe _).1 _ source (le_refl _)) ?_
  rintro ⟨root, r⟩ -
  exact trivial

theorem Safe.of_ok {α : Type} {P : α → Prop} {m : Except Error α} {a : α} (hm : Safe P m)
    (h : m = .ok a) : P a := by
  rw [h] at hm
  exact hm

theorem Safe.ne_fuel {α : Type} {P : α → Prop} {m : Except Error α} (hm : Safe P m) :
    m ≠ .error .fuel := by
  intro h
  rw [h] at hm
  obtain ⟨msg, hmsg⟩ := hm
  cases hmsg

/-- Whenever `parseElement` returns, it has consumed at least one character;
its child loop never moves back. -/
theorem parseElement_consumes (fuel : Nat) :
    (∀ (s : Str) (res : Option Node) (r : Str), parseElement fuel s = .ok (res, r) →
      r.length < s.length) ∧
    (∀ (element : Node) (s : Str) (result : Node) (r : Str),
      parseElementLoop fuel element s = .ok (result, r) → r.length ≤ s.length) := by
  induction fuel with
  | zero =>
    constructor
    · intro s res r h; simp [parseElement] at h
    · intro element s result r h; simp [parseElementLoop] at h
  | succ fuel ih =>
    constructor
    · intro s res r h
      obtain ⟨c, s1, hp, h⟩ := (parseElement_ok_iff fuel s res r).1 h
      have hl1 := ((peek_safe false s).of_ok hp).1
      obtain ⟨rest, hr, -, hw⟩ := peek_ok hp
      simp only at hl1
      rcases h with ⟨hc, text, ht, -⟩ | ⟨-, c1, s2, c2, s3, hn, hp2, h⟩
      · subst hr
        have := (parseText_safe c rest hw hc).of_ok ht
        simp only at this
        omega
      · have hl2 := (nextChar_safe s1).of_ok hn
        have hl3 := ((peek_safe false s2).of_ok hp2).1
        simp only at hl2 hl3
        rcases h with ⟨-, -, hcm, -⟩ | ⟨-, el, s4, c3, s5, ho, hn2, h⟩
        · have := (parseComment_safe s3).of_ok hcm
          simp only at this
          omega
        · have hl4 := (parseOpenTag_safe s3).of_ok ho
          have hl5 := (nextChar_safe s4).of_ok hn2
          simp only at hl4 hl5
          rcases h with ⟨-, he, -⟩ | ⟨-, el', s6, s7, hl, he, he2, -⟩
          · have := (expectChar_safe false '>' s5).of_ok he
            simp only at this
            omega
          · have hl6 := ih.2 _ _ _ _ hl
            have hsk := length_skip_le false s5
            have hl7 := (expectStr_safe _ _).of_ok he
            have hl8 := (expectChar_safe false '>' s7).of_ok he2
            have hsk6 : (skip 2 s6).length ≤ s6.length := by simp [skip]
            simp only at hl7 hl8
            omega
    · intro element s result r h
      rcases (parseElementLoop_ok_iff fuel element s result r).1 h with
        ⟨-, -, rfl⟩ | ⟨-, sub, s1, hp, hl⟩
      · exact le_refl _
      · have h1 := ih.1 _ _ _ hp
        have h2 := ih.2 _ _ _ _ hl
        have hsk := length_skip_le false s1
        omega

/-- C23. `xml::parse` and `xml::parse_vcm` return on every source: the result
is a document or a parsing error (the recursion bound the model passes, twice
the length of the source plus two, is never exhausted). Every loop needs no
more iterations than its bound in the number of characters left, because every
iteration that does not fail consumes a character: the root loop and the child
loop of an element run `parseElement`, which consumes at least one character
whenever it returns; an iteration of the attribute loop reads a name with
`parseXMLName` (`parseName` in the VCM dialect), which consumes at least one
character; an iteration of the VCM scope loop consumes its `@`. A source that
ends inside an unclosed element or block fails with `unexpected end`. -/
theorem parse_terminates (source tag : Str) :
    ((∃ document, parse source = .ok document) ∨
      ∃ msg, parse source = .error (.parsing msg)) ∧
    ((∃ document, parse_vcm source tag = .ok document) ∨
      ∃ msg, parse_vcm source tag = .error (.parsing msg)) ∧
    (∀ s n, s.length + 1 ≤ n → parseRootLoop n s ≠ .error .fuel) ∧
    (∀ element s fuel, 2 * s.length + 2 ≤ fuel →
      parseElementLoop fuel element s ≠ .error .fuel) ∧
    (∀ node s fuel, s.length + 1 ≤ fuel → parseOpenTagLoop fuel node s ≠ .error .fuel) ∧
    (∀ s fuel, s.length + 1 ≤ fuel → parseTextLoop fuel s ≠ .error .fuel) ∧
    (∀ node s fuel, 2 * s.length + 1 ≤ fuel →
      parseSubElementsLoop fuel node s ≠ .error .fuel) ∧
    (∀ subnode s fuel, s.length + 1 ≤ fuel →
      parseSubElementsAttrs fuel subnode s ≠ .error .fuel) ∧
    (∀ fuel s res r, parseElement fuel s = .ok (res, r) → r.length < s.length) ∧
    (∀ s name r, parseXMLName s = .ok (name, r) → r.length < s.length) ∧
    (∀ s name r, parseName true s = .ok (name, r) → r.length < s.length) ∧
    (∀ s c r, nextChar s = .ok (c, r) → r.length < s.length) ∧
    parse "<a>".toList = .error (.parsing "unexpected end") ∧
    parse "<a><b x=\"1\">text".toList = .error (.parsing "unexpected end") ∧
    parse_vcm "@a \x7b".toList "root".toList = .error (.parsing "unexpected end") := by
  refine ⟨?_, ?_, ?_, ?_, ?_, ?_, ?_, ?_, ?_, ?_, ?_, ?_, by decide, by decide, by decide⟩
  · rcases (parse_safe source).result with ⟨d, hd, -⟩ | h
    · exact Or.inl ⟨d, hd⟩
    · exact Or.inr h
  · rcases (parse_vcm_safe source tag).result with ⟨d, hd, -⟩ | h
    · exact Or.inl ⟨d, hd⟩
    · exact Or.inr h
  · exact fun s n h => (parseRootLoop_safe n s h).ne_fuel
  · exact fun element s fuel h => ((parseElement_safe fuel).2 element s h).ne_fuel
  · exact fun node s fuel h => (parseOpenTagLoop_safe fuel node s h).ne_fuel
  · exact fun s fuel h => (parseTextLoop_safe fuel s h).ne_fuel
  · exact fun node s fuel h => ((parseSubElements_safe fuel).2 node s h).ne_fuel
  · exact fun subnode s fuel h => (parseSubElementsAttrs_safe fuel subnode s h).ne_fuel
  · exact fun fuel s res r h => (parseElement_consumes fuel).1 s res r h
  · exact fun s name r h => (parseXMLName_safe s).of_ok h
  · exact fun s name r h => (parseName_safe true s).of_ok h
  · intro s c r h
    have := (nextChar_safe s).of_ok h
    simp only at this
    omega

end xml
